import Mathlib

/-!
Homomorphic Implementor's Toolkit: matrix tiling, containers and the op-counting evaluator

A shallow embedding of
* `encode_matrix` / `decode_matrix` and the `EncryptedMatrix` container
  (`src/hit/api/linearalgebra/encryptedmatrix.cpp`),
* the `OpCount` evaluator (`src/hit/api/evaluator/opcount.cpp`),
* the parameter tables, `isPow2`, `decodePlaintext` and `diff2Norm` (`hit/common.cpp`),
* `CKKSEncryptor::encryptMatrix` (`api/encryptor.cpp`).

Conventions of the embedding.
* A C++ `int` or `size_t` holding a size, an index or a counter is a mathematical
  integer (`Nat` where the value is a size or a loop index, `Int` where the code
  can see a negative value).
* A `double` that is only stored, copied and compared is an element of an
  arbitrary type carrying the constant `0`.
* A `throw` is `Except.error`; an unchecked read past the end of a `std::vector`
  or the conversion of a non-finite `double` to `int` is the error
  `Error.undefined_behaviour`, so that a theorem `f x = .ok y` also says that
  no such read happens.
* A loop that appends to a vector is a left fold whose accumulator is the vector.
* Where an `int` is compared with a `std::size_t` and a negative value can reach the
  comparison, the `int` is converted first (`Api.to_size_t`).
* `diff2Norm` is stated on an ordered field with the square root as a parameter; its
  theorems take the real numbers and `Real.sqrt`.
* A failure of the backend (SEAL) is `Error.backend_error`, not a
  `std::invalid_argument` of the code.
-/

namespace HIT

/-! ## Errors and unchecked reads -/

/-- The ways a modelled function can fail: a `std::invalid_argument` thrown by the
code, undefined behaviour, and a failure of the backend (SEAL), whatever its C++
type (the `BackendError` of the specification). -/
inductive Error where
  | invalid_argument
  | undefined_behaviour
  | backend_error
  deriving DecidableEq, Repr

/-- The unchecked read `v[i]` of a `std::vector`. -/
def index {β : Type} (v : List β) (i : Nat) : Except Error β :=
  match v[i]? with
  | some x => Except.ok x
  | none => Except.error Error.undefined_behaviour

/-! ## Matrices and encoding units -/

/-- A `boost::numeric::ublas::matrix` built by `Matrix(size1, size2, data)`: the
two dimensions and the row-major storage vector, stored as given. -/
structure Matrix (α : Type) where
  size1 : Nat
  size2 : Nat
  data : List α
  deriving DecidableEq, Repr

/-- The storage vector holds exactly `size1 * size2` entries. -/
def Matrix.WellFormed {α : Type} (m : Matrix α) : Prop :=
  m.data.length = m.size1 * m.size2

/-- Entry `(r, c)` of a row-major matrix (`0` outside the storage). -/
def Matrix.entry {α : Type} [Zero α] (m : Matrix α) (r c : Nat) : α :=
  m.data.getD (r * m.size2 + c) 0

/-- Modelled from the spec: the class `EncodingUnit` (encodingunit.h is not part of
the sources) is an `(h, w)` pair, read through `encoding_height()` and
`encoding_width()`. -/
structure EncodingUnit where
  encoding_height : Nat
  encoding_width : Nat
  deriving DecidableEq, Repr

/-- The value of `ceil(a / static_cast<double>(b))`; `none` stands for the
non-finite results of a division by zero. -/
def ceil_div (a : Int) (b : Nat) : Option Int :=
  if b = 0 then none else some (-((-a) / (b : Int)))

/-- The body of the two inner loops of `encode_matrix`: appends cell `(k, l)` of
unit `(i, j)` to `unit_ij`. -/
def encode_cell {α : Type} [Zero α] (mat : Matrix α) (unit : EncodingUnit)
    (i j k : Nat) (unit_ij : List α) (l : Nat) : Except Error (List α) :=
  let height := mat.size1
  let width := mat.size2
  let row := unit.encoding_height * i + k
  let col := unit.encoding_width * j + l
  if row < height ∧ col < width then do
    let x ← index mat.data (row * width + col)
    pure (unit_ij ++ [x])
  else
    pure (unit_ij ++ [0])

/-- The loops over `k` and `l` of `encode_matrix`, and the tile built from them. -/
def encode_unit {α : Type} [Zero α] (mat : Matrix α) (unit : EncodingUnit)
    (i j : Nat) : Except Error (Matrix α) := do
  let unit_ij ← (List.range unit.encoding_height).foldlM
    (fun acc k => (List.range unit.encoding_width).foldlM (encode_cell mat unit i j k) acc) []
  pure ⟨unit.encoding_height, unit.encoding_width, unit_ij⟩

/-- The function `encode_matrix(mat, unit)`. -/
def encode_matrix {α : Type} [Zero α] (mat : Matrix α) (unit : EncodingUnit) :
    Except Error (List (List (Matrix α))) :=
  let height := mat.size1
  let width := mat.size2
  match ceil_div height unit.encoding_height, ceil_div width unit.encoding_width with
  | some num_vertical_units, some num_horizontal_units =>
    (List.range num_vertical_units.toNat).mapM fun i =>
      (List.range num_horizontal_units.toNat).mapM fun j => encode_unit mat unit i j
  | _, _ => Except.error Error.undefined_behaviour

/-- The innermost loop body of `decode_matrix`: appends entry `j * width + l` of a tile. -/
def decode_cell {α : Type} (m : Matrix α) (width j : Nat) (linear_matrix : List α) (l : Nat) :
    Except Error (List α) := do
  let x ← index m.data (j * width + l)
  pure (linear_matrix ++ [x])

/-- The loop over `k` of `decode_matrix`: checks tile `mats[i][k]` and appends the
part of its row `j` that lies left of `trim_width`. -/
def decode_tile_row {α : Type} (mats_i : List (Matrix α)) (height width trim_width j : Nat)
    (linear_matrix : List α) (k : Nat) : Except Error (List α) := do
  let m ← index mats_i k
  if m.size1 ≠ height ∨ m.size2 ≠ width then
    throw Error.invalid_argument
  else
    ((List.range width).takeWhile fun l => decide (k * width + l < trim_width)).foldlM
      (decode_cell m width j) linear_matrix

/-- The loop over `i` of `decode_matrix`: checks the length of row `i` of the grid
and appends the matrix rows it holds above `trim_height`. -/
def decode_grid_row {α : Type} (mats : List (List (Matrix α))) (row_size height width : Nat)
    (trim_height trim_width : Nat) (linear_matrix : List α) (i : Nat) : Except Error (List α) := do
  let mats_i ← index mats i
  if mats_i.length ≠ row_size then
    throw Error.invalid_argument
  else
    ((List.range height).takeWhile fun j => decide (i * height + j < trim_height)).foldlM
      (fun acc j => (List.range row_size).foldlM
        (decode_tile_row mats_i height width trim_width j) acc)
      linear_matrix

/-- The function `decode_matrix(mats, trim_height, trim_width)`. -/
def decode_matrix {α : Type} (mats : List (List (Matrix α))) (trim_height trim_width : Int) :
    Except Error (Matrix α) :=
  match mats with
  | [] => Except.error Error.invalid_argument
  | mats_0 :: _ =>
    match mats_0 with
    | [] => Except.error Error.invalid_argument
    | mats_0_0 :: _ => do
      let height := mats_0_0.size1
      let width := mats_0_0.size2
      let trim_height : Nat := if trim_height < 0 then mats.length * height else trim_height.toNat
      let trim_width : Nat := if trim_width < 0 then mats_0.length * width else trim_width.toNat
      let linear_matrix ← (List.range mats.length).foldlM
        (decode_grid_row mats mats_0.length height width trim_height trim_width) []
      pure ⟨trim_height, trim_width, linear_matrix⟩

/-- The value the tiling rule gives to cell `(k, l)` of unit `(i, j)`. -/
def tile_entry {α : Type} [Zero α] (mat : Matrix α) (unit : EncodingUnit) (i j k l : Nat) : α :=
  if unit.encoding_height * i + k < mat.size1 ∧ unit.encoding_width * j + l < mat.size2 then
    mat.entry (unit.encoding_height * i + k) (unit.encoding_width * j + l)
  else 0

/-- The tile the tiling rule gives to unit `(i, j)`, rows concatenated. -/
def tile {α : Type} [Zero α] (mat : Matrix α) (unit : EncodingUnit) (i j : Nat) : Matrix α :=
  ⟨unit.encoding_height, unit.encoding_width,
    (List.range unit.encoding_height).flatMap fun k =>
      (List.range unit.encoding_width).map fun l => tile_entry mat unit i j k l⟩

/-- The entries `decode_matrix` collects, in order, from the grid whose tile `(i, k)` is
`T i k` (`R` rows of `C` tiles of size `h × w`), trimmed to `th × tw`. -/
def decode_entries {α : Type} (T : Nat → Nat → Matrix α) (R C h w th tw : Nat) : List α :=
  (List.range R).flatMap fun i =>
    ((List.range h).takeWhile fun j => decide (i * h + j < th)).flatMap fun j =>
      (List.range C).flatMap fun k =>
        ((List.range w).takeWhile fun l => decide (k * w + l < tw)).flatMap fun l =>
          ((T i k).data[j * w + l]?).toList

/-! ## Ciphertext metadata -/

/-- The fields of `CKKSCiphertext` (ciphertext.h). The SEAL ciphertext is kept as the
sequence of bytes of the backend; a `double` is a rational number. -/
structure CKKSCiphertext where
  raw_pt : List ℚ
  seal_ct : List Nat
  scale_ : ℚ
  initialized : Bool
  he_level_ : Int
  num_slots_ : Nat
  deriving DecidableEq, Repr

/-- Modelled from the spec: the accessor `he_level()` declared in ciphertext.h
(ciphertext.cpp is not part of the sources) returns the ciphertext's level. -/
def CKKSCiphertext.he_level (ct : CKKSCiphertext) : Int := ct.he_level_

/-- Modelled from the spec: the accessor `scale()` declared in ciphertext.h
(ciphertext.cpp is not part of the sources) returns the ciphertext's scale. -/
def CKKSCiphertext.scale (ct : CKKSCiphertext) : ℚ := ct.scale_

/-! ## The op-counting evaluator -/

/-- One call of an evaluator hook on a ciphertext `ct`: the hook and its other
arguments. A second ciphertext, passed by const reference, is a value of type `κ`:
the ciphertext itself for a hook, the name of a variable in a circuit. -/
inductive Op (κ : Type) where
  | rotate_right (steps : Int)
  | rotate_left (steps : Int)
  | negate
  | add (ct2 : κ)
  | add_plain_scalar (scalar : ℚ)
  | add_plain (plain : List ℚ)
  | sub (ct2 : κ)
  | sub_plain_scalar (scalar : ℚ)
  | sub_plain (plain : List ℚ)
  | multiply (ct2 : κ)
  | multiply_plain_scalar (scalar : ℚ)
  | multiply_plain (plain : List ℚ)
  | square
  | mod_down_to_level (level : Int)
  | rescale_to_next
  | relinearize
  deriving DecidableEq, Repr

/-- Replaces the second ciphertext of an `Op`. -/
def Op.map {κ κ2 : Type} (f : κ → κ2) : Op κ → Op κ2
  | Op.rotate_right steps => Op.rotate_right steps
  | Op.rotate_left steps => Op.rotate_left steps
  | Op.negate => Op.negate
  | Op.add ct2 => Op.add (f ct2)
  | Op.add_plain_scalar scalar => Op.add_plain_scalar scalar
  | Op.add_plain plain => Op.add_plain plain
  | Op.sub ct2 => Op.sub (f ct2)
  | Op.sub_plain_scalar scalar => Op.sub_plain_scalar scalar
  | Op.sub_plain plain => Op.sub_plain plain
  | Op.multiply ct2 => Op.multiply (f ct2)
  | Op.multiply_plain_scalar scalar => Op.multiply_plain_scalar scalar
  | Op.multiply_plain plain => Op.multiply_plain plain
  | Op.square => Op.square
  | Op.mod_down_to_level level => Op.mod_down_to_level level
  | Op.rescale_to_next => Op.rescale_to_next
  | Op.relinearize => Op.relinearize

/-- The ciphertext variables of a program: the ciphertext each name holds. -/
abbrev Store := Nat → CKKSCiphertext

/-- A circuit: a finite sequence of hook calls, each on the ciphertext held by a
variable, a second ciphertext being named by its variable. -/
abbrev Circuit := List (Nat × Op Nat)

/-- The level of every variable of a store. -/
def he_levels (s : Store) : Nat → Int := fun n => (s n).he_level

/-- The class `DepthFinder`, whose implementation is not part of the sources, as a
parameter: its state `σ`, one function per hook that `OpCount` calls (from the
state, the ciphertext passed by reference and the other arguments to the new
state and the ciphertext as the hook leaves it), `reset_internal` and
`get_multiplicative_depth`. -/
structure DepthFinder (σ : Type) where
  rotate_right_inplace_internal : σ → CKKSCiphertext → Int → σ × CKKSCiphertext
  rotate_left_inplace_internal : σ → CKKSCiphertext → Int → σ × CKKSCiphertext
  negate_inplace_internal : σ → CKKSCiphertext → σ × CKKSCiphertext
  add_inplace_internal : σ → CKKSCiphertext → CKKSCiphertext → σ × CKKSCiphertext
  add_plain_inplace_internal_scalar : σ → CKKSCiphertext → ℚ → σ × CKKSCiphertext
  add_plain_inplace_internal : σ → CKKSCiphertext → List ℚ → σ × CKKSCiphertext
  sub_inplace_internal : σ → CKKSCiphertext → CKKSCiphertext → σ × CKKSCiphertext
  sub_plain_inplace_internal_scalar : σ → CKKSCiphertext → ℚ → σ × CKKSCiphertext
  sub_plain_inplace_internal : σ → CKKSCiphertext → List ℚ → σ × CKKSCiphertext
  multiply_inplace_internal : σ → CKKSCiphertext → CKKSCiphertext → σ × CKKSCiphertext
  multiply_plain_inplace_internal_scalar : σ → CKKSCiphertext → ℚ → σ × CKKSCiphertext
  multiply_plain_inplace_internal : σ → CKKSCiphertext → List ℚ → σ × CKKSCiphertext
  square_inplace_internal : σ → CKKSCiphertext → σ × CKKSCiphertext
  mod_down_to_level_inplace_internal : σ → CKKSCiphertext → Int → σ × CKKSCiphertext
  rescale_to_next_inplace_internal : σ → CKKSCiphertext → σ × CKKSCiphertext
  relinearize_inplace_internal : σ → CKKSCiphertext → σ × CKKSCiphertext
  reset_internal : σ → σ
  get_multiplicative_depth : σ → Int

/-- The hook of the `DepthFinder` that an `Op` names, applied to `ct`. -/
def DepthFinder.hook {σ : Type} (df : DepthFinder σ) (s : σ) (ct : CKKSCiphertext) :
    Op CKKSCiphertext → σ × CKKSCiphertext
  | Op.rotate_right steps => df.rotate_right_inplace_internal s ct steps
  | Op.rotate_left steps => df.rotate_left_inplace_internal s ct steps
  | Op.negate => df.negate_inplace_internal s ct
  | Op.add ct2 => df.add_inplace_internal s ct ct2
  | Op.add_plain_scalar scalar => df.add_plain_inplace_internal_scalar s ct scalar
  | Op.add_plain plain => df.add_plain_inplace_internal s ct plain
  | Op.sub ct2 => df.sub_inplace_internal s ct ct2
  | Op.sub_plain_scalar scalar => df.sub_plain_inplace_internal_scalar s ct scalar
  | Op.sub_plain plain => df.sub_plain_inplace_internal s ct plain
  | Op.multiply ct2 => df.multiply_inplace_internal s ct ct2
  | Op.multiply_plain_scalar scalar => df.multiply_plain_inplace_internal_scalar s ct scalar
  | Op.multiply_plain plain => df.multiply_plain_inplace_internal s ct plain
  | Op.square => df.square_inplace_internal s ct
  | Op.mod_down_to_level level => df.mod_down_to_level_inplace_internal s ct level
  | Op.rescale_to_next => df.rescale_to_next_inplace_internal s ct
  | Op.relinearize => df.relinearize_inplace_internal s ct

/-- The six counters of `OpCount`. -/
structure Counters where
  multiplies_ : Int
  additions_ : Int
  negations_ : Int
  rotations_ : Int
  mod_downs_ : Int
  mod_down_multi_levels_ : Int
  deriving DecidableEq, Repr

/-- The counting helpers `count_rotation_ops`, `count_addition_ops` and
`count_multiple_ops` that the hooks of `OpCount` call. They are declared in
opcount.h, which is not part of the sources, take no argument, and are a parameter
here: each is a function on the counters. -/
structure CountOps where
  count_rotation_ops : Counters → Counters
  count_addition_ops : Counters → Counters
  count_multiple_ops : Counters → Counters

/-- The state of an `OpCount` evaluator: its counters and its embedded `DepthFinder`. -/
structure OpCount (σ : Type) where
  counters : Counters
  depth_finder : σ

namespace OpCount

variable {σ : Type}

/-- The method `OpCount::reset_internal`. -/
def reset_internal (df : DepthFinder σ) (oc : OpCount σ) : OpCount σ :=
  { counters := ⟨0, 0, 0, 0, 0, 0⟩, depth_finder := df.reset_internal oc.depth_finder }

/-- The method `OpCount::get_multiplicative_depth`. -/
def get_multiplicative_depth (df : DepthFinder σ) (oc : OpCount σ) : Int :=
  df.get_multiplicative_depth oc.depth_finder

/-- Runs a hook of the embedded `DepthFinder` on `ct` after the counters have been
brought to `c`. -/
def delegate (oc : OpCount σ) (c : Counters) (r : σ × CKKSCiphertext) :
    OpCount σ × CKKSCiphertext :=
  ({ oc with counters := c, depth_finder := r.1 }, r.2)

/-- The method `OpCount::rotate_right_inplace_internal`. -/
def rotate_right_inplace_internal (df : DepthFinder σ) (h : CountOps) (oc : OpCount σ)
    (ct : CKKSCiphertext) (steps : Int) : OpCount σ × CKKSCiphertext :=
  delegate oc (h.count_rotation_ops oc.counters)
    (df.rotate_right_inplace_internal oc.depth_finder ct steps)

/-- The method `OpCount::rotate_left_inplace_internal`. -/
def rotate_left_inplace_internal (df : DepthFinder σ) (h : CountOps) (oc : OpCount σ)
    (ct : CKKSCiphertext) (steps : Int) : OpCount σ × CKKSCiphertext :=
  delegate oc (h.count_rotation_ops oc.counters)
    (df.rotate_left_inplace_internal oc.depth_finder ct steps)

/-- The method `OpCount::negate_inplace_internal`. -/
def negate_inplace_internal (df : DepthFinder σ) (oc : OpCount σ)
    (ct : CKKSCiphertext) : OpCount σ × CKKSCiphertext :=
  delegate oc { oc.counters with negations_ := oc.counters.negations_ + 1 }
    (df.negate_inplace_internal oc.depth_finder ct)

/-- The method `OpCount::add_inplace_internal`. -/
def add_inplace_internal (df : DepthFinder σ) (h : CountOps) (oc : OpCount σ)
    (ct1 ct2 : CKKSCiphertext) : OpCount σ × CKKSCiphertext :=
  delegate oc (h.count_addition_ops oc.counters)
    (df.add_inplace_internal oc.depth_finder ct1 ct2)

/-- The method `OpCount::add_plain_inplace_internal(ct, double)`. -/
def add_plain_inplace_internal_scalar (df : DepthFinder σ) (h : CountOps) (oc : OpCount σ)
    (ct : CKKSCiphertext) (scalar : ℚ) : OpCount σ × CKKSCiphertext :=
  delegate oc (h.count_addition_ops oc.counters)
    (df.add_plain_inplace_internal_scalar oc.depth_finder ct scalar)

/-- The method `OpCount::add_plain_inplace_internal(ct, vector)`. -/
def add_plain_inplace_internal (df : DepthFinder σ) (h : CountOps) (oc : OpCount σ)
    (ct : CKKSCiphertext) (plain : List ℚ) : OpCount σ × CKKSCiphertext :=
  delegate oc (h.count_addition_ops oc.counters)
    (df.add_plain_inplace_internal oc.depth_finder ct plain)

/-- The method `OpCount::sub_inplace_internal`. -/
def sub_inplace_internal (df : DepthFinder σ) (h : CountOps) (oc : OpCount σ)
    (ct1 ct2 : CKKSCiphertext) : OpCount σ × CKKSCiphertext :=
  delegate oc (h.count_addition_ops oc.counters)
    (df.sub_inplace_internal oc.depth_finder ct1 ct2)

/-- The method `OpCount::sub_plain_inplace_internal(ct, double)`. -/
def sub_plain_inplace_internal_scalar (df : DepthFinder σ) (h : CountOps) (oc : OpCount σ)
    (ct : CKKSCiphertext) (scalar : ℚ) : OpCount σ × CKKSCiphertext :=
  delegate oc (h.count_addition_ops oc.counters)
    (df.sub_plain_inplace_internal_scalar oc.depth_finder ct scalar)

/-- The method `OpCount::sub_plain_inplace_internal(ct, vector)`. -/
def sub_plain_inplace_internal (df : DepthFinder σ) (h : CountOps) (oc : OpCount σ)
    (ct : CKKSCiphertext) (plain : List ℚ) : OpCount σ × CKKSCiphertext :=
  delegate oc (h.count_addition_ops oc.counters)
    (df.sub_plain_inplace_internal oc.depth_finder ct plain)

/-- The method `OpCount::multiply_inplace_internal`. -/
def multiply_inplace_internal (df : DepthFinder σ) (h : CountOps) (oc : OpCount σ)
    (ct1 ct2 : CKKSCiphertext) : OpCount σ × CKKSCiphertext :=
  delegate oc (h.count_multiple_ops oc.counters)
    (df.multiply_inplace_internal oc.depth_finder ct1 ct2)

/-- The method `OpCount::multiply_plain_inplace_internal(ct, double)`. -/
def multiply_plain_inplace_internal_scalar (df : DepthFinder σ) (h : CountOps) (oc : OpCount σ)
    (ct : CKKSCiphertext) (scalar : ℚ) : OpCount σ × CKKSCiphertext :=
  delegate oc (h.count_multiple_ops oc.counters)
    (df.multiply_plain_inplace_internal_scalar oc.depth_finder ct scalar)

/-- The method `OpCount::multiply_plain_inplace_internal(ct, vector)`. -/
def multiply_plain_inplace_internal (df : DepthFinder σ) (h : CountOps) (oc : OpCount σ)
    (ct : CKKSCiphertext) (plain : List ℚ) : OpCount σ × CKKSCiphertext :=
  delegate oc (h.count_multiple_ops oc.counters)
    (df.multiply_plain_inplace_internal oc.depth_finder ct plain)

/-- The method `OpCount::square_inplace_internal`. -/
def square_inplace_internal (df : DepthFinder σ) (h : CountOps) (oc : OpCount σ)
    (ct : CKKSCiphertext) : OpCount σ × CKKSCiphertext :=
  delegate oc (h.count_multiple_ops oc.counters)
    (df.square_inplace_internal oc.depth_finder ct)

/-- The method `OpCount::mod_down_to_level_inplace_internal`: the counters are
updated from `ct.he_level()` before the embedded `DepthFinder` changes the level. -/
def mod_down_to_level_inplace_internal (df : DepthFinder σ) (oc : OpCount σ)
    (ct : CKKSCiphertext) (level : Int) : OpCount σ × CKKSCiphertext :=
  let c := oc.counters
  let c1 := if ct.he_level - level > 0 then { c with mod_downs_ := c.mod_downs_ + 1 } else c
  let c2 := { c1 with mod_down_multi_levels_ := c1.mod_down_multi_levels_ + (ct.he_level - level) }
  delegate oc c2 (df.mod_down_to_level_inplace_internal oc.depth_finder ct level)

/-- The method `OpCount::rescale_to_next_inplace_internal`. -/
def rescale_to_next_inplace_internal (df : DepthFinder σ) (oc : OpCount σ)
    (ct : CKKSCiphertext) : OpCount σ × CKKSCiphertext :=
  delegate oc oc.counters (df.rescale_to_next_inplace_internal oc.depth_finder ct)

/-- The method `OpCount::relinearize_inplace_internal`. -/
def relinearize_inplace_internal (df : DepthFinder σ) (oc : OpCount σ)
    (ct : CKKSCiphertext) : OpCount σ × CKKSCiphertext :=
  delegate oc oc.counters (df.relinearize_inplace_internal oc.depth_finder ct)

/-- The hook of `OpCount` that an `Op` names, applied to `ct`. -/
def hook (df : DepthFinder σ) (h : CountOps) (oc : OpCount σ) (ct : CKKSCiphertext) :
    Op CKKSCiphertext → OpCount σ × CKKSCiphertext
  | Op.rotate_right steps => rotate_right_inplace_internal df h oc ct steps
  | Op.rotate_left steps => rotate_left_inplace_internal df h oc ct steps
  | Op.negate => negate_inplace_internal df oc ct
  | Op.add ct2 => add_inplace_internal df h oc ct ct2
  | Op.add_plain_scalar scalar => add_plain_inplace_internal_scalar df h oc ct scalar
  | Op.add_plain plain => add_plain_inplace_internal df h oc ct plain
  | Op.sub ct2 => sub_inplace_internal df h oc ct ct2
  | Op.sub_plain_scalar scalar => sub_plain_inplace_internal_scalar df h oc ct scalar
  | Op.sub_plain plain => sub_plain_inplace_internal df h oc ct plain
  | Op.multiply ct2 => multiply_inplace_internal df h oc ct ct2
  | Op.multiply_plain_scalar scalar => multiply_plain_inplace_internal_scalar df h oc ct scalar
  | Op.multiply_plain plain => multiply_plain_inplace_internal df h oc ct plain
  | Op.square => square_inplace_internal df h oc ct
  | Op.mod_down_to_level level => mod_down_to_level_inplace_internal df oc ct level
  | Op.rescale_to_next => rescale_to_next_inplace_internal df oc ct
  | Op.relinearize => relinearize_inplace_internal df oc ct

/-- One instruction under `OpCount`: the hook runs on the ciphertext of the named
variable, which then holds the ciphertext as the hook left it. -/
def step (df : DepthFinder σ) (h : CountOps) (st : OpCount σ × Store) (ins : Nat × Op Nat) :
    OpCount σ × Store :=
  let r := hook df h st.1 (st.2 ins.1) (ins.2.map st.2)
  (r.1, Function.update st.2 ins.1 r.2)

/-- A circuit under `OpCount`. -/
def run (df : DepthFinder σ) (h : CountOps) (st : OpCount σ × Store) (c : Circuit) :
    OpCount σ × Store :=
  c.foldl (step df h) st

/-- A call of `reset_internal` in a program whose ciphertext variables are `st.2`: the
method takes no ciphertext, so the store is not an argument of what it computes. -/
def reset (df : DepthFinder σ) (st : OpCount σ × Store) : OpCount σ × Store :=
  (reset_internal df st.1, st.2)

/-- The stores a circuit goes through under `OpCount`, the starting one first. -/
def trajectory (df : DepthFinder σ) (h : CountOps) (st : OpCount σ × Store) :
    Circuit → List Store
  | [] => [st.2]
  | ins :: c => st.2 :: trajectory df h (step df h st ins) c

end OpCount

namespace DepthFinder

variable {σ : Type}

/-- One instruction under a `DepthFinder` used as the evaluator. -/
def step (df : DepthFinder σ) (st : σ × Store) (ins : Nat × Op Nat) : σ × Store :=
  let r := df.hook st.1 (st.2 ins.1) (ins.2.map st.2)
  (r.1, Function.update st.2 ins.1 r.2)

/-- A circuit under a `DepthFinder` used as the evaluator. -/
def run (df : DepthFinder σ) (st : σ × Store) (c : Circuit) : σ × Store :=
  c.foldl (step df) st

/-- The stores a circuit goes through under a `DepthFinder`, the starting one first. -/
def trajectory (df : DepthFinder σ) (st : σ × Store) : Circuit → List Store
  | [] => [st.2]
  | ins :: c => st.2 :: trajectory df (step df st ins) c

/-- The level a hook leaves in the ciphertext depends only on the hook, on the levels
of the ciphertexts it is given and on its other arguments. -/
def LevelDetermined (df : DepthFinder σ) : Prop :=
  ∀ (op : Op Nat) (n : Nat) (s s2 : Store) (d d2 : σ),
    (∀ m, (s m).he_level = (s2 m).he_level) →
    (df.hook d (s n) (op.map s)).2.he_level = (df.hook d2 (s2 n) (op.map s2)).2.he_level

end DepthFinder

/-- The state of the `DepthFinder` of the specification: the level ciphertexts start
at and the depth found so far. -/
structure DepthState where
  initial_level : Int
  multiplicative_depth_ : Int
  deriving DecidableEq, Repr

/-- The effect of a `DepthFinder` hook that brings the ciphertext to level `l`. -/
def DepthState.observe (s : DepthState) (ct : CKKSCiphertext) (l : Int) :
    DepthState × CKKSCiphertext :=
  ({ s with multiplicative_depth_ := max s.multiplicative_depth_ (s.initial_level - l) },
    { ct with he_level_ := l })

/-- Modelled from the spec: the hooks of `DepthFinder` (depthfinder.cpp is not part
of the sources). "`rescaleToNext` decrements [the level]; `modSwitchToLevel` sets it;
every other op is identity on metadata. Tracks `max(initialLevel - observedMinLevel)`
as multiplicative depth"; `reset` clears the depth. -/
def specDepthFinder : DepthFinder DepthState where
  rotate_right_inplace_internal := fun s ct _ => (s, ct)
  rotate_left_inplace_internal := fun s ct _ => (s, ct)
  negate_inplace_internal := fun s ct => (s, ct)
  add_inplace_internal := fun s ct _ => (s, ct)
  add_plain_inplace_internal_scalar := fun s ct _ => (s, ct)
  add_plain_inplace_internal := fun s ct _ => (s, ct)
  sub_inplace_internal := fun s ct _ => (s, ct)
  sub_plain_inplace_internal_scalar := fun s ct _ => (s, ct)
  sub_plain_inplace_internal := fun s ct _ => (s, ct)
  multiply_inplace_internal := fun s ct _ => (s, ct)
  multiply_plain_inplace_internal_scalar := fun s ct _ => (s, ct)
  multiply_plain_inplace_internal := fun s ct _ => (s, ct)
  square_inplace_internal := fun s ct => (s, ct)
  mod_down_to_level_inplace_internal := fun s ct level => s.observe ct level
  rescale_to_next_inplace_internal := fun s ct => s.observe ct (ct.he_level - 1)
  relinearize_inplace_internal := fun s ct => (s, ct)
  reset_internal := fun s => { s with multiplicative_depth_ := 0 }
  get_multiplicative_depth := fun s => s.multiplicative_depth_

/-- Modelled from the spec: the counting helpers of opcount.h (not part of the
sources). "A rotation counts as one rotation and one addition (internal key-switch).
A ciphertext×ciphertext multiply counts as one multiply and one addition."
An addition counts as one addition. -/
def specCountOps : CountOps where
  count_rotation_ops := fun c =>
    { c with rotations_ := c.rotations_ + 1, additions_ := c.additions_ + 1 }
  count_addition_ops := fun c => { c with additions_ := c.additions_ + 1 }
  count_multiple_ops := fun c =>
    { c with multiplies_ := c.multiplies_ + 1, additions_ := c.additions_ + 1 }

/-! ## The `EncryptedMatrix` container -/

/-- The fields of `EncryptedMatrix`: the logical shape, the encoding unit and the grid
of ciphertexts. -/
structure EncryptedMatrix where
  height_ : Int
  width_ : Int
  unit : EncodingUnit
  cts : List (List CKKSCiphertext)
  deriving DecidableEq, Repr

namespace EncryptedMatrix

/-- The method `EncryptedMatrix::num_vertical_units`. -/
def num_vertical_units (m : EncryptedMatrix) : Nat := m.cts.length

/-- The method `EncryptedMatrix::num_horizontal_units`, the size of `cts[0]`. -/
def num_horizontal_units (m : EncryptedMatrix) : Nat := (m.cts.headD []).length

/-- The test of the inner loop of `initialized`: the ciphertext has the scale and the
level of `cts[0][0]`. -/
def same_scale_level (cts_0_0 ct : CKKSCiphertext) : Bool :=
  !(ct.scale != cts_0_0.scale || ct.he_level != cts_0_0.he_level)

/-- The method `EncryptedMatrix::initialized`. The method `EncodingUnit::initialized`
is not part of the sources and is the parameter `unit_initialized`. -/
def initialized (unit_initialized : EncodingUnit → Bool) (m : EncryptedMatrix) : Bool :=
  match m.cts with
  | [] => false
  | cts_0 :: _ =>
    match cts_0 with
    | [] => false
    | cts_0_0 :: _ =>
      if some (m.cts.length : Int) ≠ ceil_div m.height_ m.unit.encoding_height then false
      else if some (cts_0.length : Int) ≠ ceil_div m.width_ m.unit.encoding_width then false
      else
        let row_size := cts_0.length
        if m.cts.all (fun cts_i =>
            cts_i.length == row_size && cts_i.all (same_scale_level cts_0_0)) then
          unit_initialized m.unit && num_vertical_units m == m.cts.length &&
            num_horizontal_units m == cts_0.length
        else false

/-- The method `EncryptedMatrix::validate_init`. -/
def validate_init (unit_initialized : EncodingUnit → Bool) (m : EncryptedMatrix) :
    Except Error Unit :=
  if !initialized unit_initialized m then throw Error.invalid_argument else pure ()

/-- The constructor `EncryptedMatrix(height, width, unit, cts)`. -/
def construct (unit_initialized : EncodingUnit → Bool) (height width : Int)
    (unit : EncodingUnit) (cts : List (List CKKSCiphertext)) : Except Error EncryptedMatrix := do
  let m : EncryptedMatrix := ⟨height, width, unit, cts⟩
  validate_init unit_initialized m
  pure m

end EncryptedMatrix

/-! ## Serialization of the container -/

/-- The message `protobuf::CiphertextVector`: a repeated field of ciphertext messages,
each of type `P`. -/
structure ProtoCiphertextVector (P : Type) where
  cts : List P

/-- The message `protobuf::EncryptedMatrix`: the fields `height`, `width`, `unit` (a
message of type `U`) and the repeated field `cts`. -/
structure ProtoEncryptedMatrix (P U : Type) where
  height : Int
  width : Int
  unit : U
  cts : List (ProtoCiphertextVector P)

/-- The serializers and deserializers of one ciphertext (`CKKSCiphertext::serialize`
and the constructor from a message) and of one encoding unit, none of which is part
of the sources: a parameter. -/
structure Serializers (P U : Type) where
  serialize_ct : CKKSCiphertext → P
  deserialize_ct : P → CKKSCiphertext
  serialize_unit : EncodingUnit → U
  deserialize_unit : U → EncodingUnit

/-- Modelled from the spec: `serialize_vector` (not part of the sources) writes the
ciphertexts of a row, serialized one by one, in order: "Grids preserve row-major
iteration order". -/
def serialize_vector {P U : Type} (sz : Serializers P U) (ciphertext_vector : List CKKSCiphertext) :
    ProtoCiphertextVector P :=
  ⟨ciphertext_vector.map sz.serialize_ct⟩

/-- Modelled from the spec: `deserialize_vector` (not part of the sources) appends to
`ciphertext_vector` the ciphertexts of the message, deserialized one by one, in order. -/
def deserialize_vector {P U : Type} (sz : Serializers P U)
    (proto_ciphertext_vector : ProtoCiphertextVector P) (ciphertext_vector : List CKKSCiphertext) :
    List CKKSCiphertext :=
  ciphertext_vector ++ proto_ciphertext_vector.cts.map sz.deserialize_ct

namespace EncryptedMatrix

/-- The method `EncryptedMatrix::serialize`. -/
def serialize {P U : Type} (sz : Serializers P U) (m : EncryptedMatrix) :
    ProtoEncryptedMatrix P U :=
  { height := m.height_
    width := m.width_
    unit := sz.serialize_unit m.unit
    cts := m.cts.foldl (fun proto_cts ciphertext_vector =>
      proto_cts ++ [serialize_vector sz ciphertext_vector]) [] }

/-- The method `EncryptedMatrix::readFromProto`, on the object `self`. -/
def readFromProto {P U : Type} (unit_initialized : EncodingUnit → Bool) (sz : Serializers P U)
    (self : EncryptedMatrix) (encrypted_matrix : ProtoEncryptedMatrix P U) :
    Except Error EncryptedMatrix := do
  let m : EncryptedMatrix :=
    { height_ := encrypted_matrix.height
      width_ := encrypted_matrix.width
      unit := sz.deserialize_unit encrypted_matrix.unit
      cts := encrypted_matrix.cts.foldl (fun cts proto_ciphertext_vector =>
        cts ++ [deserialize_vector sz proto_ciphertext_vector []]) self.cts }
  validate_init unit_initialized m
  pure m

/-- The constructor `EncryptedMatrix(context, encrypted_matrix)`: `readFromProto` on a
default-constructed object, whose grid is empty. -/
def deserialize {P U : Type} (unit_initialized : EncodingUnit → Bool) (sz : Serializers P U)
    (encrypted_matrix : ProtoEncryptedMatrix P U) : Except Error EncryptedMatrix :=
  readFromProto unit_initialized sz ⟨0, 0, ⟨0, 0⟩, []⟩ encrypted_matrix

end EncryptedMatrix

/-! ## Parameter tables and `isPow2` (common.cpp) -/

/-- The function `polyDegreeToMaxModBits`. -/
def polyDegreeToMaxModBits (poly_modulus_degree : Int) : Except Error Int :=
  if poly_modulus_degree = 1024 then pure 27
  else if poly_modulus_degree = 2048 then pure 54
  else if poly_modulus_degree = 4096 then pure 109
  else if poly_modulus_degree = 8192 then pure 218
  else if poly_modulus_degree = 16384 then pure 438
  else if poly_modulus_degree = 32768 then pure 881
  else if poly_modulus_degree = 65536 then pure 1761
  else throw Error.invalid_argument

/-- The function `modulusToPolyDegree`. -/
def modulusToPolyDegree (modBits : Int) : Except Error Int :=
  if modBits ≤ 27 then pure 1024
  else if modBits ≤ 54 then pure 2048
  else if modBits ≤ 109 then pure 4096
  else if modBits ≤ 218 then pure 8192
  else if modBits ≤ 438 then pure 16384
  else if modBits ≤ 881 then pure 32768
  else if modBits ≤ 1761 then pure 65536
  else throw Error.invalid_argument

/-- The ring dimensions of the table of `polyDegreeToMaxModBits`. -/
def poly_degrees : List Int := [1024, 2048, 4096, 8192, 16384, 32768, 65536]

/-- The function `isPow2`; for `x > 1` the shift `x >> 1` is the quotient by 2. -/
def isPow2 (x : Int) : Bool :=
  if x < 1 then false
  else if x = 1 then true
  else if x % 2 = 1 then false
  else isPow2 (x / 2)
termination_by x.toNat
decreasing_by omega

/-! ## `decodePlaintext` (common.cpp) -/

/-- The values of the enumeration `CTEncoding` that common.cpp and encryptor.cpp name
(its declaration, in common.h, is not part of the sources). -/
inductive CTEncoding where
  | MATRIX
  | ROW_MAT
  | COL_MAT
  | COL_VEC
  | ROW_VEC
  deriving DecidableEq, Repr

/-- The unchecked read `v[i]` at an `int` index. -/
def index_int {β : Type} (v : List β) (i : Int) : Except Error β :=
  if i < 0 then Except.error Error.undefined_behaviour else index v i.toNat

/-- The function `decodePlaintext`. The range constructor
`vector(x.begin(), x.begin() + size)` is undefined behaviour when `size` is negative
or exceeds the size of `x`. -/
def decodePlaintext {β : Type} (x : List β) (enc : CTEncoding)
    (height width encoded_height encoded_width : Int) : Except Error (List β) :=
  if enc = CTEncoding.COL_VEC ∧ (width ≠ 1 ∨ height ≠ encoded_width) then
    throw Error.invalid_argument
  else if enc = CTEncoding.ROW_VEC ∧ (height ≠ 1 ∨ width ≠ encoded_height) then
    throw Error.invalid_argument
  else if enc = CTEncoding.MATRIX ∨ enc = CTEncoding.ROW_MAT ∨ enc = CTEncoding.COL_MAT ∨
      enc = CTEncoding.COL_VEC then
    let size := height * width
    if 0 ≤ size ∧ size ≤ (x.length : Int) then pure (x.take size.toNat)
    else throw Error.undefined_behaviour
  else
    (List.range width.toNat).foldlM
      (fun (dest : List β) (i : Nat) => do
        let v ← index_int x ((i : Int) * encoded_width)
        pure (dest ++ [v]))
      []

/-! ## `diff2Norm` (common.cpp) -/

/-- The 2-norm `norm_2` of the linear-algebra library: the square root of the sum of
the squares. The square root, a library function, is the parameter `sqrt`. -/
def norm_2 {K : Type} [LinearOrderedField K] (sqrt : K → K) (v : List K) : K :=
  sqrt ((v.map fun x => x * x).sum)

/-- The function `diff2Norm`, on an ordered field `K` in place of `double`; what it
prints is left out. -/
def diff2Norm {K : Type} [LinearOrderedField K] (sqrt : K → K) (expected actual : List K) :
    Except Error K :=
  let len := expected.length
  if len ≠ actual.length then throw Error.invalid_argument
  else
    let diffVec := List.zipWith (fun e a => e - a) expected actual
    let expectedL2Norm := norm_2 sqrt expected
    let actualL2Norm := norm_2 sqrt actual
    let diffL2Norm := norm_2 sqrt diffVec
    let logNormLimit : Int := 11
    let maxAllowedL2Norm : K := (2 : K) ^ (-logNormLimit)
    if expectedL2Norm ≤ maxAllowedL2Norm ∧ actualL2Norm ≤ maxAllowedL2Norm then pure (-1)
    else pure diffL2Norm

/-! ## `CKKSEncryptor::encryptMatrix` (api/encryptor.cpp) -/

namespace Api

/-- The modes of a `CKKSEncryptor` that encryptor.cpp names. -/
inductive EncryptionMode where
  | ENC_NORMAL
  | ENC_DEBUG
  | ENC_PLAIN
  | ENC_META
  deriving DecidableEq, Repr

/-- What `encryptMatrix` reads of a `seal::SEALContext`: the chain index of
`first_context_data()` and, for the context data at each chain index, the value of the
last prime of its coefficient modulus. The context data at chain index `j > 0` has the
one at `j - 1` as `next_context_data()`; the one at 0 has none. -/
structure SEALContext where
  top : Nat
  back_value : Nat → ℚ

/-- The fields of the `CKKSCiphertext` that `encryptMatrix` writes; the SEAL ciphertext
is kept as the sequence of bytes of the backend. -/
structure CKKSCiphertext where
  height : Int
  width : Int
  encoded_height : Int
  encoded_width : Int
  encoding : CTEncoding
  heLevel : Int
  scale : ℚ
  encoded_pt : List ℚ
  sealct : List Nat
  deriving DecidableEq, Repr

/-- The members of a `CKKSEncryptor`. The SEAL encoder and encryptor are the parameter
`seal_encrypt`: from the values, the chain index of the parameters and the scale to
the ciphertext, or `none` when SEAL fails. -/
structure CKKSEncryptor where
  mode : EncryptionMode
  numSlots : Int
  context : SEALContext
  seal_encrypt : List ℚ → Nat → ℚ → Option (List Nat)

/-- The conversion of an `int` to `std::size_t` (64 bits): a negative value wraps. -/
def to_size_t (n : Int) : Int := if n < 0 then n + 2 ^ 64 else n

/-- The loop `while (context_data->chain_index() > lvl)` of `encryptMatrix`, from the
context data at chain index `j` and the current scale, to the chain index and the
scale it ends with. `chain_index()` is a `std::size_t`, so `lvl` is compared as a
`std::size_t`. Going past the context data at chain index 0 dereferences a null
pointer. -/
def scale_loop (context : SEALContext) (lvl : Int) : Nat → ℚ → Except Error (Nat × ℚ)
  | 0, scale =>
    if (0 : Int) > to_size_t lvl then Except.error Error.undefined_behaviour
    else Except.ok (0, scale)
  | j + 1, scale =>
    if ((j + 1 : Nat) : Int) > to_size_t lvl then
      scale_loop context lvl j (scale * scale / context.back_value (j + 1))
    else Except.ok (j + 1, scale)

/-- The method `CKKSEncryptor::encryptMatrix(mat, scale, dest, lvl)`: how the call ends
and the ciphertext `dest` as the call leaves it. -/
def encryptMatrix (self : CKKSEncryptor) (mat : Matrix ℚ) (scale : ℚ) (dest : CKKSCiphertext)
    (lvl : Int) : Except Error Unit × CKKSCiphertext :=
  if self.mode ≠ EncryptionMode.ENC_META ∧ ((mat.size1 * mat.size2 : Nat) : Int) ≠ self.numSlots then
    (Except.error Error.invalid_argument, dest)
  else
    let dest1 : CKKSCiphertext :=
      { dest with
        height := mat.size1
        width := mat.size2
        encoded_height := mat.size1
        encoded_width := mat.size2
        encoding := CTEncoding.MATRIX }
    let lvl1 : Int := if lvl = -1 then (self.context.top : Int) else lvl
    match scale_loop self.context lvl1 self.context.top scale with
    | Except.error e => (Except.error e, dest1)
    | Except.ok (chain_index, scale1) =>
      let dest2 : CKKSCiphertext :=
        if self.mode ≠ EncryptionMode.ENC_NORMAL then
          { dest1 with heLevel := lvl1, scale := scale1 }
        else dest1
      let dest3 : CKKSCiphertext :=
        if self.mode = EncryptionMode.ENC_PLAIN ∨ self.mode = EncryptionMode.ENC_DEBUG then
          { dest2 with encoded_pt := mat.data }
        else dest2
      if self.mode = EncryptionMode.ENC_NORMAL ∨ self.mode = EncryptionMode.ENC_DEBUG then
        match self.seal_encrypt mat.data chain_index scale1 with
        | none => (Except.error Error.backend_error, dest3)
        | some ct => (Except.ok (), { dest3 with sealct := ct })
      else (Except.ok (), dest3)

end Api

/-! ## Indexing the cells of an `EncryptedMatrix` -/

namespace EncryptedMatrix

/-- The method `EncryptedMatrix::num_cts`. -/
def num_cts (m : EncryptedMatrix) : Nat := m.cts.length * (m.cts.headD []).length

/-- The method `EncryptedMatrix::operator[]`: the cell it returns a reference to. A
quotient by `num_cols = 0` is undefined behaviour. -/
def get (m : EncryptedMatrix) (idx : Nat) : Except Error CKKSCiphertext :=
  let num_cols := (m.cts.headD []).length
  if num_cols = 0 then Except.error Error.undefined_behaviour
  else do
    let row := idx / num_cols
    let col := idx % num_cols
    let cts_row ← index m.cts row
    index cts_row col

end EncryptedMatrix

/-! ## Circuits whose mod-downs go down -/

/-- The counting helpers leave the two mod-down counters as they are. -/
def CountOps.KeepsModDowns (h : CountOps) : Prop :=
  ∀ c : Counters,
    ((h.count_rotation_ops c).mod_downs_ = c.mod_downs_ ∧
      (h.count_rotation_ops c).mod_down_multi_levels_ = c.mod_down_multi_levels_) ∧
    ((h.count_addition_ops c).mod_downs_ = c.mod_downs_ ∧
      (h.count_addition_ops c).mod_down_multi_levels_ = c.mod_down_multi_levels_) ∧
    ((h.count_multiple_ops c).mod_downs_ = c.mod_downs_ ∧
      (h.count_multiple_ops c).mod_down_multi_levels_ = c.mod_down_multi_levels_)

namespace OpCount

variable {σ : Type}

/-- The instruction, if it is a `mod_down_to_level`, has a target level that is not
above the level of the ciphertext it is applied to. -/
def mod_down_ok (s : Store) : Nat × Op Nat → Prop
  | (n, Op.mod_down_to_level level) => level ≤ (s n).he_level
  | _ => True

/-- Along the run of the circuit from `st`, every `mod_down_to_level` has a target
level that is not above the level the ciphertext has when the call is made. -/
def run_mod_down_ok (df : DepthFinder σ) (h : CountOps) : OpCount σ × Store → Circuit → Prop
  | _, [] => True
  | st, ins :: c => mod_down_ok st.2 ins ∧ run_mod_down_ok df h (step df h st ins) c

end OpCount

/-! ## Example inputs -/

/-- A 2 × 3 integer matrix used in examples. -/
def example_matrix : Matrix Int := ⟨2, 3, [1, 2, 3, 4, 5, 6]⟩

/-- A ciphertext of a metadata-only evaluator at level `l` and scale `2^40`. -/
def example_ct (l : Int) : CKKSCiphertext := ⟨[], [], 1099511627776, true, l, 4096⟩

/-- A unit counts as initialized, in examples, when both dimensions are positive. -/
def example_unit_initialized (u : EncodingUnit) : Bool :=
  decide (0 < u.encoding_height) && decide (0 < u.encoding_width)

/-- A 3 × 4 matrix on the 2 × 2 unit: a 2 × 2 grid of ciphertexts at level 2. -/
def example_encrypted_matrix : EncryptedMatrix :=
  ⟨3, 4, ⟨2, 2⟩, [[example_ct 2, example_ct 2], [example_ct 2, example_ct 2]]⟩

/-- Serializers that keep the ciphertext and the unit as they are. -/
def example_serializers : Serializers CKKSCiphertext EncodingUnit := ⟨id, id, id, id⟩

/-- The circuit of seed scenario 5, on variables 0 and 1, from level 3:
`multiply; rotate(1); add; modSwitchToLevel(1)`. -/
def example_circuit : Circuit :=
  [(0, Op.multiply 1), (0, Op.rotate_left 1), (0, Op.add 1), (0, Op.mod_down_to_level 1)]

/-- A SEAL context with three levels (chain indices 2, 1, 0). -/
def example_context : Api.SEALContext := ⟨2, fun _ => 1099511627689⟩

/-- An encryptor in mode `ENC_PLAIN` for 4 slots. -/
def example_encryptor : Api.CKKSEncryptor :=
  ⟨Api.EncryptionMode.ENC_PLAIN, 4, example_context, fun _ _ _ => none⟩

/-- A default-constructed ciphertext of the encryptor's API. -/
def example_dest : Api.CKKSCiphertext := ⟨0, 0, 0, 0, CTEncoding.MATRIX, 0, 0, [], []⟩

/-- A 2 × 2 matrix of rationals. -/
def example_matrix_4 : Matrix ℚ := ⟨2, 2, [1, 2, 3, 4]⟩

/-! ## Tiling: `encode_matrix` and `decode_matrix` -/

theorem foldlM_append_ok {ε β γ : Type} (l : List β) (f : List γ → β → Except ε (List γ))
    (g : β → List γ) (h : ∀ x ∈ l, ∀ acc, f acc x = Except.ok (acc ++ g x)) (acc : List γ) :
    l.foldlM f acc = Except.ok (acc ++ l.flatMap g) := by
  induction l generalizing acc with
  | nil => simp [pure, Except.pure]
  | cons x xs ih =>
    rw [List.foldlM_cons, h x (List.mem_cons_self _ _)]
    show List.foldlM f (acc ++ g x) xs = _
    rw [ih (fun y hy => h y (List.mem_cons_of_mem _ hy))]
    simp

theorem mapM_ok {ε β γ : Type} (l : List β) (f : β → Except ε γ) (g : β → γ)
    (h : ∀ x ∈ l, f x = Except.ok (g x)) : l.mapM f = Except.ok (l.map g) := by
  induction l with
  | nil => rfl
  | cons x xs ih =>
    rw [List.mapM_cons, h x (List.mem_cons_self _ _), ih (fun y hy => h y (List.mem_cons_of_mem _ hy))]
    rfl

theorem index_eq_ok {β : Type} (v : List β) (i : Nat) (h : i < v.length) :
    index v i = Except.ok (v[i]) := by
  simp [index, List.getElem?_eq_getElem h]

theorem flat_index_lt {r c H W : Nat} (hr : r < H) (hc : c < W) : r * W + c < H * W := by
  have : (r + 1) * W ≤ H * W := Nat.mul_le_mul_right W hr
  rw [Nat.add_mul] at this
  omega

theorem encode_cell_eq {α : Type} [Zero α] (mat : Matrix α) (unit : EncodingUnit)
    (hwf : mat.WellFormed) (i j k l : Nat) (acc : List α) :
    encode_cell mat unit i j k acc l = Except.ok (acc ++ [tile_entry mat unit i j k l]) := by
  unfold encode_cell tile_entry
  by_cases hin : unit.encoding_height * i + k < mat.size1 ∧ unit.encoding_width * j + l < mat.size2
  · have hlt : (unit.encoding_height * i + k) * mat.size2 + (unit.encoding_width * j + l)
        < mat.data.length := by
      rw [hwf]; exact flat_index_lt hin.1 hin.2
    simp only [hin, and_self, if_true, index_eq_ok _ _ hlt, Matrix.entry,
      List.getD_eq_getElem _ _ hlt]
    rfl
  · simp only [hin, if_false]
    rfl

theorem encode_unit_eq {α : Type} [Zero α] (mat : Matrix α) (unit : EncodingUnit)
    (hwf : mat.WellFormed) (i j : Nat) :
    encode_unit mat unit i j = Except.ok (tile mat unit i j) := by
  unfold encode_unit tile
  rw [foldlM_append_ok (List.range unit.encoding_height) _
    (fun k => (List.range unit.encoding_width).map fun l => tile_entry mat unit i j k l)]
  · rfl
  · intro k _ acc
    rw [foldlM_append_ok (List.range unit.encoding_width) _
      (fun l => [tile_entry mat unit i j k l])]
    · congr 2
      induction (List.range unit.encoding_width) with
      | nil => rfl
      | cons a as ih => simp [List.flatMap_cons, ih]
    · intro l _ acc2
      exact encode_cell_eq mat unit hwf i j k l acc2

theorem ceil_div_eq_ceil (a : Int) (b : Nat) (hb : 0 < b) :
    ceil_div a b = some ⌈(a : ℚ) / (b : ℚ)⌉ := by
  unfold ceil_div
  rw [if_neg (by omega)]
  congr 1
  rw [← Rat.floor_intCast_div_natCast, Int.cast_neg, neg_div, Int.floor_neg, neg_neg]

theorem ceil_div_toNat (a b : Nat) (hb : 0 < b) :
    ceil_div (a : Int) b = some ((⌈(a : ℚ) / (b : ℚ)⌉₊ : Nat) : Int) := by
  rw [ceil_div_eq_ceil _ _ hb]
  congr 1
  have h0 : (0 : ℚ) ≤ (a : ℚ) / (b : ℚ) := by positivity
  have := Int.natCast_ceil_eq_ceil h0
  simpa using this.symm

theorem le_ceil_mul (a b : Nat) (hb : 0 < b) : a ≤ ⌈(a : ℚ) / (b : ℚ)⌉₊ * b := by
  have h1 : (a : ℚ) / (b : ℚ) ≤ (⌈(a : ℚ) / (b : ℚ)⌉₊ : ℚ) := Nat.le_ceil _
  have hb' : (0 : ℚ) < (b : ℚ) := by exact_mod_cast hb
  rw [div_le_iff₀ hb'] at h1
  exact_mod_cast h1

theorem encode_matrix_eq {α : Type} [Zero α] (mat : Matrix α) (unit : EncodingUnit)
    (hwf : mat.WellFormed) (hh : 0 < unit.encoding_height) (hw : 0 < unit.encoding_width) :
    encode_matrix mat unit = Except.ok
      ((List.range ⌈(mat.size1 : ℚ) / (unit.encoding_height : ℚ)⌉₊).map fun i =>
        (List.range ⌈(mat.size2 : ℚ) / (unit.encoding_width : ℚ)⌉₊).map fun j =>
          tile mat unit i j) := by
  unfold encode_matrix
  simp only [ceil_div_toNat _ _ hh, ceil_div_toNat _ _ hw, Int.toNat_ofNat]
  apply mapM_ok
  intro i _
  apply mapM_ok
  intro j _
  exact encode_unit_eq mat unit hwf i j

theorem length_flatMap_range_map {β : Type} (h w : Nat) (f : Nat → Nat → β) :
    ((List.range h).flatMap fun k => (List.range w).map (f k)).length = h * w := by
  induction h with
  | zero => simp
  | succ n ih =>
    rw [List.range_succ, List.flatMap_append, List.length_append, ih]
    simp [Nat.succ_mul]

theorem getElem?_flatMap_range_map {β : Type} (h w : Nat) (f : Nat → Nat → β) (k l : Nat)
    (hk : k < h) (hl : l < w) :
    ((List.range h).flatMap fun k => (List.range w).map (f k))[k * w + l]? = some (f k l) := by
  induction h with
  | zero => omega
  | succ n ih =>
    rw [List.range_succ, List.flatMap_append, List.getElem?_append, length_flatMap_range_map]
    by_cases hkn : k < n
    · have : k * w + l < n * w := flat_index_lt hkn hl
      rw [if_pos this]
      exact ih hkn
    · have hkeq : k = n := by omega
      subst hkeq
      have : ¬ (k * w + l < k * w) := by omega
      rw [if_neg this]
      simp [hl]

theorem tile_data_length {α : Type} [Zero α] (mat : Matrix α) (unit : EncodingUnit) (i j : Nat) :
    (tile mat unit i j).data.length = unit.encoding_height * unit.encoding_width :=
  length_flatMap_range_map _ _ _

theorem tile_data_getElem? {α : Type} [Zero α] (mat : Matrix α) (unit : EncodingUnit)
    (i j k l : Nat) (hk : k < unit.encoding_height) (hl : l < unit.encoding_width) :
    (tile mat unit i j).data[k * unit.encoding_width + l]? = some (tile_entry mat unit i j k l) :=
  getElem?_flatMap_range_map _ _ _ k l hk hl

theorem decode_cell_eq {α : Type} (m : Matrix α) (width j : Nat) (acc : List α) (l : Nat)
    (h : j * width + l < m.data.length) :
    decode_cell m width j acc l = Except.ok (acc ++ (m.data[j * width + l]?).toList) := by
  unfold decode_cell
  rw [index_eq_ok _ _ h, List.getElem?_eq_getElem h]
  rfl

theorem decode_tile_row_eq {α : Type} (mats_i : List (Matrix α)) (h w tw j : Nat)
    (acc : List α) (k : Nat) (m : Matrix α) (hm : mats_i[k]? = some m)
    (h1 : m.size1 = h) (h2 : m.size2 = w) (hlen : m.data.length = h * w) (hj : j < h) :
    decode_tile_row mats_i h w tw j acc k = Except.ok (acc ++
      ((List.range w).takeWhile fun l => decide (k * w + l < tw)).flatMap fun l =>
        (m.data[j * w + l]?).toList) := by
  unfold decode_tile_row index
  rw [hm]
  show (if m.size1 ≠ h ∨ m.size2 ≠ w then _ else _) = _
  rw [if_neg (by simp [h1, h2])]
  apply foldlM_append_ok
  intro l hl acc2
  apply decode_cell_eq
  have hlw : l < w := List.mem_range.mp ((List.takeWhile_sublist _).subset hl)
  rw [hlen]
  exact flat_index_lt hj hlw

theorem decode_grid_row_eq {α : Type} (mats : List (List (Matrix α))) (T : Nat → Matrix α)
    (C h w th tw : Nat) (acc : List α) (i : Nat)
    (hrow : mats[i]? = some ((List.range C).map T))
    (hT : ∀ k < C, (T k).size1 = h ∧ (T k).size2 = w ∧ (T k).data.length = h * w) :
    decode_grid_row mats C h w th tw acc i = Except.ok (acc ++
      ((List.range h).takeWhile fun j => decide (i * h + j < th)).flatMap fun j =>
        (List.range C).flatMap fun k =>
          ((List.range w).takeWhile fun l => decide (k * w + l < tw)).flatMap fun l =>
            ((T k).data[j * w + l]?).toList) := by
  unfold decode_grid_row index
  rw [hrow]
  show (if ((List.range C).map T).length ≠ C then _ else _) = _
  rw [if_neg (by simp)]
  apply foldlM_append_ok
  intro j hj acc2
  have hjh : j < h := List.mem_range.mp ((List.takeWhile_sublist _).subset hj)
  apply foldlM_append_ok
  intro k hk acc3
  have hkC : k < C := List.mem_range.mp hk
  obtain ⟨h1, h2, h3⟩ := hT k hkC
  apply decode_tile_row_eq _ _ _ _ _ _ _ (T k) _ h1 h2 h3 hjh
  simp [hkC]

theorem decode_matrix_grid {α : Type} (T : Nat → Nat → Matrix α) (R C h w : Nat)
    (hR : 0 < R) (hC : 0 < C)
    (hT : ∀ i < R, ∀ k < C, (T i k).size1 = h ∧ (T i k).size2 = w ∧ (T i k).data.length = h * w)
    (trim_height trim_width : Int) :
    decode_matrix ((List.range R).map fun i => (List.range C).map fun k => T i k)
        trim_height trim_width =
      Except.ok ⟨if trim_height < 0 then R * h else trim_height.toNat,
        if trim_width < 0 then C * w else trim_width.toNat,
        decode_entries T R C h w (if trim_height < 0 then R * h else trim_height.toNat)
          (if trim_width < 0 then C * w else trim_width.toNat)⟩ := by
  generalize hmats : ((List.range R).map fun i => (List.range C).map fun k => T i k) = mats
  have hlen : mats.length = R := by rw [← hmats]; simp
  have hget : ∀ i < R, mats[i]? = some ((List.range C).map (T i)) := by
    intro i hi
    rw [← hmats]
    simp [hi]
  obtain ⟨h00, _, _⟩ := hT 0 hR 0 hC
  have h00' := (hT 0 hR 0 hC).2.1
  match mats, hlen, hget with
  | [], hlen, _ => simp at hlen; omega
  | mats_0 :: rest, hlen, hget =>
    have h0 := hget 0 hR
    simp only [List.getElem?_cons_zero, Option.some.injEq] at h0
    subst h0
    match hC0 : (List.range C), hC with
    | [], hC => simp at hC0; omega
    | c0 :: cs, _ =>
      have hc0 : c0 = 0 := by
        have := congrArg (fun l => l[0]?) hC0
        simp [hC] at this
        exact this.symm
      subst hc0
      have hCl : (0 :: cs).length = C := by rw [← hC0]; simp
      simp only [decode_matrix, List.map_cons]
      rw [h00, h00']
      simp only [List.length_cons, List.length_map] at hlen hCl ⊢
      rw [hCl, hlen]
      rw [foldlM_append_ok (List.range R) _ (fun i =>
        ((List.range h).takeWhile fun j => decide (i * h + j <
            (if trim_height < 0 then R * h else trim_height.toNat))).flatMap fun j =>
          (List.range C).flatMap fun k =>
            ((List.range w).takeWhile fun l => decide (k * w + l <
                (if trim_width < 0 then C * w else trim_width.toNat))).flatMap fun l =>
              ((T i k).data[j * w + l]?).toList)]
      · rfl
      · intro i hi acc
        have hiR : i < R := List.mem_range.mp hi
        apply decode_grid_row_eq _ (T i)
        · simpa [hC0] using hget i hiR
        · exact hT i hiR

theorem flatMap_range_mul {β : Type} (m h : Nat) (g : Nat → List β) :
    ((List.range m).flatMap fun i => (List.range h).flatMap fun j => g (i * h + j)) =
      (List.range (m * h)).flatMap g := by
  induction m with
  | zero => simp
  | succ n ih =>
    rw [List.range_succ, List.flatMap_append, ih, Nat.succ_mul, List.range_add,
      List.flatMap_append, List.flatMap_map]
    simp

theorem flatMap_takeWhile_range' {β : Type} (P : Nat → Bool)
    (hP : ∀ a b, a ≤ b → P b = true → P a = true) (F : Nat → List β) (s h : Nat) :
    ((List.range' s h).takeWhile P).flatMap F =
      (List.range' s h).flatMap fun j => if P j = true then F j else [] := by
  induction h generalizing s with
  | zero => simp
  | succ n ih =>
    rw [List.range'_succ, List.takeWhile_cons]
    by_cases hs : P s = true
    · simp only [hs, if_true, List.flatMap_cons, ih]
    · have hnil : ((List.range' (s + 1) n).flatMap fun j => if P j = true then F j else []) = [] := by
        rw [List.flatMap_eq_nil_iff]
        intro j hj
        have hsj : s ≤ j := by
          have := (List.mem_range'_1.mp hj).1
          omega
        have : ¬ P j = true := fun hj' => hs (hP s j hsj hj')
        simp [this]
      simp only [hs, List.flatMap_cons, hnil]
      simp

theorem flatMap_takeWhile_range {β : Type} (c n h : Nat) (F : Nat → List β) :
    ((List.range h).takeWhile fun j => decide (c + j < n)).flatMap F =
      (List.range h).flatMap fun j => if c + j < n then F j else [] := by
  rw [List.range_eq_range']
  have := flatMap_takeWhile_range' (fun j => decide (c + j < n))
    (by intro a b hab hb; simp only [decide_eq_true_eq] at hb ⊢; omega) F 0 h
  simpa using this

theorem flatMap_range_if_lt {β : Type} (n N : Nat) (hN : n ≤ N) (f : Nat → List β) :
    ((List.range N).flatMap fun c => if c < n then f c else []) = (List.range n).flatMap f := by
  obtain ⟨d, rfl⟩ : ∃ d, N = n + d := ⟨N - n, by omega⟩
  rw [List.range_add, List.flatMap_append, List.flatMap_map]
  have h1 : ((List.range n).flatMap fun c => if c < n then f c else []) = (List.range n).flatMap f := by
    apply List.flatMap_congr
    intro x hx
    simp [List.mem_range.mp hx]
  have h2 : ((List.range d).flatMap fun x => if n + x < n then f (n + x) else []) = [] := by
    rw [List.flatMap_eq_nil_iff]
    intro x _
    simp
  rw [h1]
  simp

/-- Walking the units in order and, inside each, the positions below the trim bound
visits `0, 1, ..., n - 1` in order. -/
theorem flatMap_units_trim {β : Type} (m h n : Nat) (hn : n ≤ m * h) (f : Nat → List β) :
    ((List.range m).flatMap fun i =>
      ((List.range h).takeWhile fun j => decide (i * h + j < n)).flatMap fun j => f (i * h + j)) =
      (List.range n).flatMap f := by
  have h1 : ∀ i, (((List.range h).takeWhile fun j => decide (i * h + j < n)).flatMap
      fun j => f (i * h + j)) =
      (List.range h).flatMap fun j => (fun c => if c < n then f c else []) (i * h + j) := by
    intro i
    exact flatMap_takeWhile_range (i * h) n h (fun j => f (i * h + j))
  simp only [h1]
  rw [flatMap_range_mul m h (fun c => if c < n then f c else [])]
  exact flatMap_range_if_lt n (m * h) hn f

theorem flatMap_singleton_eq_map {β γ : Type} (l : List β) (f : β → γ) :
    (l.flatMap fun x => [f x]) = l.map f := by
  induction l with
  | nil => rfl
  | cons a as ih => simp [List.flatMap_cons, ih]

theorem flatMap_range_getD {β : Type} (l : List β) (d : β) :
    ((List.range l.length).flatMap fun x => [l.getD x d]) = l := by
  rw [flatMap_singleton_eq_map]
  apply List.ext_getElem?
  intro n
  by_cases hn : n < l.length
  · simp [hn, List.getElem?_eq_getElem hn]
  · have hle : l.length ≤ n := by omega
    rw [List.getElem?_eq_none (by simpa using hle), List.getElem?_eq_none hle]

theorem decode_entries_tile {α : Type} [Zero α] (mat : Matrix α) (unit : EncodingUnit)
    (hwf : mat.WellFormed) (R C : Nat)
    (hR : mat.size1 ≤ R * unit.encoding_height) (hC : mat.size2 ≤ C * unit.encoding_width) :
    decode_entries (tile mat unit) R C unit.encoding_height unit.encoding_width
      mat.size1 mat.size2 = mat.data := by
  unfold decode_entries
  have hinner : ∀ i ∈ List.range R,
      (((List.range unit.encoding_height).takeWhile fun j =>
          decide (i * unit.encoding_height + j < mat.size1)).flatMap fun j =>
        (List.range C).flatMap fun k =>
          ((List.range unit.encoding_width).takeWhile fun l =>
            decide (k * unit.encoding_width + l < mat.size2)).flatMap fun l =>
              ((tile mat unit i k).data[j * unit.encoding_width + l]?).toList) =
      (((List.range unit.encoding_height).takeWhile fun j =>
          decide (i * unit.encoding_height + j < mat.size1)).flatMap fun j =>
        (fun r => (List.range mat.size2).flatMap fun c => [mat.data.getD (r * mat.size2 + c) 0])
          (i * unit.encoding_height + j)) := by
    intro i _
    apply List.flatMap_congr
    intro j hj
    have hjh : j < unit.encoding_height :=
      List.mem_range.mp ((List.takeWhile_sublist _).subset hj)
    have hjH : i * unit.encoding_height + j < mat.size1 := by
      simpa using List.mem_takeWhile_imp hj
    have hcell : ∀ k ∈ List.range C,
        (((List.range unit.encoding_width).takeWhile fun l =>
            decide (k * unit.encoding_width + l < mat.size2)).flatMap fun l =>
              ((tile mat unit i k).data[j * unit.encoding_width + l]?).toList) =
        (((List.range unit.encoding_width).takeWhile fun l =>
            decide (k * unit.encoding_width + l < mat.size2)).flatMap fun l =>
          (fun c => [mat.data.getD ((i * unit.encoding_height + j) * mat.size2 + c) 0])
            (k * unit.encoding_width + l)) := by
      intro k _
      apply List.flatMap_congr
      intro l hl
      have hlw : l < unit.encoding_width :=
        List.mem_range.mp ((List.takeWhile_sublist _).subset hl)
      have hlW : k * unit.encoding_width + l < mat.size2 := by
        simpa using List.mem_takeWhile_imp hl
      rw [tile_data_getElem? mat unit i k j l hjh hlw]
      have e1 : unit.encoding_height * i + j = i * unit.encoding_height + j := by
        rw [Nat.mul_comm]
      have e2 : unit.encoding_width * k + l = k * unit.encoding_width + l := by
        rw [Nat.mul_comm]
      simp only [tile_entry, Matrix.entry, e1, e2, hjH, hlW, and_self, if_true, Option.toList]
    rw [List.flatMap_congr hcell]
    exact flatMap_units_trim C unit.encoding_width mat.size2 hC
      (fun c => [mat.data.getD ((i * unit.encoding_height + j) * mat.size2 + c) 0])
  refine (List.flatMap_congr hinner).trans ?_
  refine (flatMap_units_trim R unit.encoding_height mat.size1 hR
    (fun r => (List.range mat.size2).flatMap fun c => [mat.data.getD (r * mat.size2 + c) 0])).trans ?_
  rw [flatMap_range_mul mat.size1 mat.size2 (fun x => [mat.data.getD x 0]), ← hwf]
  exact flatMap_range_getD mat.data 0

/-- C1: for an encoding unit with height and width at least 1 and a matrix `mat` with
at least one row and one column (its storage holding `size1 * size2` entries),
`encode_matrix` succeeds and `decode_matrix` applied to its grid with the trims
`size1` and `size2` succeeds and returns `mat`: the same dimensions and the same
entries, element for element. -/
theorem decode_encode_matrix {α : Type} [Zero α] (mat : Matrix α) (unit : EncodingUnit)
    (hh : 1 ≤ unit.encoding_height) (hw : 1 ≤ unit.encoding_width)
    (hH : 1 ≤ mat.size1) (hW : 1 ≤ mat.size2) (hwf : mat.WellFormed) :
    ∃ grid, encode_matrix mat unit = Except.ok grid ∧
      decode_matrix grid (mat.size1 : Int) (mat.size2 : Int) = Except.ok mat := by
  refine ⟨_, encode_matrix_eq mat unit hwf hh hw, ?_⟩
  have hR : 0 < ⌈(mat.size1 : ℚ) / (unit.encoding_height : ℚ)⌉₊ := by
    rw [Nat.ceil_pos]
    have h1 : (0 : ℚ) < (mat.size1 : ℚ) := by exact_mod_cast hH
    have h2 : (0 : ℚ) < (unit.encoding_height : ℚ) := by exact_mod_cast hh
    positivity
  have hC : 0 < ⌈(mat.size2 : ℚ) / (unit.encoding_width : ℚ)⌉₊ := by
    rw [Nat.ceil_pos]
    have h1 : (0 : ℚ) < (mat.size2 : ℚ) := by exact_mod_cast hW
    have h2 : (0 : ℚ) < (unit.encoding_width : ℚ) := by exact_mod_cast hw
    positivity
  rw [decode_matrix_grid (tile mat unit) _ _ unit.encoding_height unit.encoding_width hR hC
    (fun i _ k _ => ⟨rfl, rfl, tile_data_length mat unit i k⟩)]
  have h1 : ¬ ((mat.size1 : Int) < 0) := by omega
  have h2 : ¬ ((mat.size2 : Int) < 0) := by omega
  simp only [h1, h2, if_false, Int.toNat_ofNat]
  rw [decode_entries_tile mat unit hwf _ _ (le_ceil_mul _ _ hh) (le_ceil_mul _ _ hw)]

/-- C2: for an encoding unit `(h, w)` with `h, w ≥ 1` and an `H × W` matrix `mat`,
`encode_matrix` returns a grid of exactly `⌈H / h⌉` rows, each of exactly `⌈W / w⌉`
tiles; every tile has dimensions `h × w` and `h * w` stored entries, and its
row-major entry `(k, l)`, for tile `(i, j)`, is `mat[i*h+k][j*w+l]` when `i*h+k < H`
and `j*w+l < W`, and `0` otherwise. -/
theorem encode_matrix_tiles {α : Type} [Zero α] (mat : Matrix α) (unit : EncodingUnit)
    (hh : 1 ≤ unit.encoding_height) (hw : 1 ≤ unit.encoding_width) (hwf : mat.WellFormed) :
    ∃ grid, encode_matrix mat unit = Except.ok grid ∧
      grid.length = ⌈(mat.size1 : ℚ) / (unit.encoding_height : ℚ)⌉₊ ∧
      ∀ i, i < ⌈(mat.size1 : ℚ) / (unit.encoding_height : ℚ)⌉₊ →
        ∃ row, grid[i]? = some row ∧
          row.length = ⌈(mat.size2 : ℚ) / (unit.encoding_width : ℚ)⌉₊ ∧
          ∀ j, j < ⌈(mat.size2 : ℚ) / (unit.encoding_width : ℚ)⌉₊ →
            ∃ t, row[j]? = some t ∧
              t.size1 = unit.encoding_height ∧ t.size2 = unit.encoding_width ∧
              t.data.length = unit.encoding_height * unit.encoding_width ∧
              ∀ k l, k < unit.encoding_height → l < unit.encoding_width →
                t.data[k * unit.encoding_width + l]? = some
                  (if i * unit.encoding_height + k < mat.size1 ∧
                      j * unit.encoding_width + l < mat.size2 then
                    mat.entry (i * unit.encoding_height + k) (j * unit.encoding_width + l)
                  else 0) := by
  refine ⟨_, encode_matrix_eq mat unit hwf hh hw, by simp, ?_⟩
  intro i hi
  refine ⟨(List.range ⌈(mat.size2 : ℚ) / (unit.encoding_width : ℚ)⌉₊).map fun j =>
    tile mat unit i j, by simp [hi], by simp, ?_⟩
  intro j hj
  refine ⟨tile mat unit i j, by simp [hj], rfl, rfl, tile_data_length mat unit i j, ?_⟩
  intro k l hk hl
  rw [tile_data_getElem? mat unit i j k l hk hl]
  simp only [tile_entry, Nat.mul_comm unit.encoding_height i, Nat.mul_comm unit.encoding_width j]

/-- C1 at the 2 × 3 matrix `example_matrix` and the 2 × 2 unit. -/
theorem decode_encode_matrix_witness :
    ∃ grid, encode_matrix example_matrix ⟨2, 2⟩ = Except.ok grid ∧
      decode_matrix grid 2 3 = Except.ok example_matrix :=
  decode_encode_matrix example_matrix ⟨2, 2⟩ (by decide) (by decide) (by decide) (by decide) rfl

/-- C2 at the 2 × 3 matrix `example_matrix` and the 2 × 2 unit: one row of two tiles. -/
theorem encode_matrix_tiles_witness :
    ∃ grid, encode_matrix example_matrix ⟨2, 2⟩ = Except.ok grid ∧ grid.length = 1 := by
  obtain ⟨grid, h1, h2, _⟩ :=
    encode_matrix_tiles example_matrix ⟨2, 2⟩ (by decide) (by decide) rfl
  refine ⟨grid, h1, ?_⟩
  rw [h2]
  show ⌈((2 : Nat) : ℚ) / ((2 : Nat) : ℚ)⌉₊ = 1
  norm_num

/-! ## The op-counting evaluator -/

theorem OpCount.hook_snd {σ : Type} (df : DepthFinder σ) (h : CountOps) (oc : OpCount σ)
    (ct : CKKSCiphertext) (op : Op CKKSCiphertext) :
    (OpCount.hook df h oc ct op).2 = (df.hook oc.depth_finder ct op).2 := by
  cases op <;> rfl

theorem OpCount.hook_depth_finder {σ : Type} (df : DepthFinder σ) (h : CountOps) (oc : OpCount σ)
    (ct : CKKSCiphertext) (op : Op CKKSCiphertext) :
    (OpCount.hook df h oc ct op).1.depth_finder = (df.hook oc.depth_finder ct op).1 := by
  cases op <;> rfl

theorem OpCount.step_eq {σ : Type} (df : DepthFinder σ) (h : CountOps) (st : OpCount σ × Store)
    (ins : Nat × Op Nat) :
    ((OpCount.step df h st ins).1.depth_finder, (OpCount.step df h st ins).2) =
      df.step (st.1.depth_finder, st.2) ins := by
  simp only [OpCount.step, DepthFinder.step, OpCount.hook_snd, OpCount.hook_depth_finder]

theorem OpCount.trajectory_eq {σ : Type} (df : DepthFinder σ) (h : CountOps) (c : Circuit)
    (st : OpCount σ × Store) :
    OpCount.trajectory df h st c = df.trajectory (st.1.depth_finder, st.2) c := by
  induction c generalizing st with
  | nil => rfl
  | cons ins c ih =>
    simp only [OpCount.trajectory, DepthFinder.trajectory]
    rw [ih (OpCount.step df h st ins), OpCount.step_eq]

theorem OpCount.run_eq {σ : Type} (df : DepthFinder σ) (h : CountOps) (c : Circuit)
    (st : OpCount σ × Store) :
    ((OpCount.run df h st c).1.depth_finder, (OpCount.run df h st c).2) =
      df.run (st.1.depth_finder, st.2) c := by
  induction c generalizing st with
  | nil => rfl
  | cons ins c ih =>
    simp only [OpCount.run, DepthFinder.run, List.foldl_cons] at ih ⊢
    rw [ih (OpCount.step df h st ins), OpCount.step_eq]

/-- C3: whatever the embedded `DepthFinder` and the counting helpers are, every hook of
`OpCount` leaves the ciphertext exactly as the `DepthFinder` hook of the same name
leaves it for the same arguments, and leaves the embedded `DepthFinder` in the state
that one call of that hook produces; so over every circuit the stores, hence the
`he_level` of every variable at every step, are those of the `DepthFinder` run from
the embedded state, and `get_multiplicative_depth` is the depth of the embedded
`DepthFinder`, which after the circuit is the depth the `DepthFinder` run reports. -/
theorem opcount_follows_depth_finder {σ : Type} (df : DepthFinder σ) (h : CountOps) :
    (∀ (oc : OpCount σ) (ct : CKKSCiphertext) (op : Op CKKSCiphertext),
      (OpCount.hook df h oc ct op).2 = (df.hook oc.depth_finder ct op).2 ∧
      (OpCount.hook df h oc ct op).1.depth_finder = (df.hook oc.depth_finder ct op).1) ∧
    (∀ (oc : OpCount σ) (s : Store) (c : Circuit),
      OpCount.trajectory df h (oc, s) c = df.trajectory (oc.depth_finder, s) c ∧
      (OpCount.trajectory df h (oc, s) c).map he_levels =
        (df.trajectory (oc.depth_finder, s) c).map he_levels ∧
      OpCount.get_multiplicative_depth df oc = df.get_multiplicative_depth oc.depth_finder ∧
      OpCount.get_multiplicative_depth df (OpCount.run df h (oc, s) c).1 =
        df.get_multiplicative_depth (df.run (oc.depth_finder, s) c).1) := by
  refine ⟨fun oc ct op => ⟨OpCount.hook_snd df h oc ct op, OpCount.hook_depth_finder df h oc ct op⟩,
    fun oc s c => ⟨OpCount.trajectory_eq df h c (oc, s), ?_, rfl, ?_⟩⟩
  · rw [OpCount.trajectory_eq df h c (oc, s)]
  · have := OpCount.run_eq df h c (oc, s)
    simp only [OpCount.get_multiplicative_depth]
    rw [← this]

/-- C4: `mod_down_to_level_inplace_internal` on a ciphertext at level `l` with target
`L` adds one to `mod_downs_` exactly when `l > L`, adds `l - L` to
`mod_down_multi_levels_` (`l` being the level before the embedded `DepthFinder`
changes it), and leaves the other four counters unchanged. -/
theorem mod_down_to_level_counters {σ : Type} (df : DepthFinder σ) (oc : OpCount σ)
    (ct : CKKSCiphertext) (level : Int) :
    let c := (OpCount.mod_down_to_level_inplace_internal df oc ct level).1.counters
    c.mod_downs_ = oc.counters.mod_downs_ + (if ct.he_level > level then 1 else 0) ∧
    c.mod_down_multi_levels_ = oc.counters.mod_down_multi_levels_ + (ct.he_level - level) ∧
    c.multiplies_ = oc.counters.multiplies_ ∧ c.additions_ = oc.counters.additions_ ∧
    c.negations_ = oc.counters.negations_ ∧ c.rotations_ = oc.counters.rotations_ := by
  simp only [OpCount.mod_down_to_level_inplace_internal, OpCount.delegate]
  by_cases hl : ct.he_level > level
  · have h1 : ct.he_level - level > 0 := by omega
    simp [hl, h1]
  · have h1 : ¬ (ct.he_level - level > 0) := by omega
    simp [hl, h1]

theorem OpCount.hook_counters_congr {σ : Type} (df : DepthFinder σ) (h : CountOps)
    (oc oc2 : OpCount σ) (s s2 : Store) (n : Nat) (op : Op Nat)
    (hc : oc.counters = oc2.counters) (hl : (s n).he_level = (s2 n).he_level) :
    (OpCount.hook df h oc (s n) (op.map s)).1.counters =
      (OpCount.hook df h oc2 (s2 n) (op.map s2)).1.counters := by
  cases op <;>
    simp [OpCount.hook, Op.map, OpCount.delegate, OpCount.rotate_right_inplace_internal,
      OpCount.rotate_left_inplace_internal, OpCount.negate_inplace_internal,
      OpCount.add_inplace_internal, OpCount.add_plain_inplace_internal_scalar,
      OpCount.add_plain_inplace_internal, OpCount.sub_inplace_internal,
      OpCount.sub_plain_inplace_internal_scalar, OpCount.sub_plain_inplace_internal,
      OpCount.multiply_inplace_internal, OpCount.multiply_plain_inplace_internal_scalar,
      OpCount.multiply_plain_inplace_internal, OpCount.square_inplace_internal,
      OpCount.mod_down_to_level_inplace_internal, OpCount.rescale_to_next_inplace_internal,
      OpCount.relinearize_inplace_internal, hc, hl]

theorem OpCount.step_congr {σ : Type} (df : DepthFinder σ) (hdf : df.LevelDetermined)
    (h : CountOps) (st st2 : OpCount σ × Store) (ins : Nat × Op Nat)
    (hc : st.1.counters = st2.1.counters)
    (hl : ∀ m, (st.2 m).he_level = (st2.2 m).he_level) :
    (OpCount.step df h st ins).1.counters = (OpCount.step df h st2 ins).1.counters ∧
    ∀ m, ((OpCount.step df h st ins).2 m).he_level = ((OpCount.step df h st2 ins).2 m).he_level := by
  refine ⟨OpCount.hook_counters_congr df h st.1 st2.1 st.2 st2.2 ins.1 ins.2 hc (hl ins.1), ?_⟩
  intro m
  simp only [OpCount.step, OpCount.hook_snd]
  by_cases hm : m = ins.1
  · subst hm
    simp only [Function.update_same]
    exact hdf ins.2 ins.1 st.2 st2.2 st.1.depth_finder st2.1.depth_finder hl
  · simp only [Function.update_noteq hm]
    exact hl m

theorem OpCount.run_congr {σ : Type} (df : DepthFinder σ) (hdf : df.LevelDetermined)
    (h : CountOps) (c : Circuit) (st st2 : OpCount σ × Store)
    (hc : st.1.counters = st2.1.counters)
    (hl : ∀ m, (st.2 m).he_level = (st2.2 m).he_level) :
    (OpCount.run df h st c).1.counters = (OpCount.run df h st2 c).1.counters := by
  induction c generalizing st st2 with
  | nil => exact hc
  | cons ins c ih =>
    simp only [OpCount.run, List.foldl_cons] at ih ⊢
    obtain ⟨h1, h2⟩ := OpCount.step_congr df hdf h st st2 ins hc hl
    exact ih _ _ h1 h2

theorem specDepthFinder_levelDetermined : specDepthFinder.LevelDetermined := by
  intro op n s s2 d d2 hl
  cases op <;>
    simp [DepthFinder.hook, Op.map, specDepthFinder, DepthState.observe, hl n,
      CKKSCiphertext.he_level] <;>
    exact hl n

/-- C5: with the `DepthFinder` of the specification embedded and whatever the counting
helpers are: reset, run a circuit, reset, run the same circuit on ciphertexts that
start at the same levels. The six counters after the second run are those after the
first run, whatever the evaluator held before the first reset. -/
theorem opcount_reset_rerun (h : CountOps) (c : Circuit) (s s2 : Store)
    (hl : ∀ n, (s n).he_level = (s2 n).he_level) (oc : OpCount DepthState) :
    (OpCount.run specDepthFinder h
      (OpCount.reset specDepthFinder
        ((OpCount.run specDepthFinder h (OpCount.reset specDepthFinder (oc, s)) c).1, s2))
      c).1.counters =
    (OpCount.run specDepthFinder h (OpCount.reset specDepthFinder (oc, s)) c).1.counters := by
  apply OpCount.run_congr specDepthFinder specDepthFinder_levelDetermined h c
  · rfl
  · intro m
    exact (hl m).symm

/-- C5 at the circuit of seed scenario 5, run from counters that are not zero, first on
ciphertexts at level 3 and scale `2^40`, then on ciphertexts at level 3 that differ
from them in their other fields. -/
theorem opcount_reset_rerun_witness :
    (OpCount.run specDepthFinder specCountOps
      (OpCount.reset specDepthFinder
        ((OpCount.run specDepthFinder specCountOps
          (OpCount.reset specDepthFinder (⟨⟨5, 4, 3, 2, 1, 7⟩, ⟨3, 1⟩⟩, fun _ => example_ct 3))
          example_circuit).1, fun _ => ⟨[1], [], 2, true, 3, 8⟩))
      example_circuit).1.counters =
    (OpCount.run specDepthFinder specCountOps
      (OpCount.reset specDepthFinder (⟨⟨5, 4, 3, 2, 1, 7⟩, ⟨3, 1⟩⟩, fun _ => example_ct 3))
      example_circuit).1.counters :=
  opcount_reset_rerun specCountOps example_circuit (fun _ => example_ct 3)
    (fun _ => ⟨[1], [], 2, true, 3, 8⟩) (fun _ => rfl) ⟨⟨5, 4, 3, 2, 1, 7⟩, ⟨3, 1⟩⟩

/-- C6: after `reset_internal` the six counters are zero and the embedded
`DepthFinder` is the result of its own `reset_internal`, whatever the evaluator held;
the ciphertext variables of the program are the ones before the call, and the new
state of the evaluator is the same whatever they hold. -/
theorem reset_internal_clears {σ : Type} (df : DepthFinder σ) (oc : OpCount σ) (s s2 : Store) :
    (OpCount.reset df (oc, s)).1.counters = ⟨0, 0, 0, 0, 0, 0⟩ ∧
    (OpCount.reset df (oc, s)).1.depth_finder = df.reset_internal oc.depth_finder ∧
    (OpCount.reset df (oc, s)).2 = s ∧
    (OpCount.reset df (oc, s)).1 = (OpCount.reset df (oc, s2)).1 :=
  ⟨rfl, rfl, rfl, rfl⟩

/-- C7: with the counting helper of the specification, a rotation under `OpCount`, to
the left or to the right, adds one to `rotations_` and one to `additions_` and leaves
the other four counters unchanged. -/
theorem rotate_counters {σ : Type} (df : DepthFinder σ) (oc : OpCount σ)
    (ct : CKKSCiphertext) (steps : Int) :
    (let c := (OpCount.rotate_left_inplace_internal df specCountOps oc ct steps).1.counters;
      c.rotations_ = oc.counters.rotations_ + 1 ∧
      c.additions_ = oc.counters.additions_ + 1 ∧
      c.multiplies_ = oc.counters.multiplies_ ∧
      c.negations_ = oc.counters.negations_ ∧
      c.mod_downs_ = oc.counters.mod_downs_ ∧
      c.mod_down_multi_levels_ = oc.counters.mod_down_multi_levels_) ∧
    (let c := (OpCount.rotate_right_inplace_internal df specCountOps oc ct steps).1.counters;
      c.rotations_ = oc.counters.rotations_ + 1 ∧
      c.additions_ = oc.counters.additions_ + 1 ∧
      c.multiplies_ = oc.counters.multiplies_ ∧
      c.negations_ = oc.counters.negations_ ∧
      c.mod_downs_ = oc.counters.mod_downs_ ∧
      c.mod_down_multi_levels_ = oc.counters.mod_down_multi_levels_) :=
  ⟨⟨rfl, rfl, rfl, rfl, rfl, rfl⟩, ⟨rfl, rfl, rfl, rfl, rfl, rfl⟩⟩

/-- C8: with the counting helper of the specification, a ciphertext-by-ciphertext
multiply under `OpCount` adds one to `multiplies_` and one to `additions_` and leaves
the other four counters unchanged. -/
theorem multiply_counters {σ : Type} (df : DepthFinder σ) (oc : OpCount σ)
    (ct1 ct2 : CKKSCiphertext) :
    let c := (OpCount.multiply_inplace_internal df specCountOps oc ct1 ct2).1.counters
    c.multiplies_ = oc.counters.multiplies_ + 1 ∧
    c.additions_ = oc.counters.additions_ + 1 ∧
    c.rotations_ = oc.counters.rotations_ ∧
    c.negations_ = oc.counters.negations_ ∧
    c.mod_downs_ = oc.counters.mod_downs_ ∧
    c.mod_down_multi_levels_ = oc.counters.mod_down_multi_levels_ :=
  ⟨rfl, rfl, rfl, rfl, rfl, rfl⟩

/-! ## The `EncryptedMatrix` container: validation and serialization -/

theorem same_scale_level_iff (cts_0_0 ct : CKKSCiphertext) :
    EncryptedMatrix.same_scale_level cts_0_0 ct = true ↔
      ct.scale = cts_0_0.scale ∧ ct.he_level = cts_0_0.he_level := by
  simp [EncryptedMatrix.same_scale_level]

theorem size_eq_ceil_div_iff (n : Nat) (hn : 1 ≤ n) (a : Int) (b : Nat) :
    some (n : Int) = ceil_div a b ↔ (n : Int) = ⌈(a : ℚ) / (b : ℚ)⌉ := by
  rcases Nat.eq_zero_or_pos b with hb | hb
  · subst hb
    simp only [ceil_div, if_true, Nat.cast_zero, div_zero, Int.ceil_zero]
    constructor
    · intro h; cases h
    · intro h; omega
  · rw [ceil_div_eq_ceil a b hb]
    simp

theorem EncryptedMatrix.initialized_iff (unit_initialized : EncodingUnit → Bool)
    (height width : Int) (unit : EncodingUnit) (cts : List (List CKKSCiphertext)) :
    EncryptedMatrix.initialized unit_initialized ⟨height, width, unit, cts⟩ = true ↔
      ∃ cts_0_0 cts_0 rest, cts = (cts_0_0 :: cts_0) :: rest ∧
        (cts.length : Int) = ⌈(height : ℚ) / (unit.encoding_height : ℚ)⌉ ∧
        (((cts_0_0 :: cts_0).length : Nat) : Int) = ⌈(width : ℚ) / (unit.encoding_width : ℚ)⌉ ∧
        (∀ row ∈ cts, row.length = (cts_0_0 :: cts_0).length) ∧
        (∀ row ∈ cts, ∀ ct ∈ row,
          ct.scale = cts_0_0.scale ∧ ct.he_level = cts_0_0.he_level) ∧
        unit_initialized unit = true := by
  cases cts with
  | nil => simp [EncryptedMatrix.initialized]
  | cons row rest =>
    cases row with
    | nil => simp [EncryptedMatrix.initialized]
    | cons c00 r0 =>
      have h1 := size_eq_ceil_div_iff ((c00 :: r0) :: rest).length (by simp) height
        unit.encoding_height
      have h2 := size_eq_ceil_div_iff (c00 :: r0).length (by simp) width unit.encoding_width
      simp only [EncryptedMatrix.initialized, EncryptedMatrix.num_vertical_units,
        EncryptedMatrix.num_horizontal_units, List.headD_cons, beq_self_eq_true, Bool.and_true]
      constructor
      · intro h
        by_cases e1 : some (((c00 :: r0) :: rest).length : Int) = ceil_div height unit.encoding_height
        · by_cases e2 : some ((c00 :: r0).length : Int) = ceil_div width unit.encoding_width
          · simp only [e1, e2, ne_eq, not_true_eq_false, if_false] at h
            split at h
            · rename_i hall
              rw [List.all_eq_true] at hall
              refine ⟨c00, r0, rest, rfl, h1.mp e1, h2.mp e2, ?_, ?_, h⟩
              · intro row hrow
                have := hall row hrow
                simp only [Bool.and_eq_true, beq_iff_eq] at this
                exact this.1
              · intro row hrow ct hct
                have := hall row hrow
                simp only [Bool.and_eq_true, beq_iff_eq, List.all_eq_true] at this
                exact (same_scale_level_iff c00 ct).mp (this.2 ct hct)
            · cases h
          · simp only [e1, e2, ne_eq, not_true_eq_false, not_false_eq_true, if_false, if_true] at h
            cases h
        · simp only [e1, ne_eq, not_false_eq_true, if_true] at h
          cases h
      · rintro ⟨d00, d0, rest2, heq, hrows, hcols, hlen, hcell, hu⟩
        have hinj := List.cons.inj heq
        have hinj2 := List.cons.inj hinj.1
        obtain ⟨rfl, rfl⟩ := hinj2
        have e1 := h1.mpr hrows
        have e2 := h2.mpr hcols
        simp only [e1, e2, ne_eq, not_true_eq_false, if_false]
        have hall : (((c00 :: r0) :: rest).all fun cts_i =>
            cts_i.length == (c00 :: r0).length &&
              cts_i.all (EncryptedMatrix.same_scale_level c00)) = true := by
          rw [List.all_eq_true]
          intro row hrow
          simp only [Bool.and_eq_true, beq_iff_eq, List.all_eq_true]
          exact ⟨hlen row hrow, fun ct hct => (same_scale_level_iff c00 ct).mpr (hcell row hrow ct hct)⟩
        rw [if_pos hall]
        exact hu

theorem EncryptedMatrix.construct_eq (unit_initialized : EncodingUnit → Bool)
    (height width : Int) (unit : EncodingUnit) (cts : List (List CKKSCiphertext)) :
    EncryptedMatrix.construct unit_initialized height width unit cts =
      if EncryptedMatrix.initialized unit_initialized ⟨height, width, unit, cts⟩ = true then
        Except.ok ⟨height, width, unit, cts⟩
      else Except.error Error.invalid_argument := by
  unfold EncryptedMatrix.construct EncryptedMatrix.validate_init
  dsimp only
  cases EncryptedMatrix.initialized unit_initialized ⟨height, width, unit, cts⟩ <;> rfl

/-- C10: the constructor `EncryptedMatrix(height, width, unit, cts)` returns the matrix
exactly when the grid and its first row are not empty, the number of rows is
`⌈height / unit.h⌉`, the length of the first row is `⌈width / unit.w⌉`, every row has
the length of the first one, every ciphertext has the scale and the level of cell
`(0, 0)`, and the unit is initialized; in every other case it raises
`invalid_argument`. (For `unit.h = 0` the quotient of the code is not finite and
equals no length; the quotient `height / 0` of `ℚ` is `0`, which is not the number of
rows of a non-empty grid either.) -/
theorem construct_succeeds_iff (unit_initialized : EncodingUnit → Bool)
    (height width : Int) (unit : EncodingUnit) (cts : List (List CKKSCiphertext)) :
    (EncryptedMatrix.construct unit_initialized height width unit cts =
        Except.ok ⟨height, width, unit, cts⟩ ↔
      ∃ cts_0_0 cts_0 rest, cts = (cts_0_0 :: cts_0) :: rest ∧
        (cts.length : Int) = ⌈(height : ℚ) / (unit.encoding_height : ℚ)⌉ ∧
        (((cts_0_0 :: cts_0).length : Nat) : Int) = ⌈(width : ℚ) / (unit.encoding_width : ℚ)⌉ ∧
        (∀ row ∈ cts, row.length = (cts_0_0 :: cts_0).length) ∧
        (∀ row ∈ cts, ∀ ct ∈ row,
          ct.scale = cts_0_0.scale ∧ ct.he_level = cts_0_0.he_level) ∧
        unit_initialized unit = true) ∧
    (EncryptedMatrix.construct unit_initialized height width unit cts =
        Except.ok ⟨height, width, unit, cts⟩ ∨
      EncryptedMatrix.construct unit_initialized height width unit cts =
        Except.error Error.invalid_argument) := by
  rw [EncryptedMatrix.construct_eq, ← EncryptedMatrix.initialized_iff]
  by_cases hinit : EncryptedMatrix.initialized unit_initialized ⟨height, width, unit, cts⟩ = true
  · simp [hinit]
  · simp [hinit]

theorem foldl_append_singleton {β γ : Type} (f : β → γ) (l : List β) (init : List γ) :
    l.foldl (fun acc x => acc ++ [f x]) init = init ++ l.map f := by
  induction l generalizing init with
  | nil => simp
  | cons x xs ih => simp [List.foldl_cons, ih]

theorem EncryptedMatrix.serialize_cts {P U : Type} (sz : Serializers P U) (m : EncryptedMatrix) :
    (m.serialize sz).cts = m.cts.map (serialize_vector sz) := by
  simp only [EncryptedMatrix.serialize]
  rw [foldl_append_singleton (serialize_vector sz) m.cts []]
  simp

theorem EncryptedMatrix.deserialize_eq {P U : Type} (unit_initialized : EncodingUnit → Bool)
    (sz : Serializers P U) (pm : ProtoEncryptedMatrix P U) :
    EncryptedMatrix.deserialize unit_initialized sz pm =
      if EncryptedMatrix.initialized unit_initialized
          ⟨pm.height, pm.width, sz.deserialize_unit pm.unit,
            pm.cts.map fun v => v.cts.map sz.deserialize_ct⟩ = true then
        Except.ok ⟨pm.height, pm.width, sz.deserialize_unit pm.unit,
          pm.cts.map fun v => v.cts.map sz.deserialize_ct⟩
      else Except.error Error.invalid_argument := by
  unfold EncryptedMatrix.deserialize EncryptedMatrix.readFromProto EncryptedMatrix.validate_init
  dsimp only
  rw [foldl_append_singleton (fun v => deserialize_vector sz v []) pm.cts []]
  simp only [deserialize_vector, List.nil_append]
  by_cases h : EncryptedMatrix.initialized unit_initialized
    ⟨pm.height, pm.width, sz.deserialize_unit pm.unit,
      pm.cts.map fun v => v.cts.map sz.deserialize_ct⟩ = true
  · rw [if_pos h]
    simp only [h]
    rfl
  · rw [if_neg h]
    have h2 := Bool.eq_false_iff.mpr h
    simp only [h2]
    rfl

theorem EncryptedMatrix.initialized_map (unit_initialized : EncodingUnit → Bool)
    (m : EncryptedMatrix) (f : CKKSCiphertext → CKKSCiphertext)
    (hf : ∀ row ∈ m.cts, ∀ ct ∈ row, (f ct).he_level = ct.he_level ∧ (f ct).scale = ct.scale)
    (hinit : m.initialized unit_initialized = true) :
    EncryptedMatrix.initialized unit_initialized
      ⟨m.height_, m.width_, m.unit, m.cts.map (List.map f)⟩ = true := by
  obtain ⟨height, width, unit, cts⟩ := m
  rw [EncryptedMatrix.initialized_iff] at hinit ⊢
  obtain ⟨c00, r0, rest, rfl, hrows, hcols, hlen, hcell, hu⟩ := hinit
  refine ⟨f c00, r0.map f, rest.map (List.map f), by simp, by simpa using hrows,
    by simpa using hcols, ?_, ?_, hu⟩
  · intro row hrow
    obtain ⟨row0, hrow0, rfl⟩ := List.mem_map.mp hrow
    simpa using hlen row0 hrow0
  · intro row hrow ct hct
    obtain ⟨row0, hrow0, rfl⟩ := List.mem_map.mp hrow
    obtain ⟨ct0, hct0, rfl⟩ := List.mem_map.mp hct
    have h00 := hf (c00 :: r0) (List.mem_cons_self _ _) c00 (List.mem_cons_self _ _)
    have h0 := hf row0 hrow0 ct0 hct0
    have hc := hcell row0 hrow0 ct0 hct0
    exact ⟨by rw [h0.2, h00.2, hc.1], by rw [h0.1, h00.1, hc.2]⟩

/-- C9: for a valid `EncryptedMatrix` `C`, when the serializers of one unit and of one
ciphertext are round trips (the unit comes back equal, every ciphertext of `C` comes
back with its level and its scale), deserializing `C.serialize()` succeeds; the result
has the height, the width and the unit of `C`, and its grid is the grid of `C` with
every ciphertext replaced by the deserialization of its serialization: the same number
of rows, the same row lengths, cell `(i, j)` coming from cell `(i, j)`, with the level
and the scale of that cell. -/
theorem deserialize_serialize {P U : Type} (unit_initialized : EncodingUnit → Bool)
    (sz : Serializers P U) (C : EncryptedMatrix)
    (hvalid : C.initialized unit_initialized = true)
    (hunit : sz.deserialize_unit (sz.serialize_unit C.unit) = C.unit)
    (hct : ∀ row ∈ C.cts, ∀ ct ∈ row,
      (sz.deserialize_ct (sz.serialize_ct ct)).he_level = ct.he_level ∧
      (sz.deserialize_ct (sz.serialize_ct ct)).scale = ct.scale) :
    ∃ D, EncryptedMatrix.deserialize unit_initialized sz (C.serialize sz) = Except.ok D ∧
      D.height_ = C.height_ ∧ D.width_ = C.width_ ∧ D.unit = C.unit ∧
      D.cts = C.cts.map (List.map fun ct => sz.deserialize_ct (sz.serialize_ct ct)) ∧
      D.cts.length = C.cts.length ∧
      (∀ i, (D.cts.getD i []).length = (C.cts.getD i []).length) ∧
      (∀ (i j : Nat) (ct : CKKSCiphertext), (C.cts.getD i [])[j]? = some ct →
        (D.cts.getD i [])[j]? = some (sz.deserialize_ct (sz.serialize_ct ct)) ∧
        (sz.deserialize_ct (sz.serialize_ct ct)).he_level = ct.he_level ∧
        (sz.deserialize_ct (sz.serialize_ct ct)).scale = ct.scale) := by
  have hcts : ((C.serialize sz).cts.map fun v => v.cts.map sz.deserialize_ct) =
      C.cts.map (List.map fun ct => sz.deserialize_ct (sz.serialize_ct ct)) := by
    rw [EncryptedMatrix.serialize_cts]
    simp [serialize_vector, Function.comp_def]
  have hD := EncryptedMatrix.initialized_map unit_initialized C
    (fun ct => sz.deserialize_ct (sz.serialize_ct ct)) hct hvalid
  refine ⟨⟨C.height_, C.width_, C.unit,
    C.cts.map (List.map fun ct => sz.deserialize_ct (sz.serialize_ct ct))⟩, ?_, rfl, rfl, rfl,
    rfl, by simp, ?_, ?_⟩
  · rw [EncryptedMatrix.deserialize_eq, hcts]
    have h1 : (C.serialize sz).height = C.height_ := rfl
    have h2 : (C.serialize sz).width = C.width_ := rfl
    have h3 : (C.serialize sz).unit = sz.serialize_unit C.unit := rfl
    rw [h1, h2, h3, hunit, if_pos hD]
  · intro i
    by_cases hi : i < C.cts.length
    · simp [List.getD_eq_getElem?_getD, hi]
    · have hi2 : C.cts.length ≤ i := by omega
      simp [List.getD_eq_getElem?_getD, List.getElem?_eq_none hi2]
  · intro i j ct hcell
    by_cases hi : i < C.cts.length
    · have hrow : C.cts[i] ∈ C.cts := List.getElem_mem hi
      have hcell2 : (C.cts[i])[j]? = some ct := by
        simpa [List.getD_eq_getElem?_getD, hi] using hcell
      have hmem : ct ∈ C.cts[i] := List.getElem?_mem hcell2
      refine ⟨?_, hct _ hrow ct hmem⟩
      simp [List.getD_eq_getElem?_getD, hi, hcell2]
    · have hi2 : C.cts.length ≤ i := by omega
      simp [List.getD_eq_getElem?_getD, List.getElem?_eq_none hi2] at hcell

/-- C9 at the 2 × 2 grid `example_encrypted_matrix` with serializers that keep the
ciphertext and the unit as they are. -/
theorem deserialize_serialize_witness :
    ∃ D, EncryptedMatrix.deserialize example_unit_initialized example_serializers
        (example_encrypted_matrix.serialize example_serializers) = Except.ok D ∧
      D.height_ = 3 ∧ D.width_ = 4 ∧ D.unit = ⟨2, 2⟩ ∧ D.cts.length = 2 := by
  obtain ⟨D, h1, h2, h3, h4, _, h6, _⟩ :=
    deserialize_serialize example_unit_initialized example_serializers example_encrypted_matrix
      (by decide) rfl (fun _ _ _ _ => ⟨rfl, rfl⟩)
  exact ⟨D, h1, h2, h3, h4, h6⟩

/-! ## The parameter tables and `isPow2` -/

/-- C11: `polyDegreeToMaxModBits` returns 27, 54, 109, 218, 438, 881 and 1761 for 1024,
2048, 4096, 8192, 16384, 32768 and 65536, and raises `invalid_argument` for every
other integer: 131072, zero, the negative integers and every other value. -/
theorem polyDegreeToMaxModBits_table :
    polyDegreeToMaxModBits 1024 = Except.ok 27 ∧
    polyDegreeToMaxModBits 2048 = Except.ok 54 ∧
    polyDegreeToMaxModBits 4096 = Except.ok 109 ∧
    polyDegreeToMaxModBits 8192 = Except.ok 218 ∧
    polyDegreeToMaxModBits 16384 = Except.ok 438 ∧
    polyDegreeToMaxModBits 32768 = Except.ok 881 ∧
    polyDegreeToMaxModBits 65536 = Except.ok 1761 ∧
    (∀ d : Int, d ∉ poly_degrees →
      polyDegreeToMaxModBits d = Except.error Error.invalid_argument) ∧
    polyDegreeToMaxModBits 131072 = Except.error Error.invalid_argument ∧
    polyDegreeToMaxModBits 0 = Except.error Error.invalid_argument ∧
    (∀ d : Int, d < 0 → polyDegreeToMaxModBits d = Except.error Error.invalid_argument) := by
  refine ⟨rfl, rfl, rfl, rfl, rfl, rfl, rfl, ?_, rfl, rfl, ?_⟩
  · intro d hd
    simp only [poly_degrees, List.mem_cons, List.mem_singleton, List.not_mem_nil, or_false,
      not_or] at hd
    obtain ⟨h1, h2, h3, h4, h5, h6, h7⟩ := hd
    simp only [polyDegreeToMaxModBits, h1, h2, h3, h4, h5, h6, h7, if_false]
    rfl
  · intro d hd
    have h1 : d ≠ 1024 := by omega
    have h2 : d ≠ 2048 := by omega
    have h3 : d ≠ 4096 := by omega
    have h4 : d ≠ 8192 := by omega
    have h5 : d ≠ 16384 := by omega
    have h6 : d ≠ 32768 := by omega
    have h7 : d ≠ 65536 := by omega
    simp only [polyDegreeToMaxModBits, h1, h2, h3, h4, h5, h6, h7, if_false]
    rfl

theorem polyDegreeToMaxModBits_eq_ok (d b : Int) (h : polyDegreeToMaxModBits d = Except.ok b) :
    (d = 1024 ∧ b = 27) ∨ (d = 2048 ∧ b = 54) ∨ (d = 4096 ∧ b = 109) ∨ (d = 8192 ∧ b = 218) ∨
      (d = 16384 ∧ b = 438) ∨ (d = 32768 ∧ b = 881) ∨ (d = 65536 ∧ b = 1761) := by
  unfold polyDegreeToMaxModBits at h
  split_ifs at h with h1 h2 h3 h4 h5 h6 h7 <;> cases h <;> omega

/-- C12: for every integer `modBits ≤ 1761`, `modulusToPolyDegree` returns a ring
dimension `d` of the table whose `polyDegreeToMaxModBits` is at least `modBits`, and no
smaller dimension of the table has that property; it maps the maximum of every
dimension of the table back to that dimension; for `modBits > 1761` it raises
`invalid_argument`. -/
theorem modulusToPolyDegree_smallest :
    (∀ modBits : Int, modBits ≤ 1761 →
      ∃ d, modulusToPolyDegree modBits = Except.ok d ∧ d ∈ poly_degrees ∧
        (∃ b, polyDegreeToMaxModBits d = Except.ok b ∧ modBits ≤ b) ∧
        ∀ d2 b2, d2 ∈ poly_degrees → polyDegreeToMaxModBits d2 = Except.ok b2 →
          modBits ≤ b2 → d ≤ d2) ∧
    (∀ d ∈ poly_degrees, ∃ b, polyDegreeToMaxModBits d = Except.ok b ∧
      modulusToPolyDegree b = Except.ok d) ∧
    (∀ modBits : Int, modBits > 1761 →
      modulusToPolyDegree modBits = Except.error Error.invalid_argument) := by
  refine ⟨?_, ?_, ?_⟩
  · intro m hm
    unfold modulusToPolyDegree
    split_ifs with h1 h2 h3 h4 h5 h6
    · refine ⟨1024, rfl, by decide, ⟨27, rfl, h1⟩, ?_⟩
      intro d2 b2 _ hb _
      rcases polyDegreeToMaxModBits_eq_ok d2 b2 hb with h | h | h | h | h | h | h <;> omega
    · refine ⟨2048, rfl, by decide, ⟨54, rfl, h2⟩, ?_⟩
      intro d2 b2 _ hb hle
      rcases polyDegreeToMaxModBits_eq_ok d2 b2 hb with h | h | h | h | h | h | h <;> omega
    · refine ⟨4096, rfl, by decide, ⟨109, rfl, h3⟩, ?_⟩
      intro d2 b2 _ hb hle
      rcases polyDegreeToMaxModBits_eq_ok d2 b2 hb with h | h | h | h | h | h | h <;> omega
    · refine ⟨8192, rfl, by decide, ⟨218, rfl, h4⟩, ?_⟩
      intro d2 b2 _ hb hle
      rcases polyDegreeToMaxModBits_eq_ok d2 b2 hb with h | h | h | h | h | h | h <;> omega
    · refine ⟨16384, rfl, by decide, ⟨438, rfl, h5⟩, ?_⟩
      intro d2 b2 _ hb hle
      rcases polyDegreeToMaxModBits_eq_ok d2 b2 hb with h | h | h | h | h | h | h <;> omega
    · refine ⟨32768, rfl, by decide, ⟨881, rfl, h6⟩, ?_⟩
      intro d2 b2 _ hb hle
      rcases polyDegreeToMaxModBits_eq_ok d2 b2 hb with h | h | h | h | h | h | h <;> omega
    · refine ⟨65536, rfl, by decide, ⟨1761, rfl, hm⟩, ?_⟩
      intro d2 b2 _ hb hle
      rcases polyDegreeToMaxModBits_eq_ok d2 b2 hb with h | h | h | h | h | h | h <;> omega
  · intro d hd
    simp only [poly_degrees, List.mem_cons, List.mem_singleton, List.not_mem_nil, or_false] at hd
    rcases hd with rfl | rfl | rfl | rfl | rfl | rfl | rfl
    · exact ⟨27, rfl, rfl⟩
    · exact ⟨54, rfl, rfl⟩
    · exact ⟨109, rfl, rfl⟩
    · exact ⟨218, rfl, rfl⟩
    · exact ⟨438, rfl, rfl⟩
    · exact ⟨881, rfl, rfl⟩
    · exact ⟨1761, rfl, rfl⟩
  · intro m hm
    unfold modulusToPolyDegree
    split_ifs <;> first | omega | rfl

theorem isPow2_iff_aux (n : Nat) : ∀ x : Int, x.toNat = n →
    (isPow2 x = true ↔ ∃ k : Nat, x = 2 ^ k) := by
  induction n using Nat.strong_induction_on with
  | _ n ih =>
    intro x hx
    rw [isPow2]
    by_cases h1 : x < 1
    · simp only [h1, if_true, Bool.false_eq_true, false_iff]
      rintro ⟨k, hk⟩
      have : (0 : Int) < 2 ^ k := by positivity
      omega
    · by_cases h2 : x = 1
      · rw [if_neg h1, if_pos h2]
        exact ⟨fun _ => ⟨0, by simp [h2]⟩, fun _ => rfl⟩
      · by_cases h3 : x % 2 = 1
        · rw [if_neg h1, if_neg h2, if_pos h3]
          simp only [Bool.false_eq_true, false_iff]
          rintro ⟨k, hk⟩
          cases k with
          | zero => simp at hk; omega
          | succ k =>
            rw [pow_succ] at hk
            omega
        · rw [if_neg h1, if_neg h2, if_neg h3]
          have hlt : (x / 2).toNat < n := by omega
          rw [ih (x / 2).toNat hlt (x / 2) rfl]
          constructor
          · rintro ⟨k, hk⟩
            refine ⟨k + 1, ?_⟩
            rw [pow_succ, ← hk]
            omega
          · rintro ⟨k, hk⟩
            cases k with
            | zero => simp at hk; omega
            | succ k =>
              refine ⟨k, ?_⟩
              rw [pow_succ] at hk
              omega

/-- C19: `isPow2` is a total function (the recursion on `x >> 1` ends), and
`isPow2(x)` is true exactly when `x = 2^k` for some natural number `k`; it is false for
every `x ≤ 0` and true for `x = 1`. -/
theorem isPow2_iff :
    (∀ x : Int, isPow2 x = true ↔ ∃ k : Nat, x = 2 ^ k) ∧
    (∀ x : Int, x ≤ 0 → isPow2 x = false) ∧
    isPow2 1 = true := by
  refine ⟨fun x => isPow2_iff_aux x.toNat x rfl, ?_, ?_⟩
  · intro x hx
    rw [isPow2]
    simp only [show x < 1 by omega, if_true]
  · rw [isPow2]
    simp

/-! ## `decodePlaintext` -/

theorem index_int_cases {β : Type} (x : List β) (i : Int) :
    index_int x i = Except.error Error.undefined_behaviour ∨ ∃ v, index_int x i = Except.ok v := by
  unfold index_int index
  by_cases hi : i < 0
  · left
    rw [if_pos hi]
  · rw [if_neg hi]
    cases x[i.toNat]? with
    | none => left; rfl
    | some v => right; exact ⟨v, rfl⟩

theorem index_int_eq_ok {β : Type} (x : List β) (i : Int) (h0 : 0 ≤ i)
    (h1 : i < (x.length : Int)) :
    ∃ v, index_int x i = Except.ok v ∧ x[i.toNat]? = some v := by
  have hlt : i.toNat < x.length := by omega
  refine ⟨x[i.toNat], ?_, List.getElem?_eq_getElem hlt⟩
  unfold index_int
  rw [if_neg (by omega), index_eq_ok x i.toNat hlt]

theorem row_vec_loop_ne_invalid {β : Type} (x : List β) (encoded_width : Int) (l : List Nat)
    (acc : List β) :
    l.foldlM (fun (dest : List β) (i : Nat) => do
        let v ← index_int x ((i : Int) * encoded_width)
        pure (dest ++ [v])) acc ≠ Except.error Error.invalid_argument := by
  induction l generalizing acc with
  | nil => intro h; cases h
  | cons a as ih =>
    rw [List.foldlM_cons]
    rcases index_int_cases x ((a : Int) * encoded_width) with h | ⟨v, h⟩
    · rw [h]
      intro h2
      cases h2
    · rw [h]
      exact ih (acc ++ [v])

theorem row_vec_loop_ok {β : Type} (x : List β) (encoded_width : Int) (l : List Nat)
    (hl : ∀ i ∈ l, 0 ≤ (i : Int) * encoded_width ∧ (i : Int) * encoded_width < (x.length : Int))
    (acc : List β) :
    l.foldlM (fun (dest : List β) (i : Nat) => do
        let v ← index_int x ((i : Int) * encoded_width)
        pure (dest ++ [v])) acc =
      Except.ok (acc ++ l.flatMap fun i => (x[((i : Int) * encoded_width).toNat]?).toList) := by
  apply foldlM_append_ok
  intro i hi acc2
  obtain ⟨v, hv, hget⟩ := index_int_eq_ok x _ (hl i hi).1 (hl i hi).2
  rw [hv, hget]
  rfl

/-- C15: `decodePlaintext` raises `invalid_argument` exactly when the encoding is
`COL_VEC` with `width ≠ 1` or `height ≠ encoded_width`, or `ROW_VEC` with `height ≠ 1`
or `width ≠ encoded_height`; for `MATRIX`, `ROW_MAT` and `COL_MAT` it never does; and
when it does not and `x` is long enough for the requested shape (at least
`height * width ≥ 0` entries, or an entry at `i * encoded_width` for every `i < width`
of a row vector), it returns. -/
theorem decodePlaintext_raises_iff {β : Type} (x : List β) (enc : CTEncoding)
    (height width encoded_height encoded_width : Int) :
    (decodePlaintext x enc height width encoded_height encoded_width =
        Except.error Error.invalid_argument ↔
      (enc = CTEncoding.COL_VEC ∧ (width ≠ 1 ∨ height ≠ encoded_width)) ∨
      (enc = CTEncoding.ROW_VEC ∧ (height ≠ 1 ∨ width ≠ encoded_height))) ∧
    (enc = CTEncoding.MATRIX ∨ enc = CTEncoding.ROW_MAT ∨ enc = CTEncoding.COL_MAT →
      decodePlaintext x enc height width encoded_height encoded_width ≠
        Except.error Error.invalid_argument) ∧
    ((enc ≠ CTEncoding.ROW_VEC → 0 ≤ height * width ∧ height * width ≤ (x.length : Int)) →
      (enc = CTEncoding.ROW_VEC → ∀ i : Nat, (i : Int) < width →
        0 ≤ (i : Int) * encoded_width ∧ (i : Int) * encoded_width < (x.length : Int)) →
      ¬ ((enc = CTEncoding.COL_VEC ∧ (width ≠ 1 ∨ height ≠ encoded_width)) ∨
        (enc = CTEncoding.ROW_VEC ∧ (height ≠ 1 ∨ width ≠ encoded_height))) →
      ∃ dest, decodePlaintext x enc height width encoded_height encoded_width =
        Except.ok dest) := by
  have hiff : decodePlaintext x enc height width encoded_height encoded_width =
        Except.error Error.invalid_argument ↔
      (enc = CTEncoding.COL_VEC ∧ (width ≠ 1 ∨ height ≠ encoded_width)) ∨
      (enc = CTEncoding.ROW_VEC ∧ (height ≠ 1 ∨ width ≠ encoded_height)) := by
    unfold decodePlaintext
    by_cases hc : enc = CTEncoding.COL_VEC ∧ (width ≠ 1 ∨ height ≠ encoded_width)
    · rw [if_pos hc]
      exact ⟨fun _ => Or.inl hc, fun _ => rfl⟩
    · rw [if_neg hc]
      by_cases hr : enc = CTEncoding.ROW_VEC ∧ (height ≠ 1 ∨ width ≠ encoded_height)
      · rw [if_pos hr]
        exact ⟨fun _ => Or.inr hr, fun _ => rfl⟩
      · rw [if_neg hr]
        constructor
        · intro h
          exfalso
          dsimp only at h
          split_ifs at h with h1 h2
          · cases h
          · cases h
          · exact row_vec_loop_ne_invalid x encoded_width _ [] h
        · rintro (h | h)
          · exact absurd h hc
          · exact absurd h hr
  refine ⟨hiff, ?_, ?_⟩
  · intro hm
    rw [Ne, hiff]
    rintro (⟨h, _⟩ | ⟨h, _⟩) <;> rcases hm with hm | hm | hm <;> rw [h] at hm <;> cases hm
  · intro hlong hrow hno
    unfold decodePlaintext
    rw [if_neg (fun h => hno (Or.inl h)), if_neg (fun h => hno (Or.inr h))]
    by_cases hm : enc = CTEncoding.MATRIX ∨ enc = CTEncoding.ROW_MAT ∨ enc = CTEncoding.COL_MAT ∨
        enc = CTEncoding.COL_VEC
    · rw [if_pos hm]
      have hne : enc ≠ CTEncoding.ROW_VEC := by
        rintro rfl
        rcases hm with hm | hm | hm | hm <;> cases hm
      simp only [hlong hne, and_self, if_true]
      exact ⟨_, rfl⟩
    · rw [if_neg hm]
      have he : enc = CTEncoding.ROW_VEC := by
        cases enc <;> simp at hm ⊢
      rw [row_vec_loop_ok x encoded_width _ (fun i hi => hrow he i (by
        have := List.mem_range.mp hi
        omega))]
      exact ⟨_, rfl⟩

/-! ## `diff2Norm` -/

theorem diff2Norm_eq {K : Type} [LinearOrderedField K] (sqrt : K → K) (expected actual : List K)
    (hlen : expected.length = actual.length) :
    diff2Norm sqrt expected actual =
      if norm_2 sqrt expected ≤ (2 : K) ^ (-11 : Int) ∧ norm_2 sqrt actual ≤ (2 : K) ^ (-11 : Int)
      then Except.ok (-1)
      else Except.ok (norm_2 sqrt (List.zipWith (fun e a => e - a) expected actual)) := by
  unfold diff2Norm
  dsimp only
  rw [if_neg (by simpa using hlen)]
  rfl

/-- C13, at `expected = [2]` and `actual = [0]` over the reals: the norm of `expected`
is 2, above `2^-11`, `diff2Norm` returns 2, the norm of the difference, and the relative
2-norm `‖expected - actual‖ / ‖expected‖` is 1. -/
theorem diff2Norm_returns_absolute_norm :
    diff2Norm Real.sqrt [2] [0] = Except.ok 2 ∧
    ¬ (Real.sqrt (([2] : List ℝ).map fun x => x * x).sum ≤ (2 : ℝ) ^ (-11 : Int)) ∧
    Real.sqrt ((List.zipWith (fun e a => e - a) ([2] : List ℝ) [0]).map fun x => x * x).sum /
      Real.sqrt (([2] : List ℝ).map fun x => x * x).sum = 1 ∧
    diff2Norm Real.sqrt [2] [0] ≠
      Except.ok (Real.sqrt ((List.zipWith (fun e a => e - a) ([2] : List ℝ) [0]).map
          fun x => x * x).sum /
        Real.sqrt (([2] : List ℝ).map fun x => x * x).sum) := by
  have h2 : Real.sqrt ((2 : ℝ) * 2) = 2 := Real.sqrt_mul_self (by norm_num)
  have hsmall : ¬ ((2 : ℝ) ≤ (2 : ℝ) ^ (-11 : Int)) := by
    rw [not_le]
    have : (2 : ℝ) ^ (-11 : Int) = 1 / 2048 := by norm_num [zpow_neg]
    rw [this]
    norm_num
  have hret : diff2Norm Real.sqrt [2] [0] = Except.ok 2 := by
    rw [diff2Norm_eq Real.sqrt [2] [0] rfl]
    simp only [norm_2, List.map_cons, List.map_nil, List.sum_cons, List.sum_nil, add_zero,
      List.zipWith_cons_cons, List.zipWith_nil_right, sub_zero, h2]
    rw [if_neg (fun h => hsmall h.1)]
  refine ⟨hret, ?_, ?_, ?_⟩
  · simpa only [List.map_cons, List.map_nil, List.sum_cons, List.sum_nil, add_zero, h2] using hsmall
  · simp only [List.map_cons, List.map_nil, List.sum_cons, List.sum_nil, add_zero,
      List.zipWith_cons_cons, List.zipWith_nil_right, sub_zero, h2]
    norm_num
  · rw [hret]
    simp only [List.map_cons, List.map_nil, List.sum_cons, List.sum_nil, add_zero,
      List.zipWith_cons_cons, List.zipWith_nil_right, sub_zero, h2]
    intro h
    have := Except.ok.inj h
    norm_num at this

/-- C14: for real vectors of equal length, `diff2Norm` returns the sentinel `-1` exactly
when the 2-norms of `expected` and of `actual` are both at most `2^-11`; in every other
case it returns the norm of the difference, a non-negative number. -/
theorem diff2Norm_sentinel_iff (expected actual : List ℝ)
    (hlen : expected.length = actual.length) :
    (diff2Norm Real.sqrt expected actual = Except.ok (-1) ↔
      Real.sqrt (expected.map fun x => x * x).sum ≤ (2 : ℝ) ^ (-11 : Int) ∧
      Real.sqrt (actual.map fun x => x * x).sum ≤ (2 : ℝ) ^ (-11 : Int)) ∧
    (¬ (Real.sqrt (expected.map fun x => x * x).sum ≤ (2 : ℝ) ^ (-11 : Int) ∧
        Real.sqrt (actual.map fun x => x * x).sum ≤ (2 : ℝ) ^ (-11 : Int)) →
      ∃ r, diff2Norm Real.sqrt expected actual = Except.ok r ∧ 0 ≤ r) := by
  rw [diff2Norm_eq Real.sqrt expected actual hlen]
  simp only [norm_2]
  by_cases hs : Real.sqrt (expected.map fun x => x * x).sum ≤ (2 : ℝ) ^ (-11 : Int) ∧
      Real.sqrt (actual.map fun x => x * x).sum ≤ (2 : ℝ) ^ (-11 : Int)
  · rw [if_pos hs]
    exact ⟨⟨fun _ => hs, fun _ => rfl⟩, fun h => absurd hs h⟩
  · rw [if_neg hs]
    refine ⟨⟨fun h => ?_, fun h => absurd h hs⟩, fun _ => ⟨_, rfl, Real.sqrt_nonneg _⟩⟩
    have h1 := Except.ok.inj h
    have h2 := Real.sqrt_nonneg
      ((List.zipWith (fun e a => e - a) expected actual).map fun x => x * x).sum
    rw [h1] at h2
    norm_num at h2

/-- C14 at `expected = [2]` and `actual = [0]`. -/
theorem diff2Norm_sentinel_iff_witness :
    (diff2Norm Real.sqrt [2] [0] = Except.ok (-1) ↔
      Real.sqrt (([2] : List ℝ).map fun x => x * x).sum ≤ (2 : ℝ) ^ (-11 : Int) ∧
      Real.sqrt (([0] : List ℝ).map fun x => x * x).sum ≤ (2 : ℝ) ^ (-11 : Int)) ∧
    (¬ (Real.sqrt (([2] : List ℝ).map fun x => x * x).sum ≤ (2 : ℝ) ^ (-11 : Int) ∧
        Real.sqrt (([0] : List ℝ).map fun x => x * x).sum ≤ (2 : ℝ) ^ (-11 : Int)) →
      ∃ r, diff2Norm Real.sqrt [2] [0] = Except.ok r ∧ 0 ≤ r) :=
  diff2Norm_sentinel_iff [2] [0] rfl

/-! ## `CKKSEncryptor::encryptMatrix` -/

theorem Api.to_size_t_nonneg (n : Int) (hn : -(2 : Int) ^ 64 ≤ n) : 0 ≤ Api.to_size_t n := by
  unfold Api.to_size_t
  split_ifs <;> omega

theorem Api.scale_loop_ne_invalid (context : Api.SEALContext) (lvl : Int) (j : Nat) (scale : ℚ) :
    Api.scale_loop context lvl j scale ≠ Except.error Error.invalid_argument := by
  induction j generalizing scale with
  | zero =>
    unfold Api.scale_loop
    split_ifs <;> intro h <;> cases h
  | succ j ih =>
    unfold Api.scale_loop
    split_ifs
    · exact ih _
    · intro h
      cases h

theorem Api.scale_loop_top (context : Api.SEALContext) (j : Nat) (scale : ℚ) :
    Api.scale_loop context (j : Int) j scale = Except.ok (j, scale) := by
  have hj : Api.to_size_t (j : Int) = (j : Int) := by
    unfold Api.to_size_t
    rw [if_neg (by omega)]
  cases j with
  | zero =>
    unfold Api.scale_loop
    rw [if_neg (by rw [hj]; omega)]
  | succ j =>
    unfold Api.scale_loop
    rw [if_neg (by rw [hj]; omega)]

theorem Api.encryptMatrix_ne_invalid (self : Api.CKKSEncryptor) (mat : Matrix ℚ) (scale : ℚ)
    (dest : Api.CKKSCiphertext) (lvl : Int)
    (hc : ¬ (self.mode ≠ Api.EncryptionMode.ENC_META ∧
      ((mat.size1 * mat.size2 : Nat) : Int) ≠ self.numSlots)) :
    (Api.encryptMatrix self mat scale dest lvl).1 ≠ Except.error Error.invalid_argument := by
  unfold Api.encryptMatrix
  rw [if_neg hc]
  dsimp only
  have hloop := Api.scale_loop_ne_invalid self.context
    (if lvl = -1 then (self.context.top : Int) else lvl) self.context.top scale
  split
  · rename_i e he
    intro h
    apply hloop
    rw [he, Except.error.inj h]
  · rename_i chain_index scale1 he
    split
    · split
      · intro h
        cases h
      · intro h
        cases h
    · intro h
      cases h

/-- C16: `encryptMatrix` raises `invalid_argument` exactly when the mode is not
`ENC_META` and `rows * cols` of the matrix differs from `numSlots` (so never in
`ENC_META`); when it does, `dest` is as it was before the call. -/
theorem encryptMatrix_raises_iff (self : Api.CKKSEncryptor) (mat : Matrix ℚ) (scale : ℚ)
    (dest : Api.CKKSCiphertext) (lvl : Int) :
    ((Api.encryptMatrix self mat scale dest lvl).1 = Except.error Error.invalid_argument ↔
      self.mode ≠ Api.EncryptionMode.ENC_META ∧
        ((mat.size1 * mat.size2 : Nat) : Int) ≠ self.numSlots) ∧
    (self.mode = Api.EncryptionMode.ENC_META →
      (Api.encryptMatrix self mat scale dest lvl).1 ≠ Except.error Error.invalid_argument) ∧
    ((Api.encryptMatrix self mat scale dest lvl).1 = Except.error Error.invalid_argument →
      (Api.encryptMatrix self mat scale dest lvl).2 = dest) := by
  have hiff : (Api.encryptMatrix self mat scale dest lvl).1 = Except.error Error.invalid_argument ↔
      self.mode ≠ Api.EncryptionMode.ENC_META ∧
        ((mat.size1 * mat.size2 : Nat) : Int) ≠ self.numSlots := by
    constructor
    · intro h
      by_contra hc
      exact Api.encryptMatrix_ne_invalid self mat scale dest lvl hc h
    · intro hc
      unfold Api.encryptMatrix
      rw [if_pos hc]
  refine ⟨hiff, ?_, ?_⟩
  · intro hm
    rw [Ne, hiff]
    exact fun h => h.1 hm
  · intro h
    have hc := hiff.mp h
    unfold Api.encryptMatrix
    rw [if_pos hc]

theorem Api.encryptMatrix_heLevel (self : Api.CKKSEncryptor) (mat : Matrix ℚ) (scale : ℚ)
    (dest : Api.CKKSCiphertext) (lvl : Int)
    (hmode : self.mode ≠ Api.EncryptionMode.ENC_NORMAL)
    (hret : (Api.encryptMatrix self mat scale dest lvl).1 = Except.ok ()) :
    (Api.encryptMatrix self mat scale dest lvl).2.heLevel =
      if lvl = -1 then (self.context.top : Int) else lvl := by
  unfold Api.encryptMatrix at hret ⊢
  by_cases hc : self.mode ≠ Api.EncryptionMode.ENC_META ∧
      ((mat.size1 * mat.size2 : Nat) : Int) ≠ self.numSlots
  · rw [if_pos hc] at hret
    cases hret
  · rw [if_neg hc] at hret ⊢
    dsimp only at hret ⊢
    split
    · rename_i e he
      rw [he] at hret
      cases hret
    · rename_i chain_index scale1 he
      rw [if_pos hmode]
      split
      · split
        · rename_i hs
          rw [he] at hret
          dsimp only at hret
          rw [if_pos (by assumption), hs] at hret
          cases hret
        · split <;> rfl
      · split <;> rfl

theorem Api.encryptMatrix_congr (self : Api.CKKSEncryptor) (mat : Matrix ℚ) (scale : ℚ)
    (dest : Api.CKKSCiphertext) (lvl lvl2 : Int)
    (h : (if lvl = -1 then (self.context.top : Int) else lvl) =
      (if lvl2 = -1 then (self.context.top : Int) else lvl2)) :
    Api.encryptMatrix self mat scale dest lvl = Api.encryptMatrix self mat scale dest lvl2 := by
  unfold Api.encryptMatrix
  dsimp only
  rw [h]

/-- C17: in a mode other than `ENC_NORMAL`, when the size of the matrix is accepted,
`encryptMatrix` called with `lvl = -1` leaves in `dest.heLevel` the chain index of the
first context data and in `dest.scale` the scale it was given (the loop that adjusts
the scale runs zero times), and the call ends, and leaves `dest`, as the call with the
top level as `lvl` does. -/
theorem encryptMatrix_default_level (self : Api.CKKSEncryptor) (mat : Matrix ℚ) (scale : ℚ)
    (dest : Api.CKKSCiphertext)
    (hmode : self.mode ≠ Api.EncryptionMode.ENC_NORMAL)
    (hsize : ¬ (self.mode ≠ Api.EncryptionMode.ENC_META ∧
      ((mat.size1 * mat.size2 : Nat) : Int) ≠ self.numSlots)) :
    (Api.encryptMatrix self mat scale dest (-1)).2.heLevel = (self.context.top : Int) ∧
    (Api.encryptMatrix self mat scale dest (-1)).2.scale = scale ∧
    Api.scale_loop self.context (self.context.top : Int) self.context.top scale =
      Except.ok (self.context.top, scale) ∧
    Api.encryptMatrix self mat scale dest (-1) =
      Api.encryptMatrix self mat scale dest (self.context.top : Int) := by
  have hloop := Api.scale_loop_top self.context self.context.top scale
  have htop : (if (self.context.top : Int) = -1 then (self.context.top : Int)
      else (self.context.top : Int)) = (self.context.top : Int) := by
    split_ifs <;> rfl
  refine ⟨?_, ?_, hloop, ?_⟩
  · unfold Api.encryptMatrix
    rw [if_neg hsize]
    simp only [if_true, hloop, if_pos hmode]
    split
    · split <;> split <;> rfl
    · split <;> rfl
  · unfold Api.encryptMatrix
    rw [if_neg hsize]
    simp only [if_true, hloop, if_pos hmode]
    split
    · split <;> split <;> rfl
    · split <;> rfl
  · apply Api.encryptMatrix_congr
    rw [htop]
    rfl

/-- C17 at an encryptor in mode `ENC_PLAIN` for 4 slots, a 2 × 2 matrix and a context
whose top chain index is 2. -/
theorem encryptMatrix_default_level_witness :
    (Api.encryptMatrix example_encryptor example_matrix_4 1024 example_dest (-1)).2.heLevel = 2 ∧
    (Api.encryptMatrix example_encryptor example_matrix_4 1024 example_dest (-1)).2.scale = 1024 :=
  ⟨(encryptMatrix_default_level example_encryptor example_matrix_4 1024 example_dest
      (by decide) (by decide)).1,
    (encryptMatrix_default_level example_encryptor example_matrix_4 1024 example_dest
      (by decide) (by decide)).2.1⟩

/-- C18 fails at `lvl = 3` with a context whose top chain index is 2, in mode
`ENC_PLAIN`: the call returns normally and leaves 3 in `dest.heLevel`. -/
theorem encryptMatrix_level_above_top :
    example_encryptor.mode ≠ Api.EncryptionMode.ENC_NORMAL ∧
    (Api.encryptMatrix example_encryptor example_matrix_4 1024 example_dest 3).1 = Except.ok () ∧
    (Api.encryptMatrix example_encryptor example_matrix_4 1024 example_dest 3).2.heLevel = 3 ∧
    ¬ ((0 : Int) ≤ (Api.encryptMatrix example_encryptor example_matrix_4 1024 example_dest 3).2.heLevel ∧
      (Api.encryptMatrix example_encryptor example_matrix_4 1024 example_dest 3).2.heLevel ≤
        (example_encryptor.context.top : Int)) := by
  have h1 : (Api.encryptMatrix example_encryptor example_matrix_4 1024 example_dest 3).1 =
      Except.ok () := by
    simp [Api.encryptMatrix, example_encryptor, example_matrix_4, example_context,
      Api.scale_loop, Api.to_size_t]
  have h2 := Api.encryptMatrix_heLevel example_encryptor example_matrix_4 1024 example_dest 3
    (by decide) h1
  simp only [show ¬ ((3 : Int) = -1) by decide, if_false] at h2
  refine ⟨by decide, h1, h2, ?_⟩
  rw [h2]
  simp [example_encryptor, example_context]

/-- C18, amended: in a mode other than `ENC_NORMAL`, whenever `encryptMatrix` returns
normally, `dest.heLevel` is the argument `lvl`, or the chain index of the first context
data when `lvl = -1`; so it is a non-negative integer not greater than that chain index
exactly when `lvl = -1` or `0 ≤ lvl ≤` that chain index. -/
theorem encryptMatrix_level (self : Api.CKKSEncryptor) (mat : Matrix ℚ) (scale : ℚ)
    (dest : Api.CKKSCiphertext) (lvl : Int)
    (hmode : self.mode ≠ Api.EncryptionMode.ENC_NORMAL)
    (hret : (Api.encryptMatrix self mat scale dest lvl).1 = Except.ok ()) :
    (Api.encryptMatrix self mat scale dest lvl).2.heLevel =
      (if lvl = -1 then (self.context.top : Int) else lvl) ∧
    (((0 : Int) ≤ (Api.encryptMatrix self mat scale dest lvl).2.heLevel ∧
        (Api.encryptMatrix self mat scale dest lvl).2.heLevel ≤ (self.context.top : Int)) ↔
      (lvl = -1 ∨ (0 ≤ lvl ∧ lvl ≤ (self.context.top : Int)))) := by
  have h := Api.encryptMatrix_heLevel self mat scale dest lvl hmode hret
  refine ⟨h, ?_⟩
  rw [h]
  split_ifs with h1 <;> omega

/-- C18, amended, at `lvl = 1` with a context whose top chain index is 2. -/
theorem encryptMatrix_level_witness :
    (Api.encryptMatrix example_encryptor example_matrix_4 1024 example_dest 1).2.heLevel = 1 := by
  have h := (encryptMatrix_level example_encryptor example_matrix_4 1024 example_dest 1
    (by decide) (by
      simp [Api.encryptMatrix, example_encryptor, example_matrix_4, example_context,
        Api.scale_loop, Api.to_size_t])).1
  simpa using h

/-! ## Indexing the cells of an `EncryptedMatrix` -/

theorem mul_add_div_mod (C i j : Nat) (hj : j < C) :
    (i * C + j) / C = i ∧ (i * C + j) % C = j := by
  have hC : 0 < C := by omega
  constructor
  · rw [Nat.add_comm, Nat.add_mul_div_right _ _ hC, Nat.div_eq_of_lt hj, Nat.zero_add]
  · rw [Nat.mul_comm, Nat.mul_add_mod, Nat.mod_eq_of_lt hj]

theorem div_lt_of_lt_mul' (R C idx : Nat) (h : idx < R * C) : idx / C < R ∧ idx % C < C := by
  have hC : 0 < C := by
    rcases Nat.eq_zero_or_pos C with h0 | h0
    · subst h0; simp at h
    · exact h0
  exact ⟨Nat.div_lt_of_lt_mul (by rwa [Nat.mul_comm] at h), Nat.mod_lt _ hC⟩

theorem map_range_getD {β : Type} (l : List β) (d : β) :
    (List.range l.length).map (fun i => l.getD i d) = l := by
  rw [← flatMap_singleton_eq_map]
  exact flatMap_range_getD l d

theorem flatten_rect {β : Type} (grid : List (List β)) (C : Nat) (d : β)
    (hrect : ∀ row ∈ grid, row.length = C) :
    (List.range (grid.length * C)).map
      (fun idx => ((grid.getD (idx / C) []).getD (idx % C) d)) = grid.flatten := by
  rw [← flatMap_singleton_eq_map,
    ← flatMap_range_mul grid.length C
      (fun idx => [((grid.getD (idx / C) []).getD (idx % C) d)])]
  have hrow : ∀ i ∈ List.range grid.length,
      ((List.range C).flatMap fun j =>
        [((grid.getD ((i * C + j) / C) []).getD ((i * C + j) % C) d)]) = grid.getD i [] := by
    intro i hi
    have hi2 : i < grid.length := List.mem_range.mp hi
    have hlen : (grid.getD i []).length = C := by
      apply hrect
      rw [List.getD_eq_getElem _ _ hi2]
      exact List.getElem_mem hi2
    have hcell : ∀ j ∈ List.range C,
        [((grid.getD ((i * C + j) / C) []).getD ((i * C + j) % C) d)] =
          [(grid.getD i []).getD j d] := by
      intro j hj
      obtain ⟨h1, h2⟩ := mul_add_div_mod C i j (List.mem_range.mp hj)
      rw [h1, h2]
    rw [List.flatMap_congr hcell]
    conv_lhs => rw [← hlen]
    exact flatMap_range_getD _ d
  rw [List.flatMap_congr hrow]
  have : ((List.range grid.length).flatMap fun i => grid.getD i []) =
      ((List.range grid.length).map fun i => grid.getD i []).flatMap id := by
    rw [List.flatMap_map]
    rfl
  rw [this, map_range_getD, List.flatMap_id]

theorem EncryptedMatrix.get_eq (m : EncryptedMatrix) (d : CKKSCiphertext) (idx : Nat)
    (hrect : ∀ row ∈ m.cts, row.length = (m.cts.headD []).length)
    (hidx : idx < m.cts.length * (m.cts.headD []).length) :
    m.get idx = Except.ok
      ((m.cts.getD (idx / (m.cts.headD []).length) []).getD
        (idx % (m.cts.headD []).length) d) := by
  obtain ⟨h1, h2⟩ := div_lt_of_lt_mul' _ _ idx hidx
  have hlen : (m.cts[idx / (m.cts.headD []).length]).length = (m.cts.headD []).length :=
    hrect _ (List.getElem_mem h1)
  unfold EncryptedMatrix.get
  dsimp only
  rw [if_neg (by omega), index_eq_ok _ _ h1]
  show index (m.cts[idx / (m.cts.headD []).length]) (idx % (m.cts.headD []).length) = _
  rw [index_eq_ok _ _ (by rw [hlen]; exact h2), List.getD_eq_getElem _ _ h1,
    List.getD_eq_getElem _ _ (by rw [hlen]; exact h2)]

/-- C20: for a valid `EncryptedMatrix` with `R` rows of `C` ciphertexts, `num_cts()` is
`R * C`; for every `idx < R * C`, `operator[](idx)` reads, inside the grid, the cell of
row `idx / C` and column `idx % C`; every cell `(i, j)` is read at `idx = i * C + j`
and at no other index below `R * C`; and reading at `0, 1, ..., R * C - 1` gives the
cells row after row. -/
theorem get_row_major (unit_initialized : EncodingUnit → Bool) (m : EncryptedMatrix)
    (hvalid : m.initialized unit_initialized = true) :
    (∀ row ∈ m.cts, row.length = (m.cts.headD []).length) ∧
    m.num_cts = m.cts.length * (m.cts.headD []).length ∧
    (∀ idx, idx < m.cts.length * (m.cts.headD []).length →
      idx / (m.cts.headD []).length < m.cts.length ∧
      idx % (m.cts.headD []).length < (m.cts.headD []).length ∧
      ∃ row ct, m.cts[idx / (m.cts.headD []).length]? = some row ∧
        row[idx % (m.cts.headD []).length]? = some ct ∧ m.get idx = Except.ok ct) ∧
    (∀ i j, i < m.cts.length → j < (m.cts.headD []).length →
      i * (m.cts.headD []).length + j < m.cts.length * (m.cts.headD []).length ∧
      (i * (m.cts.headD []).length + j) / (m.cts.headD []).length = i ∧
      (i * (m.cts.headD []).length + j) % (m.cts.headD []).length = j) ∧
    (∀ idx idx2, idx / (m.cts.headD []).length = idx2 / (m.cts.headD []).length →
      idx % (m.cts.headD []).length = idx2 % (m.cts.headD []).length → idx = idx2) ∧
    (List.range (m.cts.length * (m.cts.headD []).length)).mapM m.get =
      Except.ok m.cts.flatten := by
  obtain ⟨height, width, unit, cts⟩ := m
  rw [EncryptedMatrix.initialized_iff] at hvalid
  obtain ⟨c00, r0, rest, hcts, _, _, hlen, _, _⟩ := hvalid
  have hhead : (cts.headD []).length = (c00 :: r0).length := by rw [hcts]; rfl
  have hrect : ∀ row ∈ cts, row.length = (cts.headD []).length := by
    intro row hrow
    rw [hhead]
    exact hlen row hrow
  refine ⟨hrect, rfl, ?_, ?_, ?_, ?_⟩
  · intro idx hidx
    obtain ⟨h1, h2⟩ := div_lt_of_lt_mul' _ _ idx hidx
    have hrl : (cts[idx / (cts.headD []).length]).length = (cts.headD []).length :=
      hrect _ (List.getElem_mem h1)
    have h2' : idx % (cts.headD []).length < (cts[idx / (cts.headD []).length]).length := by
      rw [hrl]; exact h2
    refine ⟨h1, h2, cts[idx / (cts.headD []).length],
      (cts[idx / (cts.headD []).length])[idx % (cts.headD []).length],
      List.getElem?_eq_getElem h1, List.getElem?_eq_getElem h2', ?_⟩
    have := EncryptedMatrix.get_eq ⟨height, width, unit, cts⟩ c00 idx hrect hidx
    rw [this]
    show Except.ok ((cts.getD _ []).getD _ c00) = _
    rw [List.getD_eq_getElem _ _ h1, List.getD_eq_getElem _ _ h2']
  · intro i j hi hj
    obtain ⟨h1, h2⟩ := mul_add_div_mod _ i j hj
    exact ⟨flat_index_lt hi hj, h1, h2⟩
  · intro idx idx2 h1 h2
    rw [← Nat.div_add_mod idx (cts.headD []).length, ← Nat.div_add_mod idx2 (cts.headD []).length,
      h1, h2]
  · rw [mapM_ok _ _ (fun idx => ((cts.getD (idx / (cts.headD []).length) []).getD
        (idx % (cts.headD []).length) c00))]
    · exact congrArg Except.ok (flatten_rect cts _ c00 hrect)
    · intro idx hidx
      exact EncryptedMatrix.get_eq ⟨height, width, unit, cts⟩ c00 idx hrect
        (List.mem_range.mp hidx)

/-- C20 at the 2 × 2 grid `example_encrypted_matrix`. -/
theorem get_row_major_witness :
    example_encrypted_matrix.num_cts = 4 ∧
    (List.range 4).mapM example_encrypted_matrix.get =
      Except.ok [example_ct 2, example_ct 2, example_ct 2, example_ct 2] := by
  obtain ⟨_, h2, _, _, _, h6⟩ :=
    get_row_major example_unit_initialized example_encrypted_matrix (by decide)
  exact ⟨h2, h6⟩

/-! ## The counters of `OpCount`, continued -/

/-- C21: from the same state, `square_inplace_internal(ct)` leaves the six counters
that `multiply_inplace_internal(ct, ct)` leaves, and that either overload of
`multiply_plain_inplace_internal` leaves, whatever the counting helpers are; and when
the embedded `DepthFinder` does for `square(ct)` what it does for `multiply(ct, ct)`,
the two hooks of `OpCount` end in the same state with the same ciphertext. The
`DepthFinder` of the specification is such a one. -/
theorem square_counts_as_multiply {σ : Type} (df : DepthFinder σ) (h : CountOps) (oc : OpCount σ)
    (ct : CKKSCiphertext) (scalar : ℚ) (plain : List ℚ) :
    (OpCount.square_inplace_internal df h oc ct).1.counters =
      (OpCount.multiply_inplace_internal df h oc ct ct).1.counters ∧
    (OpCount.square_inplace_internal df h oc ct).1.counters =
      (OpCount.multiply_plain_inplace_internal_scalar df h oc ct scalar).1.counters ∧
    (OpCount.square_inplace_internal df h oc ct).1.counters =
      (OpCount.multiply_plain_inplace_internal df h oc ct plain).1.counters ∧
    (df.square_inplace_internal oc.depth_finder ct =
        df.multiply_inplace_internal oc.depth_finder ct ct →
      OpCount.square_inplace_internal df h oc ct =
        OpCount.multiply_inplace_internal df h oc ct ct) ∧
    (∀ (s : DepthState), specDepthFinder.square_inplace_internal s ct =
      specDepthFinder.multiply_inplace_internal s ct ct) := by
  refine ⟨rfl, rfl, rfl, ?_, fun _ => rfl⟩
  intro hdf
  simp only [OpCount.square_inplace_internal, OpCount.multiply_inplace_internal, hdf]

/-- C28: `rescale_to_next_inplace_internal` and `relinearize_inplace_internal` leave
the six counters as they are, and `negate_inplace_internal` adds one to `negations_`
and leaves the other five as they are. -/
theorem rescale_relinearize_negate_counters {σ : Type} (df : DepthFinder σ) (oc : OpCount σ)
    (ct : CKKSCiphertext) :
    (OpCount.rescale_to_next_inplace_internal df oc ct).1.counters = oc.counters ∧
    (OpCount.relinearize_inplace_internal df oc ct).1.counters = oc.counters ∧
    (OpCount.negate_inplace_internal df oc ct).1.counters.negations_ =
      oc.counters.negations_ + 1 ∧
    (OpCount.negate_inplace_internal df oc ct).1.counters.multiplies_ =
      oc.counters.multiplies_ ∧
    (OpCount.negate_inplace_internal df oc ct).1.counters.additions_ =
      oc.counters.additions_ ∧
    (OpCount.negate_inplace_internal df oc ct).1.counters.rotations_ =
      oc.counters.rotations_ ∧
    (OpCount.negate_inplace_internal df oc ct).1.counters.mod_downs_ =
      oc.counters.mod_downs_ ∧
    (OpCount.negate_inplace_internal df oc ct).1.counters.mod_down_multi_levels_ =
      oc.counters.mod_down_multi_levels_ :=
  ⟨rfl, rfl, rfl, rfl, rfl, rfl, rfl, rfl⟩

theorem OpCount.step_mod_downs {σ : Type} (df : DepthFinder σ) (h : CountOps)
    (hh : h.KeepsModDowns) (st : OpCount σ × Store) (ins : Nat × Op Nat)
    (hok : OpCount.mod_down_ok st.2 ins) :
    st.1.counters.mod_downs_ ≤ (OpCount.step df h st ins).1.counters.mod_downs_ ∧
    st.1.counters.mod_down_multi_levels_ ≤
      (OpCount.step df h st ins).1.counters.mod_down_multi_levels_ ∧
    (OpCount.step df h st ins).1.counters.mod_downs_ - st.1.counters.mod_downs_ ≤
      (OpCount.step df h st ins).1.counters.mod_down_multi_levels_ -
        st.1.counters.mod_down_multi_levels_ := by
  obtain ⟨n, op⟩ := ins
  obtain ⟨⟨r1, r2⟩, ⟨a1, a2⟩, ⟨m1, m2⟩⟩ := hh st.1.counters
  cases op <;>
    simp only [OpCount.step, OpCount.hook, Op.map, OpCount.delegate,
      OpCount.rotate_right_inplace_internal, OpCount.rotate_left_inplace_internal,
      OpCount.negate_inplace_internal, OpCount.add_inplace_internal,
      OpCount.add_plain_inplace_internal_scalar, OpCount.add_plain_inplace_internal,
      OpCount.sub_inplace_internal, OpCount.sub_plain_inplace_internal_scalar,
      OpCount.sub_plain_inplace_internal, OpCount.multiply_inplace_internal,
      OpCount.multiply_plain_inplace_internal_scalar, OpCount.multiply_plain_inplace_internal,
      OpCount.square_inplace_internal, OpCount.rescale_to_next_inplace_internal,
      OpCount.relinearize_inplace_internal, r1, r2, a1, a2, m1, m2, le_refl, sub_self,
      and_self]
  case mod_down_to_level level =>
    simp only [OpCount.mod_down_ok] at hok
    simp only [OpCount.mod_down_to_level_inplace_internal, OpCount.delegate]
    by_cases hl : (st.2 n).he_level - level > 0
    · simp only [hl, if_true]
      omega
    · simp only [hl, if_false]
      omega

theorem OpCount.run_mod_downs {σ : Type} (df : DepthFinder σ) (h : CountOps)
    (hh : h.KeepsModDowns) (c : Circuit) (st : OpCount σ × Store)
    (hok : OpCount.run_mod_down_ok df h st c) :
    st.1.counters.mod_downs_ ≤ (OpCount.run df h st c).1.counters.mod_downs_ ∧
    st.1.counters.mod_down_multi_levels_ ≤
      (OpCount.run df h st c).1.counters.mod_down_multi_levels_ ∧
    (OpCount.run df h st c).1.counters.mod_downs_ - st.1.counters.mod_downs_ ≤
      (OpCount.run df h st c).1.counters.mod_down_multi_levels_ -
        st.1.counters.mod_down_multi_levels_ := by
  induction c generalizing st with
  | nil => simp [OpCount.run]
  | cons ins c ih =>
    obtain ⟨h1, h2⟩ := hok
    have hs := OpCount.step_mod_downs df h hh st ins h1
    have hr := ih (OpCount.step df h st ins) h2
    simp only [OpCount.run, List.foldl_cons] at hr ⊢
    omega

theorem OpCount.run_append {σ : Type} (df : DepthFinder σ) (h : CountOps) (c1 c2 : Circuit)
    (st : OpCount σ × Store) :
    OpCount.run df h st (c1 ++ c2) = OpCount.run df h (OpCount.run df h st c1) c2 := by
  simp [OpCount.run, List.foldl_append]

theorem OpCount.run_mod_down_ok_append {σ : Type} (df : DepthFinder σ) (h : CountOps)
    (c1 c2 : Circuit) (st : OpCount σ × Store)
    (hok : OpCount.run_mod_down_ok df h st (c1 ++ c2)) :
    OpCount.run_mod_down_ok df h (OpCount.run df h st c1) c2 := by
  induction c1 generalizing st with
  | nil => exact hok
  | cons ins c ih =>
    obtain ⟨_, h2⟩ := hok
    have := ih (OpCount.step df h st ins) h2
    simpa [OpCount.run] using this

/-- C27: when the counting helpers leave the two mod-down counters as they are, in
every state reached from a reset `OpCount` by a circuit in which every
`mod_down_to_level` has a target level not above the level of its ciphertext,
`mod_downs_` and `mod_down_multi_levels_` are non-negative and
`mod_downs_ ≤ mod_down_multi_levels_`, and neither counter decreases along such a
circuit, from any state; a `mod_down_to_level` whose target level is above the level of
the ciphertext makes `mod_down_multi_levels_` smaller and leaves `mod_downs_`. -/
theorem mod_down_counters_invariant {σ : Type} (df : DepthFinder σ) (h : CountOps)
    (hh : h.KeepsModDowns) :
    (∀ (oc : OpCount σ) (s : Store) (c : Circuit),
      OpCount.run_mod_down_ok df h (OpCount.reset df (oc, s)) c →
      0 ≤ (OpCount.run df h (OpCount.reset df (oc, s)) c).1.counters.mod_downs_ ∧
      0 ≤ (OpCount.run df h (OpCount.reset df (oc, s)) c).1.counters.mod_down_multi_levels_ ∧
      (OpCount.run df h (OpCount.reset df (oc, s)) c).1.counters.mod_downs_ ≤
        (OpCount.run df h (OpCount.reset df (oc, s)) c).1.counters.mod_down_multi_levels_) ∧
    (∀ (st : OpCount σ × Store) (c1 c2 : Circuit),
      OpCount.run_mod_down_ok df h st (c1 ++ c2) →
      (OpCount.run df h st c1).1.counters.mod_downs_ ≤
        (OpCount.run df h st (c1 ++ c2)).1.counters.mod_downs_ ∧
      (OpCount.run df h st c1).1.counters.mod_down_multi_levels_ ≤
        (OpCount.run df h st (c1 ++ c2)).1.counters.mod_down_multi_levels_) ∧
    (∀ (oc : OpCount σ) (ct : CKKSCiphertext) (level : Int), ct.he_level < level →
      (OpCount.mod_down_to_level_inplace_internal df oc ct level).1.counters.mod_down_multi_levels_
        < oc.counters.mod_down_multi_levels_ ∧
      (OpCount.mod_down_to_level_inplace_internal df oc ct level).1.counters.mod_downs_ =
        oc.counters.mod_downs_) := by
  refine ⟨?_, ?_, ?_⟩
  · intro oc s c hok
    have hr := OpCount.run_mod_downs df h hh c (OpCount.reset df (oc, s)) hok
    have h0 : (OpCount.reset df (oc, s)).1.counters.mod_downs_ = 0 := rfl
    have h1 : (OpCount.reset df (oc, s)).1.counters.mod_down_multi_levels_ = 0 := rfl
    rw [h0, h1] at hr
    omega
  · intro st c1 c2 hok
    have hr := OpCount.run_mod_downs df h hh c2 (OpCount.run df h st c1)
      (OpCount.run_mod_down_ok_append df h c1 c2 st hok)
    rw [OpCount.run_append]
    exact ⟨hr.1, hr.2.1⟩
  · intro oc ct level hl
    simp only [OpCount.mod_down_to_level_inplace_internal, OpCount.delegate]
    have h1 : ¬ (ct.he_level - level > 0) := by omega
    simp only [h1, if_false]
    constructor
    · omega
    · trivial

theorem specCountOps_keepsModDowns : specCountOps.KeepsModDowns :=
  fun _ => ⟨⟨rfl, rfl⟩, ⟨rfl, rfl⟩, ⟨rfl, rfl⟩⟩

/-- C27 at the circuit of seed scenario 5 run from level 3, with the `DepthFinder` and
the counting helpers of the specification: one mod-down, of two levels. -/
theorem mod_down_counters_invariant_witness :
    0 ≤ (OpCount.run specDepthFinder specCountOps
      (OpCount.reset specDepthFinder (⟨⟨5, 4, 3, 2, 1, 7⟩, ⟨3, 1⟩⟩, fun _ => example_ct 3))
      example_circuit).1.counters.mod_downs_ ∧
    0 ≤ (OpCount.run specDepthFinder specCountOps
      (OpCount.reset specDepthFinder (⟨⟨5, 4, 3, 2, 1, 7⟩, ⟨3, 1⟩⟩, fun _ => example_ct 3))
      example_circuit).1.counters.mod_down_multi_levels_ ∧
    (OpCount.run specDepthFinder specCountOps
      (OpCount.reset specDepthFinder (⟨⟨5, 4, 3, 2, 1, 7⟩, ⟨3, 1⟩⟩, fun _ => example_ct 3))
      example_circuit).1.counters.mod_downs_ ≤
    (OpCount.run specDepthFinder specCountOps
      (OpCount.reset specDepthFinder (⟨⟨5, 4, 3, 2, 1, 7⟩, ⟨3, 1⟩⟩, fun _ => example_ct 3))
      example_circuit).1.counters.mod_down_multi_levels_ :=
  (mod_down_counters_invariant specDepthFinder specCountOps specCountOps_keepsModDowns).1
    ⟨⟨5, 4, 3, 2, 1, 7⟩, ⟨3, 1⟩⟩ (fun _ => example_ct 3) example_circuit
    (by
      refine ⟨trivial, trivial, trivial, ?_, trivial⟩
      show (1 : Int) ≤ _
      decide)

/-! ## `decodePlaintext`, continued -/

theorem decodePlaintext_take {β : Type} (x : List β) (enc : CTEncoding)
    (height width encoded_height encoded_width : Int)
    (hc : ¬ (enc = CTEncoding.COL_VEC ∧ (width ≠ 1 ∨ height ≠ encoded_width)))
    (henc : enc ≠ CTEncoding.ROW_VEC)
    (h0 : 0 ≤ height * width) (h1 : height * width ≤ (x.length : Int)) :
    decodePlaintext x enc height width encoded_height encoded_width =
      Except.ok (x.take (height * width).toNat) := by
  unfold decodePlaintext
  rw [if_neg hc, if_neg (fun h => henc h.1)]
  have hm : enc = CTEncoding.MATRIX ∨ enc = CTEncoding.ROW_MAT ∨ enc = CTEncoding.COL_MAT ∨
      enc = CTEncoding.COL_VEC := by
    cases enc <;> simp at henc ⊢
  rw [if_pos hm]
  simp only [h0, h1, and_self, if_true]
  rfl

theorem decodePlaintext_row_vec {β : Type} (x : List β)
    (height width encoded_height encoded_width : Int)
    (hr : ¬ (height ≠ 1 ∨ width ≠ encoded_height))
    (hidx : ∀ i : Nat, (i : Int) < width →
      0 ≤ (i : Int) * encoded_width ∧ (i : Int) * encoded_width < (x.length : Int)) :
    decodePlaintext x CTEncoding.ROW_VEC height width encoded_height encoded_width =
      Except.ok ((List.range width.toNat).flatMap fun i =>
        (x[((i : Int) * encoded_width).toNat]?).toList) := by
  unfold decodePlaintext
  rw [if_neg (by simp), if_neg (fun h => hr h.2), if_neg (by simp)]
  rw [row_vec_loop_ok x encoded_width _ (fun i hi => hidx i (by
    have := List.mem_range.mp hi
    omega))]
  rfl

theorem row_vec_index_bound (width encoded_height encoded_width len : Int)
    (hw : width = encoded_height) (hlen : len = encoded_height * encoded_width)
    (hfit : width ≤ encoded_height * encoded_width) (i : Nat) (hi : (i : Int) < width) :
    0 ≤ (i : Int) * encoded_width ∧ (i : Int) * encoded_width < len := by
  subst hw
  have hi0 : (0 : Int) ≤ (i : Int) := Int.ofNat_nonneg i
  have hew : 1 ≤ encoded_width := by
    by_contra hlt
    have hle : encoded_width ≤ 0 := by omega
    have : width * encoded_width ≤ 0 :=
      Int.mul_nonpos_of_nonneg_of_nonpos (by omega) hle
    omega
  constructor
  · exact Int.mul_nonneg hi0 (by omega)
  · rw [hlen]
    have h1 : ((i : Int) + 1) * encoded_width ≤ width * encoded_width :=
      Int.mul_le_mul_of_nonneg_right (by omega) (by omega)
    rw [Int.add_mul] at h1
    omega

/-- C22: when `x` has exactly `encoded_height * encoded_width` entries, the requested
shape has a size `height * width` that is not negative and not above
`encoded_height * encoded_width`, and the encoding passes the validation of
`decodePlaintext`, every read of `x` is in bounds and the function returns: for
`MATRIX`, `ROW_MAT`, `COL_MAT` and `COL_VEC` it reads the first `height * width`
entries, which `x` has; for `ROW_VEC` it reads at `i * encoded_width` for
`0 ≤ i < width`, all of them indices of `x`. -/
theorem decodePlaintext_in_bounds {β : Type} (x : List β) (enc : CTEncoding)
    (height width encoded_height encoded_width : Int)
    (hlen : (x.length : Int) = encoded_height * encoded_width)
    (hfit : height * width ≤ encoded_height * encoded_width)
    (hsize : 0 ≤ height * width)
    (hcol : ¬ (enc = CTEncoding.COL_VEC ∧ (width ≠ 1 ∨ height ≠ encoded_width)))
    (hrow : ¬ (enc = CTEncoding.ROW_VEC ∧ (height ≠ 1 ∨ width ≠ encoded_height))) :
    (enc ≠ CTEncoding.ROW_VEC →
      0 ≤ height * width ∧ height * width ≤ (x.length : Int) ∧
      decodePlaintext x enc height width encoded_height encoded_width =
        Except.ok (x.take (height * width).toNat)) ∧
    (enc = CTEncoding.ROW_VEC →
      (∀ i : Nat, (i : Int) < width →
        0 ≤ (i : Int) * encoded_width ∧ (i : Int) * encoded_width < (x.length : Int)) ∧
      decodePlaintext x enc height width encoded_height encoded_width =
        Except.ok ((List.range width.toNat).flatMap fun i =>
          (x[((i : Int) * encoded_width).toNat]?).toList)) := by
  constructor
  · intro henc
    exact ⟨hsize, by omega, decodePlaintext_take x enc _ _ _ _ hcol henc hsize (by omega)⟩
  · intro henc
    subst henc
    have hr : ¬ (height ≠ 1 ∨ width ≠ encoded_height) := fun h => hrow ⟨rfl, h⟩
    have hh : height = 1 := by
      by_contra h
      exact hr (Or.inl h)
    have hw : width = encoded_height := by
      by_contra h
      exact hr (Or.inr h)
    have hfit2 : width ≤ encoded_height * encoded_width := by
      rw [hh, Int.one_mul] at hfit
      exact hfit
    have hidx : ∀ i : Nat, (i : Int) < width →
        0 ≤ (i : Int) * encoded_width ∧ (i : Int) * encoded_width < (x.length : Int) :=
      fun i hi => row_vec_index_bound width encoded_height encoded_width _ hw hlen hfit2 i hi
    exact ⟨hidx, decodePlaintext_row_vec x _ _ _ _ hr hidx⟩

/-- C22 at a 3 × 2 encoded matrix decoded as the row vector of its left column. -/
theorem decodePlaintext_in_bounds_witness :
    decodePlaintext [1, 2, 3, 4, 5, 6] CTEncoding.ROW_VEC 1 3 3 2 =
      Except.ok ((List.range 3).flatMap fun i =>
        (([1, 2, 3, 4, 5, 6] : List Int)[((i : Int) * 2).toNat]?).toList) :=
  ((decodePlaintext_in_bounds ([1, 2, 3, 4, 5, 6] : List Int) CTEncoding.ROW_VEC 1 3 3 2
    (by decide) (by decide) (by decide) (by decide) (by decide)).2 rfl).2

theorem index_int_ok_inv {β : Type} (x : List β) (i : Int) (v : β)
    (h : index_int x i = Except.ok v) :
    0 ≤ i ∧ i < (x.length : Int) ∧ x[i.toNat]? = some v := by
  unfold index_int at h
  by_cases hi : i < 0
  · rw [if_pos hi] at h
    cases h
  · rw [if_neg hi] at h
    unfold index at h
    cases hx : x[i.toNat]? with
    | none => rw [hx] at h; cases h
    | some a =>
      rw [hx] at h
      have hlt := (List.getElem?_eq_some_iff.mp hx).1
      refine ⟨by omega, by omega, ?_⟩
      rw [Except.ok.inj h]

theorem row_vec_loop_inv {β : Type} (x : List β) (encoded_width : Int) (l : List Nat)
    (acc dest : List β)
    (h : l.foldlM (fun (dest : List β) (i : Nat) => do
        let v ← index_int x ((i : Int) * encoded_width)
        pure (dest ++ [v])) acc = Except.ok dest) :
    ∀ i ∈ l, 0 ≤ (i : Int) * encoded_width ∧ (i : Int) * encoded_width < (x.length : Int) := by
  induction l generalizing acc with
  | nil => intro i hi; cases hi
  | cons a as ih =>
    rw [List.foldlM_cons] at h
    rcases index_int_cases x ((a : Int) * encoded_width) with he | ⟨v, hv⟩
    · rw [he] at h
      cases h
    · rw [hv] at h
      obtain ⟨h0, h1, _⟩ := index_int_ok_inv x _ v hv
      intro i hi
      rcases List.mem_cons.mp hi with rfl | hi2
      · exact ⟨h0, h1⟩
      · exact ih (acc ++ [v]) h i hi2

theorem flatMap_toList_length {β : Type} (x : List β) (l : List Nat) (f : Nat → Nat)
    (hl : ∀ i ∈ l, f i < x.length) :
    (l.flatMap fun i => (x[f i]?).toList).length = l.length ∧
    ∀ n, n < l.length → ∃ i v, l[n]? = some i ∧ x[f i]? = some v ∧
      (l.flatMap fun i => (x[f i]?).toList)[n]? = some v := by
  induction l with
  | nil => exact ⟨rfl, fun n hn => absurd hn (by simp)⟩
  | cons a as ih =>
    have ha : f a < x.length := hl a (List.mem_cons_self _ _)
    obtain ⟨ih1, ih2⟩ := ih (fun i hi => hl i (List.mem_cons_of_mem _ hi))
    have hhead : (x[f a]?).toList = [x[f a]] := by
      rw [List.getElem?_eq_getElem ha]
      rfl
    simp only [List.flatMap_cons, hhead, List.singleton_append, List.length_cons]
    refine ⟨by rw [ih1], ?_⟩
    intro n hn
    cases n with
    | zero => exact ⟨a, x[f a], by simp, List.getElem?_eq_getElem ha, by simp⟩
    | succ n =>
      obtain ⟨i, v, h1, h2, h3⟩ := ih2 n (by omega)
      exact ⟨i, v, by simpa using h1, h2, by simpa using h3⟩

theorem getElem?_flatMap_replicate {β : Type} (v : List β) (w : Nat) (hw : 0 < w) (i : Nat) :
    (v.flatMap fun a => List.replicate w a)[i * w]? = v[i]? := by
  induction v generalizing i with
  | nil => simp
  | cons a as ih =>
    rw [List.flatMap_cons]
    cases i with
    | zero =>
      rw [Nat.zero_mul, List.getElem?_append_left (by simpa using hw)]
      simp [List.getElem?_replicate, hw]
    | succ i =>
      rw [List.getElem?_append_right (by simp [Nat.succ_mul])]
      simp only [List.length_replicate, Nat.succ_mul, Nat.add_sub_cancel]
      rw [ih i]
      simp

theorem flatMap_range_getElem? {β : Type} (l : List β) :
    ((List.range l.length).flatMap fun i => (l[i]?).toList) = l := by
  induction l with
  | nil => rfl
  | cons a as ih =>
    rw [List.length_cons, List.range_succ_eq_map, List.flatMap_cons, List.flatMap_map]
    have hstep : ∀ i ∈ List.range as.length,
        (((a :: as)[Nat.succ i]?).toList) = ((as[i]?).toList) := by
      intro i _
      simp
    rw [List.flatMap_congr hstep, ih]
    simp

/-- C23: when `decodePlaintext` returns, for `MATRIX`, `ROW_MAT`, `COL_MAT` and
`COL_VEC` it returns the first `height * width` entries of `x`, in order; for
`ROW_VEC` it returns `width` entries, the one at `i` being `x[i * encoded_width]`. So
the row-major flattening of a matrix of `encoded_width ≥ 1` columns that all equal `v`
decodes as `ROW_VEC` to `v`, and the row-major flattening of a matrix of
`encoded_height ≥ 1` rows that all equal `v` decodes as `COL_VEC` to `v`. -/
theorem decodePlaintext_result {β : Type} :
    (∀ (x dest : List β) (enc : CTEncoding) (height width encoded_height encoded_width : Int),
      decodePlaintext x enc height width encoded_height encoded_width = Except.ok dest →
      (enc ≠ CTEncoding.ROW_VEC →
        0 ≤ height * width ∧ height * width ≤ (x.length : Int) ∧
        dest = x.take (height * width).toNat ∧ dest.length = (height * width).toNat) ∧
      (enc = CTEncoding.ROW_VEC →
        dest.length = width.toNat ∧
        ∀ i : Nat, i < width.toNat → 0 ≤ (i : Int) * encoded_width ∧
          ∃ v, x[((i : Int) * encoded_width).toNat]? = some v ∧ dest[i]? = some v)) ∧
    (∀ (v : List β) (encoded_width : Nat), 0 < encoded_width →
      decodePlaintext (v.flatMap fun a => List.replicate encoded_width a) CTEncoding.ROW_VEC
        1 v.length v.length encoded_width = Except.ok v) ∧
    (∀ (v : List β) (encoded_height : Nat), 0 < encoded_height →
      decodePlaintext (List.replicate encoded_height v).flatten CTEncoding.COL_VEC
        v.length 1 encoded_height v.length = Except.ok v) := by
  refine ⟨?_, ?_, ?_⟩
  · intro x dest enc height width encoded_height encoded_width h
    constructor
    · intro henc
      unfold decodePlaintext at h
      dsimp only at h
      split_ifs at h with h1 h2 h3 h4
      · have hd := (Except.ok.inj h).symm
        refine ⟨h4.1, h4.2, hd, ?_⟩
        rw [hd, List.length_take]
        omega
      · exfalso
        apply henc
        cases enc <;> simp at h3 ⊢
    · intro henc
      subst henc
      unfold decodePlaintext at h
      dsimp only at h
      rw [if_neg (by simp)] at h
      split_ifs at h with h2 h3
      · simp at h3
      · have hinv := row_vec_loop_inv x encoded_width _ [] dest h
        rw [row_vec_loop_ok x encoded_width _ hinv] at h
        have hd := (Except.ok.inj h).symm
        rw [List.nil_append] at hd
        have hl : ∀ i ∈ List.range width.toNat,
            ((i : Int) * encoded_width).toNat < x.length := by
          intro i hi
          have := hinv i hi
          omega
        obtain ⟨hlen, hget⟩ := flatMap_toList_length x (List.range width.toNat)
          (fun i => ((i : Int) * encoded_width).toNat) hl
        rw [hd]
        refine ⟨by rw [hlen, List.length_range], ?_⟩
        intro i hi
        obtain ⟨i2, v, hi2, hv, hd2⟩ := hget i (by rw [List.length_range]; exact hi)
        rw [List.getElem?_range hi] at hi2
        cases hi2
        exact ⟨(hinv i (List.mem_range.mpr hi)).1, v, hv, hd2⟩
  · intro v encoded_width hw
    have hxlen : (v.flatMap fun a => List.replicate encoded_width a).length =
        v.length * encoded_width := by
      induction v with
      | nil => simp
      | cons a as ih => simp [List.flatMap_cons, ih, Nat.succ_mul, Nat.add_comm]
    rw [decodePlaintext_row_vec _ _ _ _ _ (by simp)]
    · have hcell : ∀ i ∈ List.range ((v.length : Int)).toNat,
          ((v.flatMap fun a => List.replicate encoded_width a)[
            ((i : Int) * (encoded_width : Int)).toNat]?).toList = (v[i]?).toList := by
        intro i _
        have : ((i : Int) * (encoded_width : Int)).toNat = i * encoded_width := by
          rw [← Int.natCast_mul, Int.toNat_ofNat]
        rw [this, getElem?_flatMap_replicate v encoded_width hw i]
      rw [List.flatMap_congr hcell, Int.toNat_ofNat, flatMap_range_getElem?]
    · intro i hi
      have hi2 : i < v.length := by omega
      have h1 : (i + 1) * encoded_width ≤ v.length * encoded_width :=
        Nat.mul_le_mul_right _ hi2
      rw [Nat.add_mul] at h1
      rw [hxlen]
      constructor
      · positivity
      · have : ((i * encoded_width : Nat) : Int) < ((v.length * encoded_width : Nat) : Int) := by
          omega
        simpa using this
  · intro v encoded_height hh
    obtain ⟨n, rfl⟩ : ∃ n, encoded_height = n + 1 := ⟨encoded_height - 1, by omega⟩
    rw [decodePlaintext_take _ _ _ _ _ _ (by simp) (by simp) (by positivity)]
    · simp [List.replicate_succ]
    · simp only [List.replicate_succ, List.flatten_cons, List.length_append, Int.mul_one]
      omega

/-! ## `decode_matrix`: what it rejects and what it collects -/

theorem foldlM_ok_or_error {ε β γ : Type} (e : ε) (l : List β) (f : γ → β → Except ε γ)
    (h : ∀ x ∈ l, ∀ acc, (∃ r, f acc x = Except.ok r) ∨ f acc x = Except.error e) (acc : γ) :
    (∃ r, l.foldlM f acc = Except.ok r) ∨ l.foldlM f acc = Except.error e := by
  induction l generalizing acc with
  | nil => exact Or.inl ⟨acc, rfl⟩
  | cons a as ih =>
    rw [List.foldlM_cons]
    rcases h a (List.mem_cons_self _ _) acc with ⟨r, hr⟩ | he
    · rw [hr]
      exact ih (fun x hx => h x (List.mem_cons_of_mem _ hx)) r
    · rw [he]
      exact Or.inr rfl

theorem foldlM_error_of_mem {ε β γ : Type} (e : ε) (l : List β) (f : γ → β → Except ε γ)
    (h : ∀ x ∈ l, ∀ acc, (∃ r, f acc x = Except.ok r) ∨ f acc x = Except.error e)
    (x : β) (hx : x ∈ l) (hbad : ∀ acc, f acc x = Except.error e) (acc : γ) :
    l.foldlM f acc = Except.error e := by
  induction l generalizing acc with
  | nil => cases hx
  | cons a as ih =>
    rw [List.foldlM_cons]
    rcases h a (List.mem_cons_self _ _) acc with ⟨r, hr⟩ | he
    · rcases List.mem_cons.mp hx with rfl | hx2
      · rw [hbad acc] at hr
        cases hr
      · rw [hr]
        exact ih (fun y hy => h y (List.mem_cons_of_mem _ hy)) hx2 r
    · rw [he]
      rfl

theorem decode_tile_row_bad {α : Type} (mats_i : List (Matrix α)) (h w tw j : Nat)
    (acc : List α) (k : Nat) (t : Matrix α) (ht : mats_i[k]? = some t)
    (hbad : t.size1 ≠ h ∨ t.size2 ≠ w) :
    decode_tile_row mats_i h w tw j acc k = Except.error Error.invalid_argument := by
  unfold decode_tile_row index
  rw [ht]
  show (if t.size1 ≠ h ∨ t.size2 ≠ w then _ else _) = _
  rw [if_pos hbad]
  rfl

theorem decode_tile_row_cases {α : Type} (mats_i : List (Matrix α)) (h w tw j : Nat)
    (hj : j < h) (hwf : ∀ t ∈ mats_i, t.WellFormed) (acc : List α) (k : Nat)
    (hk : k < mats_i.length) :
    (∃ r, decode_tile_row mats_i h w tw j acc k = Except.ok r) ∨
      decode_tile_row mats_i h w tw j acc k = Except.error Error.invalid_argument := by
  have ht : mats_i[k]? = some mats_i[k] := List.getElem?_eq_getElem hk
  by_cases hbad : mats_i[k].size1 ≠ h ∨ mats_i[k].size2 ≠ w
  · exact Or.inr (decode_tile_row_bad mats_i h w tw j acc k _ ht hbad)
  · left
    have h1 : mats_i[k].size1 = h := by
      by_contra hne
      exact hbad (Or.inl hne)
    have h2 : mats_i[k].size2 = w := by
      by_contra hne
      exact hbad (Or.inr hne)
    have hlen : mats_i[k].data.length = h * w := by
      have := hwf _ (List.getElem_mem hk)
      unfold Matrix.WellFormed at this
      rw [this, h1, h2]
    exact ⟨_, decode_tile_row_eq mats_i h w tw j acc k _ ht h1 h2 hlen hj⟩

theorem decode_grid_row_bad_len {α : Type} (mats : List (List (Matrix α)))
    (C h w th tw : Nat) (acc : List α) (i : Nat) (row : List (Matrix α))
    (hrow : mats[i]? = some row) (hlen : row.length ≠ C) :
    decode_grid_row mats C h w th tw acc i = Except.error Error.invalid_argument := by
  unfold decode_grid_row index
  rw [hrow]
  show (if row.length ≠ C then _ else _) = _
  rw [if_pos hlen]
  rfl

theorem decode_grid_row_good_len {α : Type} (mats : List (List (Matrix α)))
    (C h w th tw : Nat) (acc : List α) (i : Nat) (row : List (Matrix α))
    (hrow : mats[i]? = some row) (hlen : row.length = C) :
    decode_grid_row mats C h w th tw acc i =
      ((List.range h).takeWhile fun j => decide (i * h + j < th)).foldlM
        (fun acc j => (List.range C).foldlM (decode_tile_row row h w tw j) acc) acc := by
  unfold decode_grid_row index
  rw [hrow]
  show (if row.length ≠ C then _ else _) = _
  rw [if_neg (by simpa using hlen)]

theorem decode_grid_row_cases {α : Type} (mats : List (List (Matrix α)))
    (C h w th tw : Nat) (hwf : ∀ row ∈ mats, ∀ t ∈ row, t.WellFormed) (acc : List α) (i : Nat)
    (hi : i < mats.length) :
    (∃ r, decode_grid_row mats C h w th tw acc i = Except.ok r) ∨
      decode_grid_row mats C h w th tw acc i = Except.error Error.invalid_argument := by
  have hrow : mats[i]? = some mats[i] := List.getElem?_eq_getElem hi
  by_cases hlen : mats[i].length = C
  · rw [decode_grid_row_good_len mats C h w th tw acc i _ hrow hlen]
    apply foldlM_ok_or_error
    intro j hj acc2
    have hjh : j < h := List.mem_range.mp ((List.takeWhile_sublist _).subset hj)
    apply foldlM_ok_or_error
    intro k hk acc3
    exact decode_tile_row_cases _ h w tw j hjh (hwf _ (List.getElem_mem hi)) acc3 k
      (by rw [hlen]; exact List.mem_range.mp hk)
  · exact Or.inr (decode_grid_row_bad_len mats C h w th tw acc i _ hrow hlen)

theorem decode_grid_row_bad_tile {α : Type} (mats : List (List (Matrix α)))
    (C h w th tw : Nat) (hwf : ∀ row ∈ mats, ∀ t ∈ row, t.WellFormed) (acc : List α) (i k : Nat)
    (row : List (Matrix α)) (t : Matrix α)
    (hrow : mats[i]? = some row) (ht : row[k]? = some t)
    (hbad : t.size1 ≠ h ∨ t.size2 ≠ w) (hh : 0 < h) (hvisit : i * h < th) :
    decode_grid_row mats C h w th tw acc i = Except.error Error.invalid_argument := by
  by_cases hlen : row.length = C
  · rw [decode_grid_row_good_len mats C h w th tw acc i _ hrow hlen]
    have hrowmem : row ∈ mats := List.getElem?_mem hrow
    have hk : k < C := by
      rw [← hlen]
      exact (List.getElem?_eq_some_iff.mp ht).1
    have h0 : 0 ∈ (List.range h).takeWhile fun j => decide (i * h + j < th) := by
      obtain ⟨n, rfl⟩ : ∃ n, h = n + 1 := ⟨h - 1, by omega⟩
      rw [List.range_succ_eq_map, List.takeWhile_cons_of_pos (by simpa using hvisit)]
      exact List.mem_cons_self _ _
    apply foldlM_error_of_mem Error.invalid_argument _ _ _ 0 h0
    · intro acc2
      apply foldlM_error_of_mem Error.invalid_argument _ _ _ k (List.mem_range.mpr hk)
      · intro acc3
        exact decode_tile_row_bad row h w tw 0 acc3 k t ht hbad
      · intro k2 hk2 acc3
        exact decode_tile_row_cases row h w tw 0 hh (hwf row hrowmem) acc3 k2
          (by rw [hlen]; exact List.mem_range.mp hk2)
    · intro j hj acc2
      have hjh : j < h := List.mem_range.mp ((List.takeWhile_sublist _).subset hj)
      apply foldlM_ok_or_error
      intro k2 hk2 acc3
      exact decode_tile_row_cases row h w tw j hjh (hwf row hrowmem) acc3 k2
        (by rw [hlen]; exact List.mem_range.mp hk2)
  · exact decode_grid_row_bad_len mats C h w th tw acc i _ hrow hlen

theorem decode_matrix_cons {α : Type} (mats_0_0 : Matrix α) (row_0 : List (Matrix α))
    (rest : List (List (Matrix α))) (trim_height trim_width : Int) :
    decode_matrix ((mats_0_0 :: row_0) :: rest) trim_height trim_width =
      (do
        let linear_matrix ← (List.range ((mats_0_0 :: row_0) :: rest).length).foldlM
          (decode_grid_row ((mats_0_0 :: row_0) :: rest) (mats_0_0 :: row_0).length
            mats_0_0.size1 mats_0_0.size2
            (if trim_height < 0 then ((mats_0_0 :: row_0) :: rest).length * mats_0_0.size1
              else trim_height.toNat)
            (if trim_width < 0 then (mats_0_0 :: row_0).length * mats_0_0.size2
              else trim_width.toNat)) []
        pure ⟨if trim_height < 0 then ((mats_0_0 :: row_0) :: rest).length * mats_0_0.size1
              else trim_height.toNat,
          if trim_width < 0 then (mats_0_0 :: row_0).length * mats_0_0.size2
              else trim_width.toNat, linear_matrix⟩) :=
  rfl

theorem decode_matrix_error_of_row {α : Type} (mats_0_0 : Matrix α) (row_0 : List (Matrix α))
    (rest : List (List (Matrix α))) (trim_height trim_width : Int)
    (hwf : ∀ row ∈ (mats_0_0 :: row_0) :: rest, ∀ t ∈ row, t.WellFormed)
    (i : Nat) (hi : i < ((mats_0_0 :: row_0) :: rest).length)
    (hbad : ∀ acc, decode_grid_row ((mats_0_0 :: row_0) :: rest) (mats_0_0 :: row_0).length
      mats_0_0.size1 mats_0_0.size2
      (if trim_height < 0 then ((mats_0_0 :: row_0) :: rest).length * mats_0_0.size1
        else trim_height.toNat)
      (if trim_width < 0 then (mats_0_0 :: row_0).length * mats_0_0.size2
        else trim_width.toNat) acc i = Except.error Error.invalid_argument) :
    decode_matrix ((mats_0_0 :: row_0) :: rest) trim_height trim_width =
      Except.error Error.invalid_argument := by
  rw [decode_matrix_cons]
  rw [foldlM_error_of_mem Error.invalid_argument _ _ _ i (List.mem_range.mpr hi) hbad]
  · rfl
  · intro i2 hi2 acc
    exact decode_grid_row_cases _ _ _ _ _ _ hwf acc i2 (List.mem_range.mp hi2)

/-- C24: for a matrix with zero rows or zero columns and a unit with positive
dimensions, `encode_matrix` returns a grid that is empty or whose first row is empty,
and `decode_matrix` raises `invalid_argument` on that grid, whatever the trims: the
round trip does not return the empty matrix. -/
theorem encode_decode_empty {α : Type} [Zero α] (mat : Matrix α) (unit : EncodingUnit)
    (hh : 1 ≤ unit.encoding_height) (hw : 1 ≤ unit.encoding_width)
    (hz : mat.size1 = 0 ∨ mat.size2 = 0) :
    ∃ grid, encode_matrix mat unit = Except.ok grid ∧
      (grid = [] ∨ grid.head? = some []) ∧
      ∀ trim_height trim_width : Int,
        decode_matrix grid trim_height trim_width = Except.error Error.invalid_argument := by
  by_cases h1 : mat.size1 = 0
  · refine ⟨[], ?_, Or.inl rfl, fun _ _ => rfl⟩
    unfold encode_matrix
    simp only [ceil_div_toNat _ _ hh, ceil_div_toNat _ _ hw, Int.toNat_ofNat]
    simp only [h1, Nat.cast_zero, zero_div, Nat.ceil_zero, List.range_zero]
    rfl
  · have h2 : mat.size2 = 0 := by
      rcases hz with h | h
      · exact absurd h h1
      · exact h
    refine ⟨(List.range ⌈(mat.size1 : ℚ) / (unit.encoding_height : ℚ)⌉₊).map fun _ => [],
      ?_, ?_, ?_⟩
    · unfold encode_matrix
      simp only [ceil_div_toNat _ _ hh, ceil_div_toNat _ _ hw, Int.toNat_ofNat]
      simp only [h2, Nat.cast_zero, zero_div, Nat.ceil_zero, List.range_zero]
      apply mapM_ok
      intro i _
      rfl
    · cases ⌈(mat.size1 : ℚ) / (unit.encoding_height : ℚ)⌉₊ with
      | zero => exact Or.inl rfl
      | succ n =>
        right
        rw [List.range_succ_eq_map]
        rfl
    · intro th tw
      cases ⌈(mat.size1 : ℚ) / (unit.encoding_height : ℚ)⌉₊ with
      | zero => rfl
      | succ n =>
        rw [List.range_succ_eq_map]
        rfl

/-- C24 at the empty 0 × 3 matrix and the 2 × 2 unit. -/
theorem encode_decode_empty_witness :
    ∃ grid, encode_matrix (⟨0, 3, []⟩ : Matrix Int) ⟨2, 2⟩ = Except.ok grid ∧
      decode_matrix grid 0 3 = Except.error Error.invalid_argument := by
  obtain ⟨grid, h1, _, h3⟩ :=
    encode_decode_empty (⟨0, 3, []⟩ : Matrix Int) ⟨2, 2⟩ (by decide) (by decide) (Or.inl rfl)
  exact ⟨grid, h1, h3 0 3⟩

theorem foldlM_congr_mem {ε β γ : Type} (l : List β) (f g : γ → β → Except ε γ)
    (h : ∀ x ∈ l, ∀ acc, f acc x = g acc x) (acc : γ) :
    l.foldlM f acc = l.foldlM g acc := by
  induction l generalizing acc with
  | nil => rfl
  | cons a as ih =>
    rw [List.foldlM_cons, List.foldlM_cons, h a (List.mem_cons_self _ _) acc]
    cases g acc a with
    | error e => rfl
    | ok r => exact ih (fun x hx => h x (List.mem_cons_of_mem _ hx)) r

theorem foldlM_skip {ε β γ : Type} (l : List β) (f : γ → β → Except ε γ)
    (h : ∀ x ∈ l, ∀ acc, f acc x = Except.ok acc) (acc : γ) :
    l.foldlM f acc = Except.ok acc := by
  induction l generalizing acc with
  | nil => rfl
  | cons a as ih =>
    rw [List.foldlM_cons, h a (List.mem_cons_self _ _) acc]
    exact ih (fun x hx => h x (List.mem_cons_of_mem _ hx)) acc

theorem decode_grid_row_beyond_trim {α : Type} (mats : List (List (Matrix α)))
    (C h w th tw : Nat) (acc : List α) (i : Nat) (row : List (Matrix α))
    (hrow : mats[i]? = some row) (hlen : row.length = C) (hbeyond : th ≤ i * h) :
    decode_grid_row mats C h w th tw acc i = Except.ok acc := by
  rw [decode_grid_row_good_len mats C h w th tw acc i row hrow hlen]
  have hnil : ((List.range h).takeWhile fun j => decide (i * h + j < th)) = [] := by
    cases h with
    | zero => rfl
    | succ n =>
      rw [List.range_succ_eq_map, List.takeWhile_cons_of_neg (by simpa using hbeyond)]
  rw [hnil]
  rfl

theorem decode_grid_row_append {α : Type} (mats extra : List (List (Matrix α)))
    (C h w th tw : Nat) (acc : List α) (i : Nat) (hi : i < mats.length) :
    decode_grid_row (mats ++ extra) C h w th tw acc i =
      decode_grid_row mats C h w th tw acc i := by
  unfold decode_grid_row index
  rw [List.getElem?_append_left hi]

theorem decode_matrix_append_beyond_trim {α : Type} (mats_0_0 : Matrix α)
    (row_0 : List (Matrix α)) (rest extra : List (List (Matrix α)))
    (trim_height trim_width : Int) (hth : 0 ≤ trim_height)
    (hbeyond : trim_height.toNat ≤ ((mats_0_0 :: row_0) :: rest).length * mats_0_0.size1)
    (hlen : ∀ row ∈ extra, row.length = (mats_0_0 :: row_0).length) :
    decode_matrix (((mats_0_0 :: row_0) :: rest) ++ extra) trim_height trim_width =
      decode_matrix ((mats_0_0 :: row_0) :: rest) trim_height trim_width := by
  have hnot : ¬ trim_height < 0 := not_lt.mpr hth
  rw [List.cons_append, decode_matrix_cons, decode_matrix_cons]
  simp only [if_neg hnot]
  rw [← List.cons_append]
  have hfold : ∀ acc : List α,
      (List.range (((mats_0_0 :: row_0) :: rest) ++ extra).length).foldlM
        (decode_grid_row (((mats_0_0 :: row_0) :: rest) ++ extra) (mats_0_0 :: row_0).length
          mats_0_0.size1 mats_0_0.size2 trim_height.toNat
          (if trim_width < 0 then (mats_0_0 :: row_0).length * mats_0_0.size2
            else trim_width.toNat)) acc =
      (List.range ((mats_0_0 :: row_0) :: rest).length).foldlM
        (decode_grid_row ((mats_0_0 :: row_0) :: rest) (mats_0_0 :: row_0).length
          mats_0_0.size1 mats_0_0.size2 trim_height.toNat
          (if trim_width < 0 then (mats_0_0 :: row_0).length * mats_0_0.size2
            else trim_width.toNat)) acc := by
    intro acc
    rw [List.length_append, List.range_add, List.foldlM_append]
    rw [foldlM_congr_mem (List.range ((mats_0_0 :: row_0) :: rest).length) _
      (decode_grid_row ((mats_0_0 :: row_0) :: rest) (mats_0_0 :: row_0).length
          mats_0_0.size1 mats_0_0.size2 trim_height.toNat
          (if trim_width < 0 then (mats_0_0 :: row_0).length * mats_0_0.size2
            else trim_width.toNat))
      (fun i hi acc2 => decode_grid_row_append _ extra _ _ _ _ _ acc2 i (List.mem_range.mp hi))]
    cases hfirst : (List.range ((mats_0_0 :: row_0) :: rest).length).foldlM
        (decode_grid_row ((mats_0_0 :: row_0) :: rest) (mats_0_0 :: row_0).length
          mats_0_0.size1 mats_0_0.size2 trim_height.toNat
          (if trim_width < 0 then (mats_0_0 :: row_0).length * mats_0_0.size2
            else trim_width.toNat)) acc with
    | error e => rfl
    | ok r =>
      show List.foldlM _ r _ = Except.ok r
      apply foldlM_skip
      intro i hi acc2
      obtain ⟨k, hk, rfl⟩ := List.mem_map.mp hi
      have hk2 : k < extra.length := List.mem_range.mp hk
      have hrow : (((mats_0_0 :: row_0) :: rest) ++ extra)[
          ((mats_0_0 :: row_0) :: rest).length + k]? = some extra[k] := by
        rw [List.getElem?_append_right (Nat.le_add_right _ _), Nat.add_sub_cancel_left]
        exact List.getElem?_eq_getElem hk2
      apply decode_grid_row_beyond_trim _ _ _ _ _ _ acc2 _ _ hrow
        (hlen _ (List.getElem_mem hk2))
      calc trim_height.toNat ≤ ((mats_0_0 :: row_0) :: rest).length * mats_0_0.size1 := hbeyond
        _ ≤ (((mats_0_0 :: row_0) :: rest).length + k) * mats_0_0.size1 :=
          Nat.mul_le_mul_right _ (Nat.le_add_right _ _)
  rw [hfold]

/-- Where `decode_matrix` does reject: for a non-empty grid of tiles whose storage has
`size1 * size2` entries, it raises `invalid_argument`, whatever the trims, when some row
holds another number of tiles than the first row; and it raises `invalid_argument` when
some tile of a grid row `i` that the loop over the rows of the result visits (tile
`(0, 0)` has a height `h > 0` and `i * h` is below `trim_height`, or below `R * h` when
`trim_height` is negative) has another height or width than tile `(0, 0)`. -/
theorem decode_matrix_rejects {α : Type} (mats_0 : List (Matrix α))
    (rest : List (List (Matrix α)))
    (hwf : ∀ row ∈ mats_0 :: rest, ∀ t ∈ row, t.WellFormed)
    (trim_height trim_width : Int) :
    ((∃ row ∈ mats_0 :: rest, row.length ≠ mats_0.length) →
      decode_matrix (mats_0 :: rest) trim_height trim_width =
        Except.error Error.invalid_argument) ∧
    (∀ (mats_0_0 : Matrix α) (i k : Nat) (row : List (Matrix α)) (t : Matrix α),
      mats_0.head? = some mats_0_0 →
      (mats_0 :: rest)[i]? = some row → row[k]? = some t →
      (t.size1 ≠ mats_0_0.size1 ∨ t.size2 ≠ mats_0_0.size2) →
      0 < mats_0_0.size1 →
      i * mats_0_0.size1 < (if trim_height < 0 then (mats_0 :: rest).length * mats_0_0.size1
        else trim_height.toNat) →
      decode_matrix (mats_0 :: rest) trim_height trim_width =
        Except.error Error.invalid_argument) := by
  constructor
  · rintro ⟨row, hrow, hlen⟩
    cases mats_0 with
    | nil => rfl
    | cons mats_0_0 row_0 =>
      obtain ⟨i, hi⟩ := List.mem_iff_getElem?.mp hrow
      have hilt := (List.getElem?_eq_some_iff.mp hi).1
      apply decode_matrix_error_of_row mats_0_0 row_0 rest trim_height trim_width hwf i hilt
      intro acc
      exact decode_grid_row_bad_len _ _ _ _ _ _ acc i row hi hlen
  · intro mats_0_0 i k row t h00 hrow ht hbad hh hvisit
    cases mats_0 with
    | nil => cases h00
    | cons m00 row_0 =>
      simp only [List.head?_cons, Option.some.injEq] at h00
      subst h00
      have hilt := (List.getElem?_eq_some_iff.mp hrow).1
      apply decode_matrix_error_of_row m00 row_0 rest trim_height trim_width hwf i hilt
      intro acc
      exact decode_grid_row_bad_tile _ _ _ _ _ _ hwf acc i k row t hrow ht hbad hh hvisit

/-- The grid of a 1 × 1 tile above a 2 × 2 tile, with the default (negative) trims:
both grid rows are visited and the second tile is rejected. -/
theorem decode_matrix_rejects_example :
    decode_matrix ([[⟨1, 1, [5]⟩], [⟨2, 2, [1, 2, 3, 4]⟩]] : List (List (Matrix Int)))
      (-1) (-1) = Except.error Error.invalid_argument :=
  (decode_matrix_rejects ([⟨1, 1, [5]⟩] : List (Matrix Int)) [[⟨2, 2, [1, 2, 3, 4]⟩]]
    (by
      intro row hrow t ht
      simp only [List.mem_cons, List.mem_singleton, List.not_mem_nil, or_false] at hrow
      rcases hrow with rfl | rfl <;>
        (simp only [List.mem_singleton] at ht; subst ht; rfl))
    (-1) (-1)).2 ⟨1, 1, [5]⟩ 1 0 [⟨2, 2, [1, 2, 3, 4]⟩] ⟨2, 2, [1, 2, 3, 4]⟩
      rfl rfl rfl (Or.inl (by decide)) (by decide) (by decide)

/-- C25, a defect of the code. The function states its requirement itself ("all
matrices must have the same dimension"), and it enforces its two other conditions
whatever the trims, but the check of a tile sits inside the loop over the matrix rows
below `trim_height`, so a tile of a grid row at or beyond `trim_height` is never
examined. At the grid of a 1 × 1 tile above a 2 × 2 tile with the trims 1 and 1,
`decode_matrix` returns the 1 × 1 matrix of the first tile and does not raise
`invalid_argument`; with the default trims it rejects the same grid; it rejects a row
of another length that lies beyond `trim_height` and a tile of another size that lies
wholly right of `trim_width`. In general, grid rows of the right length appended at
or beyond a non-negative `trim_height` do not change the outcome, whatever the
dimensions of their tiles are. -/
theorem decode_matrix_skips_trimmed_tile :
    (decode_matrix ([[⟨1, 1, [5]⟩], [⟨2, 2, [1, 2, 3, 4]⟩]] : List (List (Matrix Int))) 1 1 =
        Except.ok ⟨1, 1, [5]⟩ ∧
      decode_matrix ([[⟨1, 1, [5]⟩], [⟨2, 2, [1, 2, 3, 4]⟩]] : List (List (Matrix Int))) 1 1 ≠
        Except.error Error.invalid_argument) ∧
    decode_matrix ([[⟨1, 1, [5]⟩], [⟨2, 2, [1, 2, 3, 4]⟩]] : List (List (Matrix Int)))
      (-1) (-1) = Except.error Error.invalid_argument ∧
    decode_matrix ([[⟨1, 1, [5]⟩], [⟨1, 1, [6]⟩, ⟨1, 1, [7]⟩]] : List (List (Matrix Int)))
      1 1 = Except.error Error.invalid_argument ∧
    decode_matrix ([[⟨1, 1, [5]⟩, ⟨2, 2, [1, 2, 3, 4]⟩]] : List (List (Matrix Int)))
      1 1 = Except.error Error.invalid_argument ∧
    (∀ (mats_0_0 : Matrix Int) (row_0 : List (Matrix Int))
      (rest extra : List (List (Matrix Int))) (trim_height trim_width : Int),
      0 ≤ trim_height →
      trim_height.toNat ≤ ((mats_0_0 :: row_0) :: rest).length * mats_0_0.size1 →
      (∀ row ∈ extra, row.length = (mats_0_0 :: row_0).length) →
      decode_matrix (((mats_0_0 :: row_0) :: rest) ++ extra) trim_height trim_width =
        decode_matrix ((mats_0_0 :: row_0) :: rest) trim_height trim_width) := by
  have h : decode_matrix ([[⟨1, 1, [5]⟩], [⟨2, 2, [1, 2, 3, 4]⟩]] : List (List (Matrix Int)))
      1 1 = Except.ok ⟨1, 1, [5]⟩ := rfl
  refine ⟨⟨h, ?_⟩, rfl, rfl, rfl, ?_⟩
  · rw [h]
    intro h2
    cases h2
  · intro mats_0_0 row_0 rest extra trim_height trim_width hth hbeyond hlen
    exact decode_matrix_append_beyond_trim mats_0_0 row_0 rest extra trim_height trim_width
      hth hbeyond hlen

theorem grid_eq_map_range {β : Type} (d : β) (mats : List (List β)) (C : Nat)
    (hrows : ∀ row ∈ mats, row.length = C) :
    mats = (List.range mats.length).map fun i =>
      (List.range C).map fun k => (mats.getD i []).getD k d := by
  conv_lhs => rw [← map_range_getD mats []]
  apply List.map_congr_left
  intro i hi
  have hi2 : i < mats.length := List.mem_range.mp hi
  have hlen : (mats.getD i []).length = C := by
    apply hrows
    rw [List.getD_eq_getElem _ _ hi2]
    exact List.getElem_mem hi2
  conv_lhs => rw [← map_range_getD (mats.getD i []) d, hlen]

theorem decode_entries_eq {α : Type} [Zero α] (T : Nat → Nat → Matrix α) (R C h w th tw : Nat)
    (hT : ∀ i < R, ∀ k < C, (T i k).size1 = h ∧ (T i k).size2 = w ∧
      (T i k).data.length = h * w)
    (hth : th ≤ R * h) (htw : tw ≤ C * w) :
    decode_entries T R C h w th tw =
      (List.range th).flatMap fun r => (List.range tw).map fun c =>
        (T (r / h) (c / w)).data.getD ((r % h) * w + c % w) 0 := by
  unfold decode_entries
  have hinner : ∀ i ∈ List.range R,
      (((List.range h).takeWhile fun j => decide (i * h + j < th)).flatMap fun j =>
        (List.range C).flatMap fun k =>
          ((List.range w).takeWhile fun l => decide (k * w + l < tw)).flatMap fun l =>
            ((T i k).data[j * w + l]?).toList) =
      (((List.range h).takeWhile fun j => decide (i * h + j < th)).flatMap fun j =>
        (fun r => (List.range tw).flatMap fun c =>
          [(T (r / h) (c / w)).data.getD ((r % h) * w + c % w) 0]) (i * h + j)) := by
    intro i hi
    have hiR : i < R := List.mem_range.mp hi
    apply List.flatMap_congr
    intro j hj
    have hjh : j < h := List.mem_range.mp ((List.takeWhile_sublist _).subset hj)
    obtain ⟨hd1, hm1⟩ := mul_add_div_mod h i j hjh
    have hcell : ∀ k ∈ List.range C,
        (((List.range w).takeWhile fun l => decide (k * w + l < tw)).flatMap fun l =>
          ((T i k).data[j * w + l]?).toList) =
        (((List.range w).takeWhile fun l => decide (k * w + l < tw)).flatMap fun l =>
          (fun c => [(T ((i * h + j) / h) (c / w)).data.getD
            (((i * h + j) % h) * w + c % w) 0]) (k * w + l)) := by
      intro k hk
      have hkC : k < C := List.mem_range.mp hk
      apply List.flatMap_congr
      intro l hl
      have hlw : l < w := List.mem_range.mp ((List.takeWhile_sublist _).subset hl)
      obtain ⟨hd2, hm2⟩ := mul_add_div_mod w k l hlw
      have hlt : j * w + l < (T i k).data.length := by
        rw [(hT i hiR k hkC).2.2]
        exact flat_index_lt hjh hlw
      simp only [hd1, hm1, hd2, hm2, List.getElem?_eq_getElem hlt,
        List.getD_eq_getElem _ _ hlt, Option.toList]
    rw [List.flatMap_congr hcell]
    exact flatMap_units_trim C w tw htw
      (fun c => [(T ((i * h + j) / h) (c / w)).data.getD (((i * h + j) % h) * w + c % w) 0])
  refine (List.flatMap_congr hinner).trans ?_
  refine (flatMap_units_trim R h th hth
    (fun r => (List.range tw).flatMap fun c =>
      [(T (r / h) (c / w)).data.getD ((r % h) * w + c % w) 0])).trans ?_
  apply List.flatMap_congr
  intro r _
  exact flatMap_singleton_eq_map _ _

/-- C26: for a grid of `R ≥ 1` rows of `C ≥ 1` tiles, every tile of size `h × w` with
`h * w` stored entries, and trims with `0 ≤ trim_height ≤ R * h` and
`0 ≤ trim_width ≤ C * w`, `decode_matrix` returns a `trim_height × trim_width` matrix
of exactly `trim_height * trim_width` entries whose entry `(r, c)` is entry
`(r mod h, c mod w)` of tile `(r div h, c div w)`; a negative `trim_height` gives what
`trim_height = R * h` gives, and a negative `trim_width` what `trim_width = C * w`
gives. -/
theorem decode_matrix_collects {α : Type} [Zero α] (mats : List (List (Matrix α)))
    (R C h w : Nat) (hR : mats.length = R) (hRpos : 0 < R) (hCpos : 0 < C)
    (hrows : ∀ row ∈ mats, row.length = C)
    (htiles : ∀ row ∈ mats, ∀ t ∈ row, t.size1 = h ∧ t.size2 = w ∧ t.data.length = h * w)
    (trim_height trim_width : Int) :
    (0 ≤ trim_height → trim_height ≤ ((R * h : Nat) : Int) →
      0 ≤ trim_width → trim_width ≤ ((C * w : Nat) : Int) →
      ∃ m, decode_matrix mats trim_height trim_width = Except.ok m ∧
        m.size1 = trim_height.toNat ∧ m.size2 = trim_width.toNat ∧
        m.data.length = trim_height.toNat * trim_width.toNat ∧
        ∀ r c, r < trim_height.toNat → c < trim_width.toNat →
          ∃ row t, mats[r / h]? = some row ∧ row[c / w]? = some t ∧
            m.data[r * trim_width.toNat + c]? = some (t.entry (r % h) (c % w))) ∧
    (trim_height < 0 →
      decode_matrix mats trim_height trim_width =
        decode_matrix mats ((R * h : Nat) : Int) trim_width) ∧
    (trim_width < 0 →
      decode_matrix mats trim_height trim_width =
        decode_matrix mats trim_height ((C * w : Nat) : Int)) := by
  have hgrid := grid_eq_map_range (⟨0, 0, []⟩ : Matrix α) mats C hrows
  rw [hR] at hgrid
  have hT : ∀ i < R, ∀ k < C,
      ((mats.getD i []).getD k ⟨0, 0, []⟩).size1 = h ∧
      ((mats.getD i []).getD k ⟨0, 0, []⟩).size2 = w ∧
      ((mats.getD i []).getD k ⟨0, 0, []⟩).data.length = h * w := by
    intro i hi k hk
    have hi2 : i < mats.length := by omega
    have hrow : mats[i] ∈ mats := List.getElem_mem hi2
    have hk2 : k < (mats[i]).length := by rw [hrows _ hrow]; exact hk
    rw [List.getD_eq_getElem _ _ hi2, List.getD_eq_getElem _ _ hk2]
    exact htiles _ hrow _ (List.getElem_mem hk2)
  have hdec := fun a b => decode_matrix_grid
    (fun i k => (mats.getD i []).getD k (⟨0, 0, []⟩ : Matrix α)) R C h w hRpos hCpos hT a b
  rw [← hgrid] at hdec
  refine ⟨?_, ?_, ?_⟩
  · intro h0 h1 h2 h3
    have e1 : ¬ (trim_height < 0) := by omega
    have e2 : ¬ (trim_width < 0) := by omega
    have hth : trim_height.toNat ≤ R * h := by omega
    have htw : trim_width.toNat ≤ C * w := by omega
    refine ⟨_, hdec trim_height trim_width, by simp only [e1, if_false],
      by simp only [e2, if_false], ?_, ?_⟩
    · simp only [e1, e2, if_false]
      rw [decode_entries_eq _ R C h w _ _ hT hth htw]
      exact length_flatMap_range_map _ _ _
    · intro r c hr hc
      have hrh : r / h < R := by
        apply Nat.div_lt_of_lt_mul
        rw [Nat.mul_comm]
        omega
      have hcw : c / w < C := by
        apply Nat.div_lt_of_lt_mul
        rw [Nat.mul_comm]
        omega
      have hi2 : r / h < mats.length := by omega
      have hrow : mats[r / h] ∈ mats := List.getElem_mem hi2
      have hk2 : c / w < (mats[r / h]).length := by rw [hrows _ hrow]; exact hcw
      refine ⟨mats[r / h], (mats[r / h])[c / w], List.getElem?_eq_getElem hi2,
        List.getElem?_eq_getElem hk2, ?_⟩
      simp only [e1, e2, if_false]
      rw [decode_entries_eq _ R C h w _ _ hT hth htw,
        getElem?_flatMap_range_map _ _ _ r c hr hc]
      simp only [Matrix.entry, List.getD_eq_getElem _ _ hi2, List.getD_eq_getElem _ _ hk2,
        (htiles _ hrow _ (List.getElem_mem hk2)).2.1]
  · intro hneg
    rw [hdec trim_height trim_width, hdec ((R * h : Nat) : Int) trim_width]
    have e1 : ¬ (((R * h : Nat) : Int) < 0) := by omega
    simp only [hneg, e1, if_true, if_false, Int.toNat_ofNat]
  · intro hneg
    rw [hdec trim_height trim_width, hdec trim_height ((C * w : Nat) : Int)]
    have e1 : ¬ (((C * w : Nat) : Int) < 0) := by omega
    simp only [hneg, e1, if_true, if_false, Int.toNat_ofNat]

/-- C26 at a grid of one row of two 2 × 2 tiles with the trims 2 and 3. -/
theorem decode_matrix_collects_witness :
    ∃ m, decode_matrix ([[⟨2, 2, [1, 2, 4, 5]⟩, ⟨2, 2, [3, 0, 6, 0]⟩]] :
        List (List (Matrix Int))) 2 3 = Except.ok m ∧
      m.size1 = 2 ∧ m.size2 = 3 ∧ m.data.length = 6 := by
  obtain ⟨m, h1, h2, h3, h4, _⟩ :=
    (decode_matrix_collects ([[⟨2, 2, [1, 2, 4, 5]⟩, ⟨2, 2, [3, 0, 6, 0]⟩]] :
        List (List (Matrix Int))) 1 2 2 2 rfl (by decide) (by decide)
      (by
        intro row hrow
        simp only [List.mem_singleton] at hrow
        subst hrow
        rfl)
      (by
        intro row hrow t ht
        simp only [List.mem_singleton] at hrow
        subst hrow
        simp only [List.mem_cons, List.mem_singleton, List.not_mem_nil, or_false] at ht
        rcases ht with rfl | rfl <;> exact ⟨rfl, rfl, rfl⟩)
      2 3).1 (by decide) (by decide) (by decide) (by decide)
  exact ⟨m, h1, h2, h3, h4⟩

end HIT
